import Mathlib

/-! Condition builder of the DynamoDB adapter (`service/ddb/constraint.go`).

A shallow embedding of the condition-expression builder and theorems about the
expression text and the alias / binding tables it produces.

Conventions of the embedding

* Go `string` is `String`; `+` is `++`; `strings.Join(xs, sep)` is
  `sep.intercalate xs`.
* Go `map[string]V` is `GoMap V`: an association list with unique keys kept in
  first-insertion order. `m[k] = v` is `GoMap.store`, `len(m)` is `GoMap.len`.
* `**string` (a pointer to a possibly nil `*string`) is `Option String`.
* The three reference parameters of every `Apply` are threaded as one
  `Accumulator` value which `Apply` returns (Go mutates them in place and
  returns nothing).
* `attributevalue.Marshal` belongs to the AWS SDK; it is a parameter
  `marshal : A → Option V`, with `none` for a non-nil `err`.
* The phantom entity type parameter `T` of the Go generics carries no data and
  is dropped.
-/

namespace Dynamo

/-- Go `map[string]V`, as an association list whose keys are unique. -/
structure GoMap (V : Type) where
  entries : List (String × V)
  deriving DecidableEq

namespace GoMap

variable {V : Type}

/-- The map literal `map[string]V{}`. -/
def empty : GoMap V := ⟨[]⟩

/-- Assignment on the entry list: an existing key keeps its place and gets the
new value, a new key is added at the end. -/
def storeEntries : List (String × V) → String → V → List (String × V)
  | [], k, v => [(k, v)]
  | (k', v') :: rest, k, v =>
    if k' = k then (k, v) :: rest else (k', v') :: storeEntries rest k v

/-- Go `m[k] = v`. -/
def store (m : GoMap V) (k : String) (v : V) : GoMap V :=
  ⟨storeEntries m.entries k v⟩

/-- Lookup on the entry list. -/
def lookupEntries : List (String × V) → String → Option V
  | [], _ => none
  | (k', v') :: rest, k => if k' = k then some v' else lookupEntries rest k

/-- Go `v, ok := m[k]`. -/
def lookup (m : GoMap V) (k : String) : Option V :=
  lookupEntries m.entries k

/-- Go `len(m)`. -/
def len (m : GoMap V) : Nat := m.entries.length

/-- The keys of the map, in first-insertion order. -/
def keys (m : GoMap V) : List String := m.entries.map Prod.fst

end GoMap

/-- The three things every `Apply` receives by reference and mutates:
`conditionExpression **string`, `expressionAttributeNames map[string]string`
and `expressionAttributeValues map[string]types.AttributeValue`. -/
structure Accumulator (V : Type) where
  conditionExpression : Option String
  expressionAttributeNames : GoMap String
  expressionAttributeValues : GoMap V
  deriving DecidableEq

/-- The empty accumulator: a nil expression and two empty tables. -/
def Accumulator.empty {V : Type} : Accumulator V :=
  ⟨none, GoMap.empty, GoMap.empty⟩

/-- The tail of every `Apply`:
`if *conditionExpression == nil { *conditionExpression = aws.String(expr) }
 else { *conditionExpression = aws.String(**conditionExpression + " and " + expr) }`. -/
def conjoin (conditionExpression : Option String) (expr : String) : Option String :=
  match conditionExpression with
  | none => some expr
  | some prev => some (prev ++ " and " ++ expr)

/-- Go `strconv.Itoa` on a loop index (never negative): the decimal numeral. -/
def Itoa (i : Nat) : String := Nat.repr i

/-- The number a list of decimal digit characters denotes (read back from a
numeral, to tell the numerals of different indices apart). -/
def decimalValue (cs : List Char) : Nat :=
  cs.foldl (fun acc c => 10 * acc + (c.toNat - 48)) 0

/-- Go `type dyadicCondition[T any, A any] struct { op string; key string; val A }`. -/
structure dyadicCondition (A : Type) where
  op : String
  key : String
  val : A
  deriving DecidableEq

/-- Go `type unaryCondition[T any] struct { op string; key string }`. -/
structure unaryCondition where
  op : String
  key : String
  deriving DecidableEq

/-- Go `type betweenCondition[T any, A any] struct { key string; a, b A }`. -/
structure betweenCondition (A : Type) where
  key : String
  a : A
  b : A
  deriving DecidableEq

/-- Go `type inCondition[T any, A any] struct { key string; seq []A }`. -/
structure inCondition (A : Type) where
  key : String
  seq : List A
  deriving DecidableEq

/-- Go `type functionalCondition[T any, A any] struct { fun string; key string; val A }`
(the field `fun` is written `func`, `fun` being reserved). -/
structure functionalCondition (A : Type) where
  func : String
  key : String
  val : A
  deriving DecidableEq

section Apply

variable {A V : Type}

/-- Go `func (op dyadicCondition[T, A]) Apply(...)`. -/
def dyadicCondition.Apply (marshal : A → Option V) (op : dyadicCondition A)
    (acc : Accumulator V) : Accumulator V :=
  if op.key = "" then acc
  else
    match marshal op.val with
    | none => acc
    | some lit =>
      let key := "#__c_" ++ op.key ++ "__"
      let let_ := ":__c_" ++ op.key ++ "__"
      let values := acc.expressionAttributeValues.store let_ lit
      let names := acc.expressionAttributeNames.store key op.key
      let expr := "(" ++ key ++ " " ++ op.op ++ " " ++ let_ ++ ")"
      ⟨conjoin acc.conditionExpression expr, names, values⟩

/-- Go `func (op unaryCondition[T]) Apply(...)`. -/
def unaryCondition.Apply (op : unaryCondition) (acc : Accumulator V) : Accumulator V :=
  if op.key = "" then acc
  else
    let key := "#__c_" ++ op.key ++ "__"
    let names := acc.expressionAttributeNames.store key op.key
    let expr := "(" ++ op.op ++ "(" ++ key ++ ")" ++ ")"
    ⟨conjoin acc.conditionExpression expr, names, acc.expressionAttributeValues⟩

/-- Go `func (op betweenCondition[T, A]) Apply(...)`. -/
def betweenCondition.Apply (marshal : A → Option V) (op : betweenCondition A)
    (acc : Accumulator V) : Accumulator V :=
  if op.key = "" then acc
  else
    match marshal op.a with
    | none => acc
    | some litA =>
      match marshal op.b with
      | none => acc
      | some litB =>
        let key := "#__c_" ++ op.key ++ "__"
        let letA := ":__c_" ++ op.key ++ "_a__"
        let letB := ":__c_" ++ op.key ++ "_b__"
        let values := (acc.expressionAttributeValues.store letA litA).store letB litB
        let names := acc.expressionAttributeNames.store key op.key
        let expr := "(" ++ key ++ " BETWEEN " ++ letA ++ " AND " ++ letB ++ ")"
        ⟨conjoin acc.conditionExpression expr, names, values⟩

/-- The loop of `inCondition.Apply`,
`for i := 0; i < len(op.seq); i++ { lit, err := Marshal(op.seq[i]); if err != nil { return };
 lits[i] = lit; lets[i] = ":__c_" + op.key + "_" + strconv.Itoa(i) + "__";
 expressionAttributeValues[lets[i]] = lits[i] }`,
run from index `i` over the operands not yet visited. The first component is
`none` when the loop left through `return`, otherwise the filled `lets`; the
second is the value table as the loop left it (`lits` is a staging slice that
is never read again and is not kept). -/
def inCondition.loop (marshal : A → Option V) (key : String) :
    List A → Nat → List String → GoMap V → Option (List String) × GoMap V
  | [], _, lets, values => (some lets, values)
  | x :: rest, i, lets, values =>
    match marshal x with
    | none => (none, values)
    | some lit =>
      let tok := ":__c_" ++ key ++ "_" ++ Itoa i ++ "__"
      inCondition.loop marshal key rest (i + 1) (lets.set i tok) (values.store tok lit)

/-- Go `func (op inCondition[T, A]) Apply(...)`. The alias is registered before
the loop, so a `return` from inside the loop keeps it and the bindings made so
far. -/
def inCondition.Apply (marshal : A → Option V) (op : inCondition A)
    (acc : Accumulator V) : Accumulator V :=
  if op.key = "" then acc
  else
    let key := "#__c_" ++ op.key ++ "__"
    let names := acc.expressionAttributeNames.store key op.key
    match inCondition.loop marshal op.key op.seq 0 (List.replicate op.seq.length "")
        acc.expressionAttributeValues with
    | (none, values) => ⟨acc.conditionExpression, names, values⟩
    | (some lets, values) =>
      let expr := "(" ++ key ++ " IN (" ++ ",".intercalate lets ++ "))"
      ⟨conjoin acc.conditionExpression expr, names, values⟩

/-- Go `func (op functionalCondition[T, A]) Apply(...)`. -/
def functionalCondition.Apply (marshal : A → Option V) (op : functionalCondition A)
    (acc : Accumulator V) : Accumulator V :=
  if op.key = "" then acc
  else
    match marshal op.val with
    | none => acc
    | some lit =>
      let key := "#__c_" ++ op.key ++ "__"
      let let_ := ":__c_" ++ op.key ++ "__"
      let values := acc.expressionAttributeValues.store let_ lit
      let names := acc.expressionAttributeNames.store key op.key
      let expr := "(" ++ op.func ++ "(" ++ key ++ "," ++ let_ ++ "))"
      ⟨conjoin acc.conditionExpression expr, names, values⟩

end Apply

/-- Go `interface{ ConditionExpression(T) }`: the value a constructor of
`ConditionExpression` returns. The five node types of `constraint.go` are its
only implementations, and each of them has an `Apply` method. -/
inductive Constraint (A : Type)
  | dyadic (c : dyadicCondition A)
  | unary (c : unaryCondition)
  | between (c : betweenCondition A)
  | inSeq (c : inCondition A)
  | functional (c : functionalCondition A)
  deriving DecidableEq

/-- The field key carried by a node. -/
def Constraint.key {A : Type} : Constraint A → String
  | .dyadic c => c.key
  | .unary c => c.key
  | .between c => c.key
  | .inSeq c => c.key
  | .functional c => c.key

/-- Dynamic dispatch of `ap.Apply(conditionExpression, expressionAttributeNames,
expressionAttributeValues)` after the type assertion
`opt.(interface{ Apply(...) })`, which every node type satisfies. -/
def Constraint.Apply {A V : Type} (marshal : A → Option V) :
    Constraint A → Accumulator V → Accumulator V
  | .dyadic c, acc => c.Apply marshal acc
  | .unary c, acc => c.Apply acc
  | .between c, acc => c.Apply marshal acc
  | .inSeq c, acc => c.Apply marshal acc
  | .functional c, acc => c.Apply marshal acc

/-- Go `type ConditionExpression[T dynamo.Thing, A any] struct{ key string }`. -/
structure ConditionExpression (A : Type) where
  key : String
  deriving DecidableEq

namespace ConditionExpression

variable {A : Type}

/-- Go `Eq`: `&dyadicCondition[T, A]{op: "=", key: ce.key, val: val}`. -/
def Eq (ce : ConditionExpression A) (val : A) : Constraint A :=
  .dyadic { op := "=", key := ce.key, val := val }

/-- Go `Ne`: `&dyadicCondition[T, A]{op: "<>", key: ce.key, val: val}`. -/
def Ne (ce : ConditionExpression A) (val : A) : Constraint A :=
  .dyadic { op := "<>", key := ce.key, val := val }

/-- Go `Lt`: `&dyadicCondition[T, A]{op: "<", key: ce.key, val: val}`. -/
def Lt (ce : ConditionExpression A) (val : A) : Constraint A :=
  .dyadic { op := "<", key := ce.key, val := val }

/-- Go `Le`: `&dyadicCondition[T, A]{op: "<=", key: ce.key, val: val}`. -/
def Le (ce : ConditionExpression A) (val : A) : Constraint A :=
  .dyadic { op := "<=", key := ce.key, val := val }

/-- Go `Gt`: `&dyadicCondition[T, A]{op: ">", key: ce.key, val: val}`. -/
def Gt (ce : ConditionExpression A) (val : A) : Constraint A :=
  .dyadic { op := ">", key := ce.key, val := val }

/-- Go `Ge`: `&dyadicCondition[T, A]{op: ">=", key: ce.key, val: val}`. -/
def Ge (ce : ConditionExpression A) (val : A) : Constraint A :=
  .dyadic { op := ">=", key := ce.key, val := val }

/-- Go `Exists`: `&unaryCondition[T]{op: "attribute_exists", key: ce.key}`. -/
def Exists (ce : ConditionExpression A) : Constraint A :=
  .unary { op := "attribute_exists", key := ce.key }

/-- Go `NotExists`: `&unaryCondition[T]{op: "attribute_not_exists", key: ce.key}`. -/
def NotExists (ce : ConditionExpression A) : Constraint A :=
  .unary { op := "attribute_not_exists", key := ce.key }

/-- Go `Is`, on a string-valued handle (`A = string`), where the type
assertion `any(val).(A)` is the identity:
`if val == "_" { return ce.NotExists() }; return ce.Eq(any(val).(A))`. -/
def Is (ce : ConditionExpression String) (val : String) : Constraint String :=
  if val = "_" then ce.NotExists else ce.Eq val

/-- Go `Between`: `&betweenCondition[T, A]{key: ce.key, a: a, b: b}`. -/
def Between (ce : ConditionExpression A) (a b : A) : Constraint A :=
  .between { key := ce.key, a := a, b := b }

/-- Go `In`: `&inCondition[T, A]{key: ce.key, seq: seq}`. -/
def In (ce : ConditionExpression A) (seq : List A) : Constraint A :=
  .inSeq { key := ce.key, seq := seq }

/-- Go `HasPrefix`: `&functionalCondition[T, A]{fun: "begins_with", key: ce.key, val: val}`. -/
def HasPrefix (ce : ConditionExpression A) (val : A) : Constraint A :=
  .functional { func := "begins_with", key := ce.key, val := val }

/-- Go `Contains`: `&functionalCondition[T, A]{fun: "contains", key: ce.key, val: val}`. -/
def Contains (ce : ConditionExpression A) (val : A) : Constraint A :=
  .functional { func := "contains", key := ce.key, val := val }

end ConditionExpression

/-- What `maybeConditionExpression` leaves behind: the expression behind the
pointer it was given and its two named results, each `none` for a nil map. -/
structure ConditionRequest (V : Type) where
  conditionExpression : Option String
  expressionAttributeNames : Option (GoMap String)
  expressionAttributeValues : Option (GoMap V)
  deriving DecidableEq

/-- Go `maybeUpdateConditionExpression`: every option is applied, in order, to
the expression and the tables of the update request. -/
def maybeUpdateConditionExpression {A V : Type} (marshal : A → Option V)
    (acc : Accumulator V) (opts : List (Constraint A)) : Accumulator V :=
  opts.foldl (fun acc opt => opt.Apply marshal acc) acc

/-- Go `maybeConditionExpression`. -/
def maybeConditionExpression {A V : Type} (marshal : A → Option V)
    (conditionExpression : Option String) (opts : List (Constraint A)) :
    ConditionRequest V :=
  if opts.length > 0 then
    let acc := opts.foldl (fun acc opt => opt.Apply marshal acc)
      ⟨conditionExpression, GoMap.empty, GoMap.empty⟩
    { conditionExpression := acc.conditionExpression
      expressionAttributeNames :=
        if acc.expressionAttributeNames.len = 0 then none
        else some acc.expressionAttributeNames
      expressionAttributeValues :=
        if acc.expressionAttributeValues.len = 0 then none
        else some acc.expressionAttributeValues }
  else
    { conditionExpression := conditionExpression
      expressionAttributeNames := none
      expressionAttributeValues := none }

/-! ## Observables of a node

The alias token, the binding tokens and the fragment that the `Apply` of a node
computes in its local variables `key`, `let` / `letA`, `letB` / `lets` and
`expr`. They are stated on their own so that theorems can name them; the
theorems below relate each of them to `Apply`. -/

section Observables

variable {A : Type}

/-- The local `key := "#__c_" + op.key + "__"` of every `Apply`. -/
def Constraint.alias (c : Constraint A) : String :=
  "#__c_" ++ c.key ++ "__"

/-- The operands a node hands to `attributevalue.Marshal`, in the order its
`Apply` marshals them. -/
def Constraint.operands : Constraint A → List A
  | .dyadic c => [c.val]
  | .unary _ => []
  | .between c => [c.a, c.b]
  | .inSeq c => c.seq
  | .functional c => [c.val]

/-- The binding tokens of a node, one per operand: the local `let` of the
dyadic and functional nodes, `letA` and `letB` of Between, `lets[i]` of In. -/
def Constraint.lets : Constraint A → List String
  | .dyadic c => [":__c_" ++ c.key ++ "__"]
  | .unary _ => []
  | .between c => [":__c_" ++ c.key ++ "_a__", ":__c_" ++ c.key ++ "_b__"]
  | .inSeq c => (List.range c.seq.length).map fun i => ":__c_" ++ c.key ++ "_" ++ Itoa i ++ "__"
  | .functional c => [":__c_" ++ c.key ++ "__"]

/-- The local `expr` of every `Apply`: the fragment of the node, written with
its alias token and its binding tokens. -/
def Constraint.expr : Constraint A → String
  | .dyadic c =>
    "(" ++ (Constraint.dyadic c).alias ++ " " ++ c.op ++ " " ++ (":__c_" ++ c.key ++ "__") ++ ")"
  | .unary c =>
    "(" ++ c.op ++ "(" ++ (Constraint.unary c : Constraint A).alias ++ ")" ++ ")"
  | .between c =>
    "(" ++ (Constraint.between c).alias ++ " BETWEEN " ++ (":__c_" ++ c.key ++ "_a__") ++ " AND "
      ++ (":__c_" ++ c.key ++ "_b__") ++ ")"
  | .inSeq c =>
    "(" ++ (Constraint.inSeq c).alias ++ " IN (" ++ ",".intercalate (Constraint.inSeq c).lets ++ "))"
  | .functional c =>
    "(" ++ c.func ++ "(" ++ (Constraint.functional c).alias ++ "," ++ (":__c_" ++ c.key ++ "__") ++ "))"

/-- The keys a node adds to an empty name table. -/
def Constraint.aliasTokens {V : Type} (marshal : A → Option V) (c : Constraint A) : List String :=
  (c.Apply marshal Accumulator.empty).expressionAttributeNames.keys

/-- The keys a node adds to an empty value table. -/
def Constraint.bindingTokens {V : Type} (marshal : A → Option V) (c : Constraint A) :
    List String :=
  (c.Apply marshal Accumulator.empty).expressionAttributeValues.keys

/-- Several assignments `m[k] = v`, in list order. -/
def GoMap.storeAll {V : Type} (m : GoMap V) (kvs : List (String × V)) : GoMap V :=
  kvs.foldl (fun m kv => m.store kv.1 kv.2) m

/-- Whether `Apply` reaches its last statement and appends a fragment: the key
is not empty and `attributevalue.Marshal` accepts every operand. -/
def Constraint.emits {V : Type} (marshal : A → Option V) (c : Constraint A) : Bool :=
  (c.key != "") && c.operands.all fun x => (marshal x).isSome

/-- The nodes with one operand and the plain binding token `:__c_<key>__`:
the comparisons, `HasPrefix` and `Contains`. -/
def Constraint.singleOperand : Constraint A → Bool
  | .dyadic _ => true
  | .functional _ => true
  | _ => false

/-- The nodes whose binding tokens carry a suffix after the key (`_a__`,
`_b__`, `_<index>__`): `Between` and `In`. -/
def Constraint.manyOperand : Constraint A → Bool
  | .between _ => true
  | .inSeq _ => true
  | _ => false

end Observables

/-! ## The DynamoDB adapter: `opMatch.go`, `opUpdate.go`

Further conventions

* `types.AttributeValue` (AWS SDK) is the inductive `AttributeValue`.
* A Go result pair `(value, error)` of the codec is a pair whose second
  component is `none` for a nil error; a backend call returns `Except`.
* The types `Storage`, `codec`, `Expr` and the error constructors are declared
  in files of the package other than the ones modelled; the structures below
  list the fields that the modelled functions read, and the codec methods and
  `recoverConditionalCheckFailedException` are parameters.
* A function that talks to the backend returns a `Trace`: the requests it
  issued, in order, and what it returned, or `none` if it ended in a run-time
  panic.
* Each condition of a request carries its operand at one operand type `A`
  with `marshal : A → Option AttributeValue`; `A` may be a sum of all operand
  types in use.
-/

/-- Go `types.AttributeValue` of the AWS SDK: a union of ten member types. -/
inductive AttributeValue
  | S (Value : String)
  | N (Value : String)
  | B (Value : List Nat)
  | BOOL (Value : Bool)
  | NULL (Value : Bool)
  | SS (Value : List String)
  | NS (Value : List String)
  | BS (Value : List (List Nat))
  | L (Value : List AttributeValue)
  | M (Value : List (String × AttributeValue))

/-- Go `delete(m, k)`. -/
def GoMap.delete {V : Type} (m : GoMap V) (k : String) : GoMap V :=
  ⟨m.entries.filter fun e => e.1 != k⟩

/-- Go `strings.Contains(s, substr)`. -/
def Contains (s substr : String) : Bool :=
  decide (substr.data <:+: s.data)

/-- The kinds of error the adapter returns: `errInvalidKey.New(err)`,
`errInvalidEntity.New(err)`, `errServiceIO.New(err)` (the constructor
`ServiceIOError`) and `errPreConditionFailed(err, entity, a, b)`. -/
inductive Failure (E T : Type)
  | InvalidKey (cause : E)
  | InvalidEntity (cause : E)
  | ServiceIOError (cause : E)
  | PreConditionFailed (cause : E) (thing : T) (notExistsOrEq : Bool) (existsOrNe : Bool)

/-- The requests a function issued to the backend, in order, and the values it
returned; `result` is `none` when the run ended in a run-time panic. -/
structure Trace (Req Res : Type) where
  calls : List Req
  result : Option Res

/-- The fields and methods of `codec[T]` that `Match`, `Update` and
`UpdateWith` use. -/
structure Codec (T E : Type) where
  pkPrefix : String
  skSuffix : String
  EncodeKey : T → GoMap AttributeValue × Option E
  Encode : T → GoMap AttributeValue × Option E
  Decode : GoMap AttributeValue → T × Option E
  KeyOnly : GoMap AttributeValue → GoMap AttributeValue

/-- Go `type schema[T dynamo.Thing] struct { ExpectedAttributeNames map[string]string;
Projection *string }`. -/
structure schema where
  ExpectedAttributeNames : GoMap String
  Projection : Option String

/-- The fields of `dynamodb.QueryInput` that `reqQuery` sets. -/
structure QueryInput where
  KeyConditionExpression : Option String
  ExpressionAttributeValues : GoMap AttributeValue
  ProjectionExpression : Option String
  ExpressionAttributeNames : GoMap String
  TableName : Option String
  IndexName : Option String
  Limit : Option Int
  ExclusiveStartKey : Option (GoMap AttributeValue)

/-- The fields of `dynamodb.QueryOutput` that `match` reads. -/
structure QueryOutput where
  Count : Int
  Items : List (GoMap AttributeValue)

/-- The fields of `dynamodb.UpdateItemInput` that `Update` and `UpdateWith`
set; a nil map is `none`. -/
structure UpdateItemInput where
  Key : Option (GoMap AttributeValue)
  ExpressionAttributeNames : Option (GoMap String)
  ExpressionAttributeValues : Option (GoMap AttributeValue)
  UpdateExpression : Option String
  ConditionExpression : Option String
  TableName : Option String
  ReturnValues : String

/-- The field of `dynamodb.UpdateItemOutput` that `Update` reads. -/
structure UpdateItemOutput where
  Attributes : GoMap AttributeValue

/-- The two calls of the `DynamoDB` service interface made here. -/
structure Service (E : Type) where
  Query : QueryInput → Except E QueryOutput
  UpdateItem : UpdateItemInput → Except E UpdateItemOutput

/-- The fields of `Storage[T]` read by the modelled functions; `undefined` is
the value returned next to every error. -/
structure Storage (T E : Type) where
  service : Service E
  table : Option String
  index : Option String
  codec : Codec T E
  schema : schema
  undefined : T

/-- An element of `opts ...interface{ MatchOpt() }` as the type switch of
`reqQuery` sees it: a value with a `Limit() int32` method, a `dynamo.Thing`
(with the strings its `HashKey()` and `SortKey()` return), or neither. -/
inductive MatchOpt
  | limit (n : Int)
  | cursor (hashKey sortKey : String)
  | other

/-- Go `exprOf`: a binding `:__k__` for every attribute `k` of `gen` that is
not a `NULL` member, visiting `gen` in the order of its entries. -/
def exprOf (gen : GoMap AttributeValue) : GoMap AttributeValue :=
  gen.entries.foldl
    (fun val e =>
      match e.2 with
      | .NULL _ => val
      | v => val.store (":__" ++ e.1 ++ "__") v)
    GoMap.empty

section Adapter

variable {T E : Type}

/-- One round of the loop of `reqQuery`, on the pair of its local variables
`limit` and `exclusiveStartKey`. -/
def Storage.reqQueryStep (db : Storage T E)
    (st : Option Int × Option (GoMap AttributeValue)) (opt : MatchOpt) :
    Option Int × Option (GoMap AttributeValue) :=
  match opt with
  | .limit n => (some n, st.2)
  | .cursor prefix_ suffix =>
    if prefix_ ≠ "" then
      let key : GoMap AttributeValue := GoMap.empty
      let key := key.store db.codec.pkPrefix (.S prefix_)
      let key :=
        if suffix ≠ "" then key.store db.codec.skSuffix (.S suffix)
        else key.store db.codec.skSuffix (.S "_")
      (st.1, some key)
    else st
  | .other => st

/-- Go `func (db *Storage[T]) reqQuery(gen, expr, opts)`. -/
def Storage.reqQuery (db : Storage T E) (gen : GoMap AttributeValue) (expr : String)
    (opts : List MatchOpt) : QueryInput :=
  let st := opts.foldl db.reqQueryStep (none, none)
  { KeyConditionExpression := some expr
    ExpressionAttributeValues := exprOf gen
    ProjectionExpression := db.schema.Projection
    ExpressionAttributeNames := db.schema.ExpectedAttributeNames
    TableName := db.table
    IndexName := db.index
    Limit := st.1
    ExclusiveStartKey := st.2 }

/-- The loop of `match`,
`for i := 0; i < int(val.Count); i++ { obj, err := db.codec.Decode(val.Items[i]);
 if err != nil { return nil, errInvalidEntity.New(err) }; seq[i] = obj }; return seq, nil`,
with `n` rounds left to run from index `i`. The result is `none` when
`val.Items[i]` is out of range. -/
def Storage.matchLoop (db : Storage T E) (items : List (GoMap AttributeValue)) :
    Nat → Nat → List T → Option (Option (List T) × Option (Failure E T))
  | 0, _, seq => some (some seq, none)
  | n + 1, i, seq =>
    match items[i]? with
    | none => none
    | some item =>
      match db.codec.Decode item with
      | (_, some err) => some (none, some (.InvalidEntity err))
      | (obj, none) => db.matchLoop items n (i + 1) (seq.set i obj)

/-- The request `q` that `match` builds, from its first statement to
`q := db.reqQuery(gen, expr, opts)`. -/
def Storage.matchQuery (db : Storage T E) (gen : GoMap AttributeValue) (opts : List MatchOpt) :
    QueryInput :=
  let suffix := gen.lookup db.codec.skSuffix
  let stripped : GoMap AttributeValue × Bool :=
    match suffix with
    | some (.S v) => if v = "_" then (gen.delete db.codec.skSuffix, false) else (gen, true)
    | some _ => (gen, true)
    | none => (gen, false)
  let gen := stripped.1
  let isSuffix := stripped.2
  let expr := db.codec.pkPrefix ++ " = :__" ++ db.codec.pkPrefix ++ "__"
  let expr :=
    if isSuffix then
      expr ++ " and begins_with(" ++ db.codec.skSuffix ++ ", :__" ++ db.codec.skSuffix ++ "__)"
    else expr
  db.reqQuery gen expr opts

/-- Go `func (db *Storage[T]) match(ctx, gen, opts)` (`match` is reserved):
the request above, then the query and the loop over the items.
`make([]T, val.Count)` panics on a negative count and otherwise gives
`val.Count` zero values, which are `db.undefined`. -/
def Storage.match_ (db : Storage T E) (gen : GoMap AttributeValue) (opts : List MatchOpt) :
    Trace QueryInput (Option (List T) × Option (Failure E T)) :=
  let q := db.matchQuery gen opts
  match db.service.Query q with
  | .error err => ⟨[q], some (none, some (.ServiceIOError err))⟩
  | .ok val =>
    if val.Count < 0 then ⟨[q], none⟩
    else
      ⟨[q], db.matchLoop val.Items val.Count.toNat 0
        (List.replicate val.Count.toNat db.undefined)⟩

/-- Go `func (db *Storage[T]) Match(ctx, key, opts...)`. -/
def Storage.Match (db : Storage T E) (key : T) (opts : List MatchOpt) :
    Trace QueryInput (Option (List T) × Option (Failure E T)) :=
  match db.codec.EncodeKey key with
  | (_, some err) => ⟨[], some (none, some (.InvalidKey err))⟩
  | (gen, none) => db.match_ gen opts

/-- The statements that end both `Update` and `UpdateWith`, from
`val, err := db.service.UpdateItem(ctx, req)` to `return obj, nil`. Reading
`*req.ConditionExpression` panics when the pointer is nil. -/
def Storage.updateItem (recoverConditionalCheckFailedException : E → Bool) (db : Storage T E)
    (req : UpdateItemInput) (entity : T) : Trace UpdateItemInput (T × Option (Failure E T)) :=
  match db.service.UpdateItem req with
  | .error err =>
    if recoverConditionalCheckFailedException err then
      match req.ConditionExpression with
      | none => ⟨[req], none⟩
      | some ce =>
        ⟨[req], some (db.undefined, some (.PreConditionFailed err entity
          (Contains ce "attribute_not_exists" || Contains ce "=")
          (Contains ce "attribute_exists" || Contains ce "<>")))⟩
    else ⟨[req], some (db.undefined, some (.ServiceIOError err))⟩
  | .ok val =>
    match db.codec.Decode val.Attributes with
    | (_, some err) => ⟨[req], some (db.undefined, some (.InvalidEntity err))⟩
    | (obj, none) => ⟨[req], some (obj, none)⟩

/-- One round of the loop of `Update` over `gen`, on its local variables
`names`, `values` and `update`. -/
def Storage.updateStep (db : Storage T E)
    (st : GoMap String × GoMap AttributeValue × List String) (e : String × AttributeValue) :
    GoMap String × GoMap AttributeValue × List String :=
  if e.1 ≠ db.codec.pkPrefix ∧ e.1 ≠ db.codec.skSuffix ∧ e.1 ≠ "id" then
    (st.1.store ("#__" ++ e.1 ++ "__") e.1,
     st.2.1.store (":__" ++ e.1 ++ "__") e.2,
     st.2.2 ++ ["#__" ++ e.1 ++ "__=" ++ ":__" ++ e.1 ++ "__"])
  else st

/-- The guard of the loop of `Update`:
`k != db.codec.pkPrefix && k != db.codec.skSuffix && k != "id"`. -/
def Storage.isPatched (db : Storage T E) (k : String) : Bool :=
  decide (k ≠ db.codec.pkPrefix ∧ k ≠ db.codec.skSuffix ∧ k ≠ "id")

/-- The request `Update` builds before it looks at the conditions: the loop
over `gen`, in the order of its entries, and the struct literal `req`. -/
def Storage.updateRequest (db : Storage T E) (gen : GoMap AttributeValue) : UpdateItemInput :=
  let st := gen.entries.foldl db.updateStep (GoMap.empty, GoMap.empty, [])
  { Key := some (db.codec.KeyOnly gen)
    ExpressionAttributeNames := some st.1
    ExpressionAttributeValues := some st.2.1
    UpdateExpression := some ("SET " ++ ",".intercalate st.2.2)
    ConditionExpression := none
    TableName := db.table
    ReturnValues := "ALL_NEW" }

/-- One condition applied through the fields of a request whose tables may be
nil. `Apply` only ever assigns to its tables, so a nil table behaves as an
empty one until the first assignment, which panics: the node is run on empty
tables in place of nil ones, and the run is a panic (`none`) when a table that
was nil comes back with an entry. -/
def applyToRequest {A : Type} (marshal : A → Option AttributeValue) (req : UpdateItemInput)
    (opt : Constraint A) : Option UpdateItemInput :=
  let acc := opt.Apply marshal
    ⟨req.ConditionExpression, req.ExpressionAttributeNames.getD GoMap.empty,
      req.ExpressionAttributeValues.getD GoMap.empty⟩
  if (req.ExpressionAttributeNames.isNone && acc.expressionAttributeNames.len != 0) ||
      (req.ExpressionAttributeValues.isNone && acc.expressionAttributeValues.len != 0) then
    none
  else
    some { req with
      ConditionExpression := acc.conditionExpression
      ExpressionAttributeNames := req.ExpressionAttributeNames.map fun _ =>
        acc.expressionAttributeNames
      ExpressionAttributeValues := req.ExpressionAttributeValues.map fun _ =>
        acc.expressionAttributeValues }

/-- The call `maybeUpdateConditionExpression(&req.ConditionExpression,
req.ExpressionAttributeNames, req.ExpressionAttributeValues, opts)` of `Update`
and `UpdateWith`, on the request. -/
def conditionRequest {A : Type} (marshal : A → Option AttributeValue) (req : UpdateItemInput)
    (opts : List (Constraint A)) : Option UpdateItemInput :=
  opts.foldlM (applyToRequest marshal) req

/-- Go `func (db *Storage[T]) Update(ctx, entity, config...)`. -/
def Storage.Update {A : Type} (recoverConditionalCheckFailedException : E → Bool)
    (marshal : A → Option AttributeValue) (db : Storage T E) (entity : T)
    (config : List (Constraint A)) : Trace UpdateItemInput (T × Option (Failure E T)) :=
  match db.codec.Encode entity with
  | (_, some err) => ⟨[], some (db.undefined, some (.InvalidEntity err))⟩
  | (gen, none) =>
    match conditionRequest marshal (db.updateRequest gen) config with
    | none => ⟨[], none⟩
    | some req => db.updateItem recoverConditionalCheckFailedException req entity

/-- Go `Expr[T]`, the argument of `UpdateWith`: the fields `entity` and
`update` (the request the update builder prepared) that `UpdateWith` reads. -/
structure Expr (T : Type) where
  entity : T
  update : UpdateItemInput

/-- Go `func (db *Storage[T]) UpdateWith(ctx, expr, opts...)`. -/
def Storage.UpdateWith {A : Type} (recoverConditionalCheckFailedException : E → Bool)
    (marshal : A → Option AttributeValue) (db : Storage T E) (expr : Expr T)
    (opts : List (Constraint A)) : Trace UpdateItemInput (T × Option (Failure E T)) :=
  match db.codec.Encode expr.entity with
  | (_, some err) => ⟨[], some (db.undefined, some (.InvalidEntity err))⟩
  | (gen, none) =>
    let req : UpdateItemInput :=
      { expr.update with
        Key := some (db.codec.KeyOnly gen)
        TableName := db.table
        ReturnValues := "ALL_NEW" }
    match conditionRequest marshal req opts with
    | none => ⟨[], none⟩
    | some req => db.updateItem recoverConditionalCheckFailedException req expr.entity

end Adapter

/-! ## Condition handles: `ClauseFor`, `Schema.Condition` -/

/-- A field of the entity type as `hseq.Generic[T]()` lists it: the `Name` of
the struct field and its struct tag, a list of `key:"value"` pairs. -/
structure FieldType where
  Name : String
  Tag : GoMap String

/-- Go `reflect.StructTag.Get`: the value of the key, or the empty string when
the tag has no such key. -/
def FieldType.TagGet (t : FieldType) (key : String) : String :=
  (t.Tag.lookup key).getD ""

/-- Go `strings.Split(s, sep)` for a one-character separator, on the
characters of `s`: the pieces between the separators, at least one piece. -/
def splitChars (sep : Char) : List Char → List (List Char)
  | [] => [[]]
  | c :: cs =>
    if c = sep then [] :: splitChars sep cs
    else
      match splitChars sep cs with
      | [] => [[c]]
      | w :: ws => (c :: w) :: ws

/-- Go `strings.Split(tag, ",")[0]`. -/
def SplitHead (tag : String) : String :=
  String.mk ((splitChars ',' tag.data).headD [])

/-- Go `generic[T](fs...)`: the fields of `T`, in declaration order, whose name
is one of `fs` (once for every equal name in `fs`). -/
def generic (Generic : List FieldType) (fs : List String) : List FieldType :=
  Generic.foldl (fun seq t => fs.foldl (fun seq f => if t.Name = f then seq ++ [t] else seq) seq)
    []

/-- The golem library's `hseq.FMap1(seq, f)`, which is `f(seq[0])`: `f` applied
to the first element of the sequence; on an empty sequence the index is out of
range, a panic (`none`). -/
def FMap1 {α β : Type} (seq : List α) (f : α → Option β) : Option β :=
  match seq with
  | [] => none
  | t :: _ => f t

/-- Go `newConditionExpression`; `none` is the `panic` on an empty tag. -/
def newConditionExpression {A : Type} (t : FieldType) : Option (ConditionExpression A) :=
  let tag := t.TagGet "dynamodbav"
  if tag = "" then none
  else some ⟨SplitHead tag⟩

/-- Go `ClauseFor[T, A](schema)`, with `Generic` the fields `hseq.Generic[T]()`
lists. -/
def ClauseFor {A : Type} (Generic : List FieldType) (schema : String) :
    Option (ConditionExpression A) :=
  FMap1 (generic Generic [schema]) newConditionExpression

/-- Go `type Schema[T dynamo.Thing, A any] string`. -/
structure Schema where
  name : String

/-- Go `func (schema Schema[T, A]) Condition()`. -/
def Schema.Condition {A : Type} (Generic : List FieldType) (schema : Schema) :
    Option (ConditionExpression A) :=
  FMap1 (generic Generic [schema.name]) newConditionExpression

/-! ## Fixtures for the examples

A storage in the manner of the mocks of the tests: entities are attribute maps
encoded as they are, with the reserved key names `prefix` and `suffix`, over a
backend that answers every query with the same two items and every update
with the stored item. Errors are strings. -/

/-- The item of the tests: `dead` / `beef`, Verner Pleishner, 64. -/
def mockItem : GoMap AttributeValue :=
  ⟨[("prefix", .S "dead"), ("suffix", .S "beef"), ("address", .S "Blumenstrasse 14, Berne, 3013"),
    ("name", .S "Verner Pleishner"), ("age", .N "64")]⟩

/-- A codec for the examples: an entity is its own attribute map. -/
def mockCodec : Codec (GoMap AttributeValue) String where
  pkPrefix := "prefix"
  skSuffix := "suffix"
  EncodeKey := fun e => (⟨e.entries.filter fun kv => kv.1 == "prefix" || kv.1 == "suffix"⟩, none)
  Encode := fun e => (e, none)
  Decode := fun m => (m, none)
  KeyOnly := fun m => ⟨m.entries.filter fun kv => kv.1 == "prefix" || kv.1 == "suffix"⟩

/-- A codec for the examples that fails in every direction. -/
def mockBadCodec : Codec (GoMap AttributeValue) String where
  pkPrefix := "prefix"
  skSuffix := "suffix"
  EncodeKey := fun _ => (GoMap.empty, some "bad key")
  Encode := fun _ => (GoMap.empty, some "bad entity")
  Decode := fun m => (m, some "bad item")
  KeyOnly := fun m => m

/-- The backend of the examples, after `mockDDB` of the tests. -/
def mockDDB : Service String where
  Query := fun _ => .ok ⟨2, [mockItem, mockItem]⟩
  UpdateItem := fun _ => .ok ⟨mockItem⟩

/-- A backend that rejects every request with the given error. -/
def mockFailing (err : String) : Service String where
  Query := fun _ => .error err
  UpdateItem := fun _ => .error err

/-- The storage of the examples. -/
def mockStorage (service : Service String) (codec : Codec (GoMap AttributeValue) String) :
    Storage (GoMap AttributeValue) String where
  service := service
  table := some "table"
  index := none
  codec := codec
  schema := ⟨GoMap.empty, none⟩
  undefined := GoMap.empty

/-! ## The schema of an entity type: `newSchema` -/

/-- The loop of `newSchema`: `for i, x := range seq`, with `names[name] = x`
and `attrs[i] = name`. -/
def newSchema.loop : List String → Nat → GoMap String → List String →
    GoMap String × List String
  | [], _, names, attrs => (names, attrs)
  | x :: rest, i, names, attrs =>
    let name := "#__" ++ x ++ "__"
    newSchema.loop rest (i + 1) (names.store name x) (attrs.set i name)

/-- The sequence `hseq.FMap(hseq.Generic[T](), ...)` of `newSchema`: for every
field, in declaration order, the text of its `dynamodbav` tag before the first
comma. -/
def wireNames (Generic : List FieldType) : List String :=
  Generic.map fun t => SplitHead (t.TagGet "dynamodbav")

/-- Go `newSchema[T]()`, with `Generic` the fields `hseq.Generic[T]()` lists. -/
def newSchema (Generic : List FieldType) : schema :=
  let seq := wireNames Generic
  let st := newSchema.loop seq 0 GoMap.empty (List.replicate seq.length "")
  { ExpectedAttributeNames := st.1, Projection := some (", ".intercalate st.2) }

/-! ## The object-store adapter: `internal/s3/s3.go`

The S3 client is a parameter answering each request; `encoding/json` on the
entity type and the repository's `Codec.EncodeKey` and `Schema.Merge` of the
adapter are parameters too. A run is the log of the requests sent, in order,
together with what the Go function returns. -/

/-- An error of the S3 client: an `awserr.Error` with its code, or any other
Go error. -/
inductive BackendError where
  | awserr (Code : String) (Message : String)
  | other (Message : String)
deriving DecidableEq

/-- Go `s3.ErrCodeNoSuchKey`. -/
def ErrCodeNoSuchKey : String := "NoSuchKey"

/-- An error returned by the adapter: `dynamo.NotFound{Thing: key}`, an error
of the S3 client handed on as it is, or an error of `encoding/json`. -/
inductive StoreError (T E : Type) where
  | NotFound (Thing : T)
  | backend (err : BackendError)
  | json (err : E)
deriving DecidableEq

structure GetObjectInput where
  Bucket : Option String
  Key : Option String
deriving DecidableEq

structure PutObjectInput where
  Bucket : Option String
  Key : Option String
  Body : String
deriving DecidableEq

structure DeleteObjectInput where
  Bucket : Option String
  Key : Option String
deriving DecidableEq

/-- A request sent to the S3 client. -/
inductive S3Call where
  | GetObject (req : GetObjectInput)
  | PutObject (req : PutObjectInput)
  | DeleteObject (req : DeleteObjectInput)
deriving DecidableEq

/-- The `s3iface.S3API` methods the adapter calls; the body of an object is
its text, and a call without an output returns its error or `none`. -/
structure S3API where
  GetObjectWithContext : GetObjectInput → Except BackendError String
  PutObjectWithContext : PutObjectInput → Option BackendError
  DeleteObjectWithContext : DeleteObjectInput → Option BackendError

/-- Go `encoding/json` on the entity type: `json.Marshal(entity)` and
`json.NewDecoder(body).Decode(&entity)`, the latter returning the entity it
filled (from the zero value) together with its error. -/
structure JsonCodec (T E : Type) where
  Marshal : T → String × Option E
  Decode : String → T × Option E

/-- Go `ds3[T]`: the client, the bucket, `codec.EncodeKey` and
`schema.Merge`. -/
structure ds3 (T E : Type) where
  s3 : S3API
  bucket : Option String
  EncodeKey : T → String
  Merge : T → T → T
  json : JsonCodec T E

/-- Go `func (db *ds3[T]) Get(ctx, key)`, returning `(*T, error)`. -/
def ds3.Get {T E : Type} (db : ds3 T E) (key : T) :
    Trace S3Call (Option T × Option (StoreError T E)) :=
  let req : GetObjectInput := { Bucket := db.bucket, Key := some (db.EncodeKey key) }
  match db.s3.GetObjectWithContext req with
  | .error err =>
    match err with
    | .awserr Code _ =>
      if Code = ErrCodeNoSuchKey then ⟨[.GetObject req], some (none, some (.NotFound key))⟩
      else ⟨[.GetObject req], some (none, some (.backend err))⟩
    | _ => ⟨[.GetObject req], some (none, some (.backend err))⟩
  | .ok val =>
    let (entity, err) := db.json.Decode val
    ⟨[.GetObject req], some (some entity, err.map .json)⟩

/-- Go `func (db *ds3[T]) Put(ctx, entity, config...)`, returning `error`; the
constraints `config` are not read. -/
def ds3.Put {T E C : Type} (db : ds3 T E) (entity : T) (_config : List C) :
    Trace S3Call (Option (StoreError T E)) :=
  match db.json.Marshal entity with
  | (_, some err) => ⟨[], some (some (.json err))⟩
  | (gen, none) =>
    let req : PutObjectInput :=
      { Bucket := db.bucket, Key := some (db.EncodeKey entity), Body := gen }
    ⟨[.PutObject req], some ((db.s3.PutObjectWithContext req).map .backend)⟩

/-- Go `func (db *ds3[T]) Remove(ctx, key, config...)`, returning `error`; the
constraints `config` are not read. -/
def ds3.Remove {T E C : Type} (db : ds3 T E) (key : T) (_config : List C) :
    Trace S3Call (Option (StoreError T E)) :=
  let req : DeleteObjectInput := { Bucket := db.bucket, Key := some (db.EncodeKey key) }
  ⟨[.DeleteObject req], some ((db.s3.DeleteObjectWithContext req).map .backend)⟩

/-- Go `func (db *ds3[T]) Update(ctx, entity, config...)`, returning
`(*T, error)`; the constraints `config` are not read, and `db.Put` is called
without constraints. -/
def ds3.Update {T E C : Type} (db : ds3 T E) (entity : T) (_config : List C) :
    Trace S3Call (Option T × Option (StoreError T E)) :=
  let req : GetObjectInput := { Bucket := db.bucket, Key := some (db.EncodeKey entity) }
  match db.s3.GetObjectWithContext req with
  | .error err => ⟨[.GetObject req], some (none, some (.backend err))⟩
  | .ok val =>
    match db.json.Decode val with
    | (_, some err) => ⟨[.GetObject req], some (none, some (.json err))⟩
    | (existing, none) =>
      let updated := db.Merge entity existing
      let put := db.Put updated ([] : List C)
      match put.result with
      | none => ⟨.GetObject req :: put.calls, none⟩
      | some (some err) => ⟨.GetObject req :: put.calls, some (none, some err)⟩
      | some none => ⟨.GetObject req :: put.calls, some (some updated, none)⟩

/-! ## The codec, after the specification

The codec of the repository (`dynamo.Encode`, `dynamo.Decode`, the `Codec2`
lenses) is not among the sources, only its tests are. It is modelled here from
the specification: an entity is the list of the values of its fields, in
registry order, each field having a declared value type with its default
encoding onto the attribute-value union. -/

/-- Modelled from the spec: the custom codec of a field (the `Codec2` lenses
and the hooks they call are missing from the sources). An encode hook and a
decode hook, each of which may reject its input; the decode hook is given what
the attribute map holds under the wire name of the field, which is nothing when
the attribute was omitted. -/
structure CustomCodec (Val E : Type) where
  encode : Val → Except E AttributeValue
  decode : Option AttributeValue → Except E Val

/-- Modelled from the spec: the two key roles of a field (the codec is missing
from the sources). -/
inductive KeyRole where
  | hash
  | sort
deriving DecidableEq

/-- Modelled from the spec: the declared value type of a field (the codec is
missing from the sources): a text, a number, a boolean, a binary, or a list or
a map of values of one declared type. -/
inductive Kind where
  | text
  | number
  | flag
  | binary
  | list (elem : Kind)
  | map (elem : Kind)
deriving DecidableEq

/-- Modelled from the spec: a Field Descriptor (the codec is missing from the
sources): logical name, wire name, declared value type, whether the field is
marked optional, its key role if any, and its custom codec if any. -/
structure FieldDescriptor (Val E : Type) where
  logicalName : String
  wireName : String
  declared : Kind
  optional : Bool
  key : Option KeyRole
  custom : Option (CustomCodec Val E)

/-- Modelled from the spec: the error of the codec (missing from the sources),
naming the offending field. -/
structure CodecError (E : Type) where
  field : String
  cause : E
deriving DecidableEq

/-- Modelled from the spec: the Schema Registry of an entity type as the codec
reads it (the codec is missing from the sources): the Field Descriptors in
registry order, the two reserved wire names of the key fields, the default
encoding of the values of each declared type, and the test for an empty
value. -/
structure Registry (Val E : Type) where
  fields : List (FieldDescriptor Val E)
  hashName : String
  sortName : String
  standard : Kind → CustomCodec Val E
  isEmpty : Val → Bool

/-- Modelled from the spec: the wire name a field is written under (the codec is
missing from the sources): a reserved name for a key field, whatever its
logical name, else the wire name of the descriptor. -/
def Registry.wire {Val E : Type} (r : Registry Val E) (d : FieldDescriptor Val E) : String :=
  match d.key with
  | some .hash => r.hashName
  | some .sort => r.sortName
  | none => d.wireName

/-- Modelled from the spec: the hooks applied to a field (the codec is missing
from the sources): the custom codec if present, else the default encoding of
the declared type. -/
def Registry.codecOf {Val E : Type} (r : Registry Val E) (d : FieldDescriptor Val E) :
    CustomCodec Val E :=
  d.custom.getD (r.standard d.declared)

/-- Modelled from the spec: the iteration of `Encode` (the codec is missing from
the sources). For each descriptor in turn: read the field, apply the encode
hook, write under the wire name; an optional field whose value is empty is
omitted. -/
def Registry.encodeFields {Val E : Type} (r : Registry Val E) :
    List (FieldDescriptor Val E) → List Val → GoMap AttributeValue →
      Except (CodecError E) (GoMap AttributeValue)
  | d :: ds, v :: vs, m =>
    match (r.codecOf d).encode v with
    | .error e => .error ⟨d.logicalName, e⟩
    | .ok a =>
      r.encodeFields ds vs (if d.optional && r.isEmpty v then m else m.store (r.wire d) a)
  | _, _, m => .ok m

/-- Modelled from the spec: `Encode(entity) → AttributeMap` (the codec is
missing from the sources). -/
def Registry.Encode {Val E : Type} (r : Registry Val E) (entity : List Val) :
    Except (CodecError E) (GoMap AttributeValue) :=
  r.encodeFields r.fields entity GoMap.empty

/-- Modelled from the spec: the iteration of `Decode` (the codec is missing from
the sources), symmetric to that of `Encode`. For each descriptor in turn: read
the attribute under the wire name, apply the decode hook, write the field. -/
def Registry.decodeFields {Val E : Type} (r : Registry Val E) :
    List (FieldDescriptor Val E) → GoMap AttributeValue → Except (CodecError E) (List Val)
  | [], _ => .ok []
  | d :: ds, m =>
    match (r.codecOf d).decode (m.lookup (r.wire d)) with
    | .error e => .error ⟨d.logicalName, e⟩
    | .ok v =>
      match r.decodeFields ds m with
      | .error e => .error e
      | .ok vs => .ok (v :: vs)

/-- Modelled from the spec: `Decode(AttributeMap) → entity` (the codec is
missing from the sources). -/
def Registry.Decode {Val E : Type} (r : Registry Val E) (m : GoMap AttributeValue) :
    Except (CodecError E) (List Val) :=
  r.decodeFields r.fields m

/-- Modelled from the spec: the values of the fields of an entity (the codec is
missing from the sources): texts, numbers, booleans, binaries, lists and maps
of values. -/
inductive Value where
  | text (s : String)
  | number (n : Int)
  | flag (b : Bool)
  | binary (bs : List Nat)
  | list (vs : List Value)
  | map (kvs : List (String × Value))

/-- Modelled from the spec: a value representable by a declared type (the codec
is missing from the sources): a text for a text field, a number for a number
field, and so on, element by element for lists and maps. -/
def Kind.admits : Kind → Value → Bool
  | .text, .text _ => true
  | .number, .number _ => true
  | .flag, .flag _ => true
  | .binary, .binary _ => true
  | .list k, .list vs => vs.all (Kind.admits k)
  | .map k, .map kvs => kvs.all fun kv => Kind.admits k kv.2
  | _, _ => false

/-- Modelled from the spec: the empty (zero) value of a declared type (the
codec is missing from the sources). -/
def Kind.zero : Kind → Value
  | .text => .text ""
  | .number => .number 0
  | .flag => .flag false
  | .binary => .binary []
  | .list _ => .list []
  | .map _ => .map []

/-- Modelled from the spec: whether a value is empty (zero), the test by which
an optional field is omitted (the codec is missing from the sources). -/
def Value.isEmpty : Value → Bool
  | .text s => s == ""
  | .number n => n == 0
  | .flag b => !b
  | .binary bs => bs.isEmpty
  | .list vs => vs.isEmpty
  | .map kvs => kvs.isEmpty

/-- Modelled from the spec: the decimal text of a number, as a number
attribute holds it (the codec is missing from the sources). -/
def numberText (n : Int) : String :=
  match n with
  | .ofNat m => Itoa m
  | .negSucc m => "-" ++ Itoa (m + 1)

/-- Modelled from the spec: reading a non-empty run of decimal digits (the
codec is missing from the sources). -/
def parseDigits (ds : List Char) : Option Nat :=
  if !ds.isEmpty && ds.all Char.isDigit then some (decimalValue ds) else none

/-- Modelled from the spec: reading the text of a number attribute, `none` for
a malformed text (the codec is missing from the sources). -/
def parseNumber (s : String) : Option Int :=
  if s.data.head? = some '-' then (parseDigits s.data.tail).map fun n => -(n : Int)
  else (parseDigits s.data).map fun n => (n : Int)

/-- Modelled from the spec: a conversion applied to every element of a
collection, in order, failing at the first element that fails (the codec is
missing from the sources). -/
def traverse {α β ε : Type} (f : α → Except ε β) : List α → Except ε (List β)
  | [] => .ok []
  | a :: as =>
    match f a with
    | .error e => .error e
    | .ok b =>
      match traverse f as with
      | .error e => .error e
      | .ok bs => .ok (b :: bs)

/-- Modelled from the spec: the default scalar/collection encoding of a value
of a declared type onto the attribute-value union (the codec is missing from
the sources). -/
def Kind.encode : Kind → Value → Except String AttributeValue
  | .text, .text s => .ok (.S s)
  | .number, .number n => .ok (.N (numberText n))
  | .flag, .flag b => .ok (.BOOL b)
  | .binary, .binary bs => .ok (.B bs)
  | .list k, .list vs => (traverse (Kind.encode k) vs).map AttributeValue.L
  | .map k, .map kvs =>
    (traverse (fun kv => (Kind.encode k kv.2).map fun a => (kv.1, a)) kvs).map AttributeValue.M
  | _, _ => .error "value of another type"

/-- Modelled from the spec: the default decoding of an attribute value into a
value of a declared type, failing on an attribute of another type and on a
malformed number (the codec is missing from the sources). -/
def Kind.decodeValue : Kind → AttributeValue → Except String Value
  | .text, .S s => .ok (.text s)
  | .number, .N s =>
    match parseNumber s with
    | some n => .ok (.number n)
    | none => .error "malformed number"
  | .flag, .BOOL b => .ok (.flag b)
  | .binary, .B bs => .ok (.binary bs)
  | .list k, .L as => (traverse (Kind.decodeValue k) as).map Value.list
  | .map k, .M kvs =>
    (traverse (fun kv => (Kind.decodeValue k kv.2).map fun v => (kv.1, v)) kvs).map Value.map
  | _, _ => .error "attribute of another type"

/-- Modelled from the spec: the default encoding of a declared type as a pair
of hooks (the codec is missing from the sources); an omitted attribute decodes
to the empty value of the type. -/
def defaultCodec (k : Kind) : CustomCodec Value String where
  encode := k.encode
  decode := fun a =>
    match a with
    | none => .ok k.zero
    | some a => k.decodeValue a

/-- Modelled from the spec: the Schema Registry of an entity type whose fields
without custom codec take the default encoding (the codec is missing from the
sources). -/
def Registry.typed (fields : List (FieldDescriptor Value String)) (hashName sortName : String) :
    Registry Value String where
  fields := fields
  hashName := hashName
  sortName := sortName
  standard := defaultCodec
  isEmpty := Value.isEmpty

/-- The custom codec `codecTypeDB` of the tests: a text is the string attribute
holding it. -/
def codecTypeDB : CustomCodec Value String where
  encode := fun v =>
    match v with
    | .text s => .ok (.S s)
    | _ => .error "not a codecType"
  decode := fun a =>
    match a with
    | none => .ok (.text "")
    | some (.S s) => .ok (.text s)
    | some _ => .error "not a string"

/-- The registry of `codecStruct` of the tests: the key fields `ID` and `Type`
go through the custom codec `codecTypeDB`, `Name` and `City` through the
default encoding. -/
def codecStruct : Registry Value String :=
  Registry.typed
    [⟨"ID", "id", .text, false, some .hash, some codecTypeDB⟩,
     ⟨"Type", "type", .text, false, some .sort, some codecTypeDB⟩,
     ⟨"Name", "name", .text, false, none, none⟩,
     ⟨"City", "city", .text, false, none, none⟩]
    "id" "type"

/-- The registry of `codecMyType` of the tests: three optional text fields
under the default encoding. -/
def codecMyType : Registry Value String :=
  Registry.typed
    [⟨"HKey", "hkey", .text, true, some .hash, none⟩,
     ⟨"SKey", "skey", .text, true, some .sort, none⟩,
     ⟨"Link", "link", .text, true, none, none⟩]
    "hkey" "skey"

/-- A codec of texts for the registry below: a text is the string attribute
holding it, and an omitted attribute is the empty text. -/
def textCodec : CustomCodec String String where
  encode := fun v => .ok (.S v)
  decode := fun a =>
    match a with
    | none => .ok ""
    | some (.S v) => .ok v
    | some _ => .error "not a string"

/-- A codec in the manner of `codecTypeBad` of the tests: it fails in both
directions. -/
def badCodec : CustomCodec String String where
  encode := fun _ => .error "Encode error."
  decode := fun _ => .error "Decode error."

/-- The registry of `codecBadType` of the tests: the codec of `Link` always
fails. -/
def codecBadType : Registry String String where
  fields := [⟨"HKey", "hkey", .text, true, some .hash, none⟩,
    ⟨"SKey", "skey", .text, true, some .sort, none⟩,
    ⟨"Link", "link", .text, true, none, some badCodec⟩]
  hashName := "prefix"
  sortName := "suffix"
  standard := fun _ => textCodec
  isEmpty := fun v => v == ""

/-- An S3 client for the examples: the object `dead/beef` holds a text, the
object `dead/half` a broken one, any other key does not exist; writes are
accepted. -/
def mockS3 : S3API where
  GetObjectWithContext := fun req =>
    if req.Key = some "dead/beef" then .ok "name=Verner Pleishner"
    else if req.Key = some "dead/half" then .ok "name=Verner Plei"
    else if req.Key = some "dead/lock" then .error (.other "timeout")
    else .error (.awserr "NoSuchKey" "The specified key does not exist.")
  PutObjectWithContext := fun _ => none
  DeleteObjectWithContext := fun _ => none

/-- An object store for the examples: an entity is a pair of its key and its
name, written as `name=` followed by the name; a text not ending in `r` is
taken as cut short, and decoding it fills the name and fails. -/
def mockDs3 : ds3 (String × String) String where
  s3 := mockS3
  bucket := some "bucket"
  EncodeKey := fun e => e.1
  Merge := fun patch existing => (patch.1, if patch.2 = "" then existing.2 else patch.2)
  json :=
    { Marshal := fun e => ("name=" ++ e.2, none)
      Decode := fun body =>
        let name := String.mk (body.data.drop 5)
        if body.data.getLast? = some 'r' then (("", name), none)
        else (("", name), some "unexpected end of JSON input") }

/-- The fields of `person` of the adapter's tests, with their tags. -/
def personFields : List FieldType :=
  [⟨"Prefix", ⟨[("dynamodbav", "prefix,omitempty")]⟩⟩,
   ⟨"Suffix", ⟨[("dynamodbav", "suffix,omitempty")]⟩⟩,
   ⟨"Name", ⟨[("dynamodbav", "name,omitempty")]⟩⟩,
   ⟨"Age", ⟨[("dynamodbav", "age,omitempty")]⟩⟩,
   ⟨"Address", ⟨[("dynamodbav", "address,omitempty")]⟩⟩]

/-- An entity type with a field that has no `dynamodbav` tag and two fields
tagged with one name. -/
def looseFields : List FieldType :=
  [⟨"ID", ⟨[("json", "id")]⟩⟩,
   ⟨"Name", ⟨[("dynamodbav", "name,omitempty")]⟩⟩,
   ⟨"Nick", ⟨[("dynamodbav", "name")]⟩⟩]

/-- A backend whose answer counts two items and holds one. -/
def mockShort : Service String where
  Query := fun _ => .ok ⟨2, [mockItem]⟩
  UpdateItem := fun _ => .ok ⟨mockItem⟩

/-- An `attributevalue.Marshal` for the examples that rejects the text `bad`. -/
def mockMarshal (s : String) : Option String :=
  if s = "bad" then none else some s

/-! ## Strings -/

theorem str_append_left_cancel {p a b : String} (h : p ++ a = p ++ b) : a = b := by
  have h1 := congrArg String.data h
  simp only [String.data_append] at h1
  exact String.ext (List.append_cancel_left h1)

theorem str_append_right_cancel {a b s : String} (h : a ++ s = b ++ s) : a = b := by
  have h1 := congrArg String.data h
  simp only [String.data_append] at h1
  exact String.ext (List.append_cancel_right h1)

theorem alias_inj {k k' : String} (h : "#__c_" ++ k ++ "__" = "#__c_" ++ k' ++ "__") : k = k' :=
  str_append_left_cancel (str_append_right_cancel h)

theorem let_inj {k k' : String} (h : ":__c_" ++ k ++ "__" = ":__c_" ++ k' ++ "__") : k = k' :=
  str_append_left_cancel (str_append_right_cancel h)

theorem letA_ne_letB (k k' : String) : ":__c_" ++ k ++ "_a__" ≠ ":__c_" ++ k' ++ "_b__" := by
  intro h
  have h1 := congrArg (fun s => s.data.reverse.take 3) h
  simp [String.data_append] at h1

/-! ## Decimal numerals -/

theorem toDigitsCore_append (b : Nat) (f : Nat) : ∀ (n : Nat) (ds : List Char),
    Nat.toDigitsCore b f n ds = Nat.toDigitsCore b f n [] ++ ds := by
  induction f with
  | zero => intro n ds; simp [Nat.toDigitsCore]
  | succ f ih =>
    intro n ds
    simp only [Nat.toDigitsCore]
    split
    · simp
    · rw [ih (n / b) (Nat.digitChar (n % b) :: ds), ih (n / b) [Nat.digitChar (n % b)]]
      simp

theorem digitChar_mem (d : Nat) (h : d < 10) : Nat.digitChar d ∈ "0123456789".data := by
  interval_cases d <;> decide

theorem digitChar_val (d : Nat) (h : d < 10) : (Nat.digitChar d).toNat - 48 = d := by
  interval_cases d <;> rfl

theorem decimalValue_snoc (cs : List Char) (c : Char) :
    decimalValue (cs ++ [c]) = 10 * decimalValue cs + (c.toNat - 48) := by
  simp [decimalValue, List.foldl_append]

theorem decimalValue_toDigitsCore (f : Nat) : ∀ n, n < f →
    decimalValue (Nat.toDigitsCore 10 f n []) = n := by
  induction f with
  | zero => intro n h; omega
  | succ f ih =>
    intro n h
    simp only [Nat.toDigitsCore]
    split
    · rename_i h0
      have : n % 10 = n := by omega
      have hn : n < 10 := by omega
      simp [decimalValue, this, digitChar_val n hn]
    · rename_i h0
      rw [toDigitsCore_append, decimalValue_snoc, ih (n / 10) (by omega),
        digitChar_val (n % 10) (Nat.mod_lt _ (by decide))]
      omega

theorem mem_toDigitsCore (f : Nat) : ∀ (n : Nat) (c : Char),
    c ∈ Nat.toDigitsCore 10 f n [] → c ∈ "0123456789".data := by
  induction f with
  | zero => intro n c h; simp [Nat.toDigitsCore] at h
  | succ f ih =>
    intro n c h
    simp only [Nat.toDigitsCore] at h
    split at h
    · simp only [List.mem_singleton] at h
      subst h
      exact digitChar_mem _ (Nat.mod_lt _ (by decide))
    · rw [toDigitsCore_append] at h
      simp only [List.mem_append, List.mem_singleton] at h
      rcases h with h | h
      · exact ih _ _ h
      · subst h
        exact digitChar_mem _ (Nat.mod_lt _ (by decide))

theorem Itoa_data (i : Nat) : (Itoa i).data = Nat.toDigits 10 i := rfl

theorem Itoa_injective {i j : Nat} (h : Itoa i = Itoa j) : i = j := by
  have h1 := congrArg (fun s => decimalValue s.data) h
  simp only [Itoa_data, Nat.toDigits] at h1
  rwa [decimalValue_toDigitsCore _ _ (Nat.lt_succ_self i),
    decimalValue_toDigitsCore _ _ (Nat.lt_succ_self j)] at h1

theorem Itoa_digits (i : Nat) (c : Char) (h : c ∈ (Itoa i).data) : c ∈ "0123456789".data := by
  rw [Itoa_data] at h
  exact mem_toDigitsCore _ _ _ h

theorem inToken_inj {k : String} {i j : Nat}
    (h : ":__c_" ++ k ++ "_" ++ Itoa i ++ "__" = ":__c_" ++ k ++ "_" ++ Itoa j ++ "__") : i = j :=
  Itoa_injective (str_append_left_cancel (str_append_right_cancel h))

theorem inTokens_nodup (k : String) (n : Nat) :
    ((List.range n).map fun i => ":__c_" ++ k ++ "_" ++ Itoa i ++ "__").Nodup :=
  List.Nodup.map (fun _ _ h => inToken_inj h) (List.nodup_range n)

/-- A list splits in one way only around a separator that occurs in neither
tail. -/
theorem split_unique {α : Type} (c : α) : ∀ (l1 l2 d1 d2 : List α), c ∉ d1 → c ∉ d2 →
    l1 ++ c :: d1 = l2 ++ c :: d2 → l1 = l2 := by
  intro l1
  induction l1 with
  | nil =>
    intro l2 d1 d2 h1 _ h
    cases l2 with
    | nil => rfl
    | cons y l2 =>
      simp only [List.nil_append, List.cons_append, List.cons.injEq] at h
      exact absurd (h.2 ▸ (by simp : c ∈ l2 ++ c :: d2)) h1
  | cons x l1 ih =>
    intro l2 d1 d2 h1 h2 h
    cases l2 with
    | nil =>
      simp only [List.nil_append, List.cons_append, List.cons.injEq] at h
      exact absurd (h.2 ▸ (by simp : c ∈ l1 ++ c :: d1)) h2
    | cons y l2 =>
      simp only [List.cons_append, List.cons.injEq] at h
      rw [h.1, ih l2 d1 d2 h1 h2 h.2]

theorem underscore_not_mem_Itoa (i : Nat) : '_' ∉ (Itoa i).data := by
  intro h
  have := Itoa_digits i '_' h
  revert this
  decide

theorem inToken_key_inj {k k' : String} {i j : Nat}
    (h : ":__c_" ++ k ++ "_" ++ Itoa i ++ "__" = ":__c_" ++ k' ++ "_" ++ Itoa j ++ "__") :
    k = k' := by
  have h1 := congrArg String.data (str_append_right_cancel h)
  simp only [String.data_append, List.append_assoc] at h1
  have h2 := List.append_cancel_left h1
  exact String.ext (split_unique '_' _ _ _ _ (underscore_not_mem_Itoa i)
    (underscore_not_mem_Itoa j) h2)

theorem letA_inToken_key {k k' : String} {j : Nat}
    (h : ":__c_" ++ k ++ "_a__" = ":__c_" ++ k' ++ "_" ++ Itoa j ++ "__") : k = k' := by
  have h0 : ":__c_" ++ k ++ "_a__" = ":__c_" ++ k ++ "_" ++ "a" ++ "__" := by
    apply String.ext
    simp [String.data_append]
  rw [h0] at h
  have h1 := congrArg String.data (str_append_right_cancel h)
  simp only [String.data_append, List.append_assoc] at h1
  have h2 := List.append_cancel_left h1
  exact String.ext (split_unique '_' _ _ _ _ (by decide) (underscore_not_mem_Itoa j) h2)

theorem letB_inToken_key {k k' : String} {j : Nat}
    (h : ":__c_" ++ k ++ "_b__" = ":__c_" ++ k' ++ "_" ++ Itoa j ++ "__") : k = k' := by
  have h0 : ":__c_" ++ k ++ "_b__" = ":__c_" ++ k ++ "_" ++ "b" ++ "__" := by
    apply String.ext
    simp [String.data_append]
  rw [h0] at h
  have h1 := congrArg String.data (str_append_right_cancel h)
  simp only [String.data_append, List.append_assoc] at h1
  have h2 := List.append_cancel_left h1
  exact String.ext (split_unique '_' _ _ _ _ (by decide) (underscore_not_mem_Itoa j) h2)

theorem letA_inj {k k' : String} (h : ":__c_" ++ k ++ "_a__" = ":__c_" ++ k' ++ "_a__") :
    k = k' :=
  str_append_left_cancel (str_append_right_cancel h)

theorem letB_inj {k k' : String} (h : ":__c_" ++ k ++ "_b__" = ":__c_" ++ k' ++ "_b__") :
    k = k' :=
  str_append_left_cancel (str_append_right_cancel h)

theorem colon_ne_hash (r r' : String) : ":__c_" ++ r ≠ "#__c_" ++ r' := by
  intro h
  have h1 := congrArg String.data h
  simp [String.data_append] at h1

/-! ## Maps -/

namespace GoMap

variable {V : Type}

@[simp] theorem store_empty (k : String) (v : V) :
    (GoMap.empty : GoMap V).store k v = ⟨[(k, v)]⟩ := rfl

theorem lookupEntries_store_self (es : List (String × V)) (k : String) (v : V) :
    lookupEntries (storeEntries es k v) k = some v := by
  induction es with
  | nil => simp [storeEntries, lookupEntries]
  | cons e es ih =>
    obtain ⟨k', v'⟩ := e
    by_cases h : k' = k
    · simp [storeEntries, lookupEntries, h]
    · simp [storeEntries, lookupEntries, h, ih]

theorem lookupEntries_store_ne (es : List (String × V)) {k k' : String} (v : V) (h : k' ≠ k) :
    lookupEntries (storeEntries es k v) k' = lookupEntries es k' := by
  induction es with
  | nil => simp [storeEntries, lookupEntries, Ne.symm h]
  | cons e es ih =>
    obtain ⟨k1, v1⟩ := e
    by_cases h1 : k1 = k
    · subst h1
      simp [storeEntries, lookupEntries, Ne.symm h]
    · by_cases h2 : k1 = k'
      · subst h2
        simp [storeEntries, lookupEntries, h1]
      · simp [storeEntries, lookupEntries, h1, h2, ih]

theorem lookup_store_self (m : GoMap V) (k : String) (v : V) :
    (m.store k v).lookup k = some v :=
  lookupEntries_store_self m.entries k v

theorem lookup_store_ne (m : GoMap V) {k k' : String} (v : V) (h : k' ≠ k) :
    (m.store k v).lookup k' = m.lookup k' :=
  lookupEntries_store_ne m.entries v h

theorem lookupEntries_isSome_iff (es : List (String × V)) (k : String) :
    (lookupEntries es k).isSome ↔ k ∈ es.map Prod.fst := by
  induction es with
  | nil => simp [lookupEntries]
  | cons e es ih =>
    obtain ⟨k1, v1⟩ := e
    by_cases h1 : k1 = k
    · simp [lookupEntries, h1]
    · simp [lookupEntries, h1, ih, Ne.symm h1]

theorem lookup_isSome_iff (m : GoMap V) (k : String) :
    (m.lookup k).isSome ↔ k ∈ m.keys :=
  lookupEntries_isSome_iff m.entries k

theorem keys_storeEntries (es : List (String × V)) (k : String) (v : V) :
    (storeEntries es k v).map Prod.fst =
      if k ∈ es.map Prod.fst then es.map Prod.fst else es.map Prod.fst ++ [k] := by
  induction es with
  | nil => simp [storeEntries]
  | cons e es ih =>
    obtain ⟨k1, v1⟩ := e
    by_cases h1 : k1 = k
    · simp [storeEntries, h1]
    · have h2 : ¬ k = k1 := Ne.symm h1
      simp only [storeEntries, h1, if_false, List.map_cons, ih, List.mem_cons, h2, false_or]
      split <;> simp

theorem keys_store (m : GoMap V) (k : String) (v : V) :
    (m.store k v).keys = if k ∈ m.keys then m.keys else m.keys ++ [k] :=
  keys_storeEntries m.entries k v

theorem mem_keys_store (m : GoMap V) (k : String) (v : V) (t : String) :
    t ∈ (m.store k v).keys ↔ t = k ∨ t ∈ m.keys := by
  rw [keys_store]
  split
  · constructor
    · intro h; exact Or.inr h
    · rintro (rfl | h)
      · assumption
      · exact h
  · simp [or_comm]

theorem storeEntries_of_not_mem (es : List (String × V)) (k : String) (v : V)
    (h : k ∉ es.map Prod.fst) : storeEntries es k v = es ++ [(k, v)] := by
  induction es with
  | nil => simp [storeEntries]
  | cons e es ih =>
    obtain ⟨k1, v1⟩ := e
    simp only [List.map_cons, List.mem_cons, not_or] at h
    simp [storeEntries, Ne.symm h.1, ih h.2]

theorem store_of_not_mem (m : GoMap V) (k : String) (v : V) (h : k ∉ m.keys) :
    m.store k v = ⟨m.entries ++ [(k, v)]⟩ := by
  simp [store, storeEntries_of_not_mem m.entries k v h]

theorem storeAll_of_nodup (kvs : List (String × V)) : ∀ (m : GoMap V),
    (m.keys ++ kvs.map Prod.fst).Nodup → m.storeAll kvs = ⟨m.entries ++ kvs⟩ := by
  induction kvs with
  | nil => intro m _; simp [storeAll]
  | cons kv kvs ih =>
    intro m h
    have h1 : kv.1 ∉ m.keys := by
      intro hmem
      rw [List.nodup_append] at h
      exact h.2.2 hmem (by simp)
    have h2 : m.store kv.1 kv.2 = ⟨m.entries ++ [kv]⟩ := store_of_not_mem m kv.1 kv.2 h1
    have h3 : ((m.store kv.1 kv.2).keys ++ kvs.map Prod.fst).Nodup := by
      rw [h2]
      simpa [keys] using h
    have h4 := ih (m.store kv.1 kv.2) h3
    simp only [storeAll, List.foldl_cons] at h4 ⊢
    rw [h4, h2]
    simp

theorem lookupEntries_of_mem (es : List (String × V)) (k : String) (v : V)
    (hnd : (es.map Prod.fst).Nodup) (hmem : (k, v) ∈ es) : lookupEntries es k = some v := by
  induction es with
  | nil => simp at hmem
  | cons e es ih =>
    obtain ⟨k1, v1⟩ := e
    simp only [List.map_cons, List.nodup_cons] at hnd
    simp only [List.mem_cons, Prod.mk.injEq] at hmem
    rcases hmem with ⟨rfl, rfl⟩ | hmem
    · simp [lookupEntries]
    · have hne : k1 ≠ k := by
        rintro rfl
        exact hnd.1 (List.mem_map_of_mem Prod.fst hmem)
      simp [lookupEntries, hne, ih hnd.2 hmem]

end GoMap

/-! ## Single nodes on the empty accumulator -/

section Nodes

variable {A V : Type}

/-- C1: for each of the six comparison constructors Eq, Ne, Lt, Le, Gt, Ge,
paired with its operator text, every non-empty key `k` and every operand `v`
that marshals to `m`, `Apply` on the empty accumulator yields the expression
`(#__c_k__ OP :__c_k__)`, the name table `#__c_k__ ↦ k` and the value table
`:__c_k__ ↦ m`. -/
theorem comparison_apply_empty (marshal : A → Option V) (k : String) (v : A) (m : V)
    (hk : k ≠ "") (hm : marshal v = some m) :
    ∀ p ∈ [(ConditionExpression.Eq, "="), (ConditionExpression.Ne, "<>"),
           (ConditionExpression.Lt, "<"), (ConditionExpression.Le, "<="),
           (ConditionExpression.Gt, ">"), (ConditionExpression.Ge, ">=")],
      (p.1 (⟨k⟩ : ConditionExpression A) v).Apply marshal Accumulator.empty =
        ⟨some ("(#__c_" ++ k ++ "__ " ++ p.2 ++ " :__c_" ++ k ++ "__)"),
         ⟨[("#__c_" ++ k ++ "__", k)]⟩, ⟨[(":__c_" ++ k ++ "__", m)]⟩⟩ := by
  intro p hp
  simp only [List.mem_cons, List.mem_singleton, List.not_mem_nil, or_false] at hp
  rcases hp with rfl | rfl | rfl | rfl | rfl | rfl <;>
  · simp only [ConditionExpression.Eq, ConditionExpression.Ne, ConditionExpression.Lt,
      ConditionExpression.Le, ConditionExpression.Gt, ConditionExpression.Ge,
      Constraint.Apply, dyadicCondition.Apply, hk, hm, if_false, Accumulator.empty, conjoin,
      GoMap.store_empty]
    congr 2
    apply String.ext
    simp [String.data_append]

/-- C1 at the key `name` with the operand `Joe` marshalled by the identity,
for `Eq` and for `Ge`. -/
theorem comparison_apply_empty_witness :
    ((⟨"name"⟩ : ConditionExpression String).Eq "Joe").Apply
        (fun s : String => some s) Accumulator.empty =
      ⟨some "(#__c_name__ = :__c_name__)", ⟨[("#__c_name__", "name")]⟩,
        ⟨[(":__c_name__", "Joe")]⟩⟩ ∧
    ((⟨"name"⟩ : ConditionExpression String).Ge "Joe").Apply
        (fun s : String => some s) Accumulator.empty =
      ⟨some "(#__c_name__ >= :__c_name__)", ⟨[("#__c_name__", "name")]⟩,
        ⟨[(":__c_name__", "Joe")]⟩⟩ :=
  ⟨(comparison_apply_empty (fun s : String => some s) "name" "Joe" "Joe" (by decide) rfl
      (ConditionExpression.Eq, "=") (by simp)).trans (by decide),
   (comparison_apply_empty (fun s : String => some s) "name" "Joe" "Joe" (by decide) rfl
      (ConditionExpression.Ge, ">=") (by simp)).trans (by decide)⟩

/-- The guard `if op.key == "" { return }` that opens every `Apply`. -/
theorem apply_guard (marshal : A → Option V) (c : Constraint A) (acc : Accumulator V)
    (hk : c.key = "") : c.Apply marshal acc = acc := by
  cases c <;>
    simp_all [Constraint.key, Constraint.Apply, dyadicCondition.Apply, unaryCondition.Apply,
      betweenCondition.Apply, inCondition.Apply, functionalCondition.Apply]

/-- C5: a node of any kind (comparison, `Exists`/`NotExists`, `Between`, `In`,
`HasPrefix`/`Contains`) whose field key is the empty string is a no-op:
`Apply` returns the expression, the name table and the value table exactly as
it received them (and, being a total function, raises nothing). -/
theorem apply_empty_key (marshal : A → Option V) (c : Constraint A) (acc : Accumulator V)
    (hk : c.key = "") :
    c.Apply marshal acc = acc ∧
    (c.Apply marshal acc).conditionExpression = acc.conditionExpression ∧
    (c.Apply marshal acc).expressionAttributeNames = acc.expressionAttributeNames ∧
    (c.Apply marshal acc).expressionAttributeValues = acc.expressionAttributeValues := by
  rw [apply_guard marshal c acc hk]
  exact ⟨rfl, rfl, rfl, rfl⟩

/-- C5 at an `In` node with the empty key, applied to a non-empty accumulator. -/
theorem apply_empty_key_witness :
    ((⟨""⟩ : ConditionExpression String).In ["a", "b"]).Apply (fun s : String => some s)
        ⟨some "(#__c_x__ = :__c_x__)", ⟨[("#__c_x__", "x")]⟩, ⟨[(":__c_x__", "1")]⟩⟩ =
      ⟨some "(#__c_x__ = :__c_x__)", ⟨[("#__c_x__", "x")]⟩, ⟨[(":__c_x__", "1")]⟩⟩ :=
  (apply_empty_key (fun s : String => some s) ((⟨""⟩ : ConditionExpression String).In ["a", "b"])
    ⟨some "(#__c_x__ = :__c_x__)", ⟨[("#__c_x__", "x")]⟩, ⟨[(":__c_x__", "1")]⟩⟩ rfl).1

/-- C6: on a string-valued handle `Is "_"` is the node `NotExists()`, hence
gives the same expression and tables when applied, and `Is v` is the node
`Eq v` for every `v` other than `"_"`. -/
theorem is_sentinel_or_eq (ce : ConditionExpression String) :
    ce.Is "_" = ce.NotExists ∧
    (∀ (marshal : String → Option V) (acc : Accumulator V),
      (ce.Is "_").Apply marshal acc = ce.NotExists.Apply marshal acc) ∧
    (∀ v : String, v ≠ "_" → ce.Is v = ce.Eq v) := by
  refine ⟨by simp [ConditionExpression.Is], fun _ _ => by simp [ConditionExpression.Is], ?_⟩
  intro v hv
  simp [ConditionExpression.Is, hv]

/-- C6 at the handle of the field `name` and the value `Joe`. -/
theorem is_sentinel_or_eq_witness :
    (⟨"name"⟩ : ConditionExpression String).Is "Joe" =
      (⟨"name"⟩ : ConditionExpression String).Eq "Joe" :=
  (is_sentinel_or_eq (V := String) ⟨"name"⟩).2.2 "Joe" (by decide)

/-- C7: for a non-empty key `k` and operands `a`, `b` that marshal to `ma`,
`mb`, `Between(a, b).Apply` on the empty accumulator yields the expression
`(#__c_k__ BETWEEN :__c_k_a__ AND :__c_k_b__)`, the name table `#__c_k__ ↦ k`
and the value table `:__c_k_a__ ↦ ma`, `:__c_k_b__ ↦ mb`. -/
theorem between_apply_empty (marshal : A → Option V) (k : String) (a b : A) (ma mb : V)
    (hk : k ≠ "") (ha : marshal a = some ma) (hb : marshal b = some mb) :
    ((⟨k⟩ : ConditionExpression A).Between a b).Apply marshal Accumulator.empty =
      ⟨some ("(#__c_" ++ k ++ "__ BETWEEN :__c_" ++ k ++ "_a__ AND :__c_" ++ k ++ "_b__)"),
       ⟨[("#__c_" ++ k ++ "__", k)]⟩,
       ⟨[(":__c_" ++ k ++ "_a__", ma), (":__c_" ++ k ++ "_b__", mb)]⟩⟩ := by
  simp only [ConditionExpression.Between, Constraint.Apply, betweenCondition.Apply, hk, ha, hb,
    if_false, Accumulator.empty, conjoin, GoMap.store_empty]
  simp only [GoMap.store, GoMap.storeEntries, letA_ne_letB k k, if_false]
  congr 2
  apply String.ext
  simp [String.data_append]

/-- C7 at the key `age` with the operands `18` and `65`. -/
theorem between_apply_empty_witness :
    ((⟨"age"⟩ : ConditionExpression String).Between "18" "65").Apply
        (fun s : String => some s) Accumulator.empty =
      ⟨some ("(#__c_" ++ "age" ++ "__ BETWEEN :__c_" ++ "age" ++ "_a__ AND :__c_" ++ "age"
          ++ "_b__)"),
       ⟨[("#__c_" ++ "age" ++ "__", "age")]⟩,
       ⟨[(":__c_" ++ "age" ++ "_a__", "18"), (":__c_" ++ "age" ++ "_b__", "65")]⟩⟩ :=
  between_apply_empty (fun s : String => some s) "age" "18" "65" "18" "65" (by decide) rfl rfl

/-- C9: for a non-empty key `k`, `Exists()` and `NotExists()` applied to the
empty accumulator yield `(attribute_exists(#__c_k__))` and
`(attribute_not_exists(#__c_k__))`, with the name table `#__c_k__ ↦ k` and an
empty value table; on any accumulator they return the value table they were
given. -/
theorem exists_apply_empty (marshal : A → Option V) (k : String) (hk : k ≠ "") :
    ((⟨k⟩ : ConditionExpression A).Exists).Apply marshal Accumulator.empty =
      ⟨some ("(attribute_exists(#__c_" ++ k ++ "__))"), ⟨[("#__c_" ++ k ++ "__", k)]⟩,
        GoMap.empty⟩ ∧
    ((⟨k⟩ : ConditionExpression A).NotExists).Apply marshal Accumulator.empty =
      ⟨some ("(attribute_not_exists(#__c_" ++ k ++ "__))"), ⟨[("#__c_" ++ k ++ "__", k)]⟩,
        GoMap.empty⟩ ∧
    (∀ acc : Accumulator V,
      (((⟨k⟩ : ConditionExpression A).Exists).Apply marshal acc).expressionAttributeValues =
          acc.expressionAttributeValues ∧
      (((⟨k⟩ : ConditionExpression A).NotExists).Apply marshal acc).expressionAttributeValues =
          acc.expressionAttributeValues) := by
  refine ⟨?_, ?_, fun acc => ⟨?_, ?_⟩⟩
  · simp only [ConditionExpression.Exists, Constraint.Apply, unaryCondition.Apply, hk, if_false,
      Accumulator.empty, conjoin, GoMap.store_empty]
    congr 2
    apply String.ext
    simp [String.data_append]
  · simp only [ConditionExpression.NotExists, Constraint.Apply, unaryCondition.Apply, hk,
      if_false, Accumulator.empty, conjoin, GoMap.store_empty]
    congr 2
    apply String.ext
    simp [String.data_append]
  · simp [ConditionExpression.Exists, Constraint.Apply, unaryCondition.Apply, hk]
  · simp [ConditionExpression.NotExists, Constraint.Apply, unaryCondition.Apply, hk]

/-- C9 at the key `name`. -/
theorem exists_apply_empty_witness :
    ((⟨"name"⟩ : ConditionExpression String).Exists).Apply (fun s : String => some s)
        Accumulator.empty =
      ⟨some ("(attribute_exists(#__c_" ++ "name" ++ "__))"),
        ⟨[("#__c_" ++ "name" ++ "__", "name")]⟩, GoMap.empty⟩ :=
  (exists_apply_empty (fun s : String => some s) "name" (by decide)).1

/-- C10: for a non-empty key `k` and an operand `v` that marshals to `m`,
`HasPrefix(v)` and `Contains(v)` applied to the empty accumulator yield
`(begins_with(#__c_k__,:__c_k__))` and `(contains(#__c_k__,:__c_k__))`, with the
name table `#__c_k__ ↦ k` and the value table `:__c_k__ ↦ m`. -/
theorem functional_apply_empty (marshal : A → Option V) (k : String) (v : A) (m : V)
    (hk : k ≠ "") (hm : marshal v = some m) :
    ((⟨k⟩ : ConditionExpression A).HasPrefix v).Apply marshal Accumulator.empty =
      ⟨some ("(begins_with(#__c_" ++ k ++ "__,:__c_" ++ k ++ "__))"),
       ⟨[("#__c_" ++ k ++ "__", k)]⟩, ⟨[(":__c_" ++ k ++ "__", m)]⟩⟩ ∧
    ((⟨k⟩ : ConditionExpression A).Contains v).Apply marshal Accumulator.empty =
      ⟨some ("(contains(#__c_" ++ k ++ "__,:__c_" ++ k ++ "__))"),
       ⟨[("#__c_" ++ k ++ "__", k)]⟩, ⟨[(":__c_" ++ k ++ "__", m)]⟩⟩ := by
  constructor
  · simp only [ConditionExpression.HasPrefix, Constraint.Apply, functionalCondition.Apply, hk, hm,
      if_false, Accumulator.empty, conjoin, GoMap.store_empty]
    congr 2
    apply String.ext
    simp [String.data_append]
  · simp only [ConditionExpression.Contains, Constraint.Apply, functionalCondition.Apply, hk, hm,
      if_false, Accumulator.empty, conjoin, GoMap.store_empty]
    congr 2
    apply String.ext
    simp [String.data_append]

/-- C10 at the key `name` with the operand `Jo`. -/
theorem functional_apply_empty_witness :
    ((⟨"name"⟩ : ConditionExpression String).HasPrefix "Jo").Apply
        (fun s : String => some s) Accumulator.empty =
      ⟨some ("(begins_with(#__c_" ++ "name" ++ "__,:__c_" ++ "name" ++ "__))"),
       ⟨[("#__c_" ++ "name" ++ "__", "name")]⟩, ⟨[(":__c_" ++ "name" ++ "__", "Jo")]⟩⟩ ∧
    ((⟨"name"⟩ : ConditionExpression String).Contains "Jo").Apply
        (fun s : String => some s) Accumulator.empty =
      ⟨some ("(contains(#__c_" ++ "name" ++ "__,:__c_" ++ "name" ++ "__))"),
       ⟨[("#__c_" ++ "name" ++ "__", "name")]⟩, ⟨[(":__c_" ++ "name" ++ "__", "Jo")]⟩⟩ :=
  functional_apply_empty (fun s : String => some s) "name" "Jo" "Jo" (by decide) rfl

theorem take_succ_set {α : Type} (l : List α) (a : α) : ∀ i, i < l.length →
    (l.set i a).take (i + 1) = l.take i ++ [a] := by
  induction l with
  | nil => intro i h; simp at h
  | cons x xs ih =>
    intro i h
    cases i with
    | zero => simp
    | succ i =>
      simp only [List.length_cons, Nat.add_lt_add_iff_right] at h
      simp [ih i h]

/-- The loop of `inCondition.Apply` when every operand marshals: slot `j` of
`lets` holds the token of index `j` for every index visited, and the tokens are
bound, in order, to the marshalled operands. -/
theorem inCondition_loop_ok (marshal : A → Option V) (key : String) :
    ∀ (seq : List A) (ms : List V) (i : Nat) (lets : List String) (values : GoMap V),
      seq.map marshal = ms.map some → lets.length = i + seq.length →
      inCondition.loop marshal key seq i lets values =
        (some (lets.take i ++
            (List.range' i seq.length).map fun j => ":__c_" ++ key ++ "_" ++ Itoa j ++ "__"),
         values.storeAll
          (((List.range' i seq.length).map fun j => ":__c_" ++ key ++ "_" ++ Itoa j ++ "__").zip
            ms)) := by
  intro seq
  induction seq with
  | nil =>
    intro ms i lets values _ hlen
    simp only [List.length_nil, Nat.add_zero] at hlen
    simp [inCondition.loop, GoMap.storeAll, ← hlen]
  | cons x rest ih =>
    intro ms i lets values hm hlen
    cases ms with
    | nil => simp at hm
    | cons m ms =>
      simp only [List.map_cons, List.cons.injEq] at hm
      simp only [List.length_cons] at hlen
      have hi : i < lets.length := by omega
      simp only [inCondition.loop, hm.1]
      rw [ih ms (i + 1) _ _ hm.2 (by simp; omega), take_succ_set lets _ i hi]
      simp [List.range'_succ, GoMap.storeAll]

/-- C8: for a non-empty key `k` and a list of `n` operands that marshal to
`ms`, `In(seq...).Apply` on the empty accumulator yields the expression
`(#__c_k__ IN (:__c_k_0__,...,:__c_k_<n-1>__))`, the tokens in operand order
joined by `,`, the name table `#__c_k__ ↦ k` and a value table of exactly `n`
bindings, the `i`-th token `:__c_k_<i>__` bound to the `i`-th marshalled
operand (the `n` tokens are pairwise distinct). -/
theorem in_apply_empty (marshal : A → Option V) (k : String) (seq : List A) (ms : List V)
    (hk : k ≠ "") (hm : seq.map marshal = ms.map some) :
    ((⟨k⟩ : ConditionExpression A).In seq).Apply marshal Accumulator.empty =
      ⟨some ("(#__c_" ++ k ++ "__ IN (" ++ ",".intercalate
          ((List.range seq.length).map fun i => ":__c_" ++ k ++ "_" ++ Itoa i ++ "__") ++ "))"),
       ⟨[("#__c_" ++ k ++ "__", k)]⟩,
       ⟨((List.range seq.length).map fun i => ":__c_" ++ k ++ "_" ++ Itoa i ++ "__").zip ms⟩⟩ ∧
    (((⟨k⟩ : ConditionExpression A).In seq).Apply marshal
        Accumulator.empty).expressionAttributeValues.len = seq.length ∧
    (∀ (i : Nat) (m : V), ms[i]? = some m →
      (((⟨k⟩ : ConditionExpression A).In seq).Apply marshal
        Accumulator.empty).expressionAttributeValues.lookup
          (":__c_" ++ k ++ "_" ++ Itoa i ++ "__") = some m) := by
  have hlen : ms.length = seq.length := by
    have := congrArg List.length hm
    simpa using this.symm
  have hnd := inTokens_nodup k seq.length
  have happly : ((⟨k⟩ : ConditionExpression A).In seq).Apply marshal Accumulator.empty =
      ⟨some ("(#__c_" ++ k ++ "__ IN (" ++ ",".intercalate
          ((List.range seq.length).map fun i => ":__c_" ++ k ++ "_" ++ Itoa i ++ "__") ++ "))"),
       ⟨[("#__c_" ++ k ++ "__", k)]⟩,
       ⟨((List.range seq.length).map fun i => ":__c_" ++ k ++ "_" ++ Itoa i ++ "__").zip
          ms⟩⟩ := by
    simp only [ConditionExpression.In, Constraint.Apply, inCondition.Apply, hk, if_false,
      Accumulator.empty, GoMap.store_empty]
    rw [inCondition_loop_ok marshal k seq ms 0 _ _ hm (by simp)]
    simp only [List.take_zero, List.nil_append, ← List.range_eq_range', conjoin]
    rw [GoMap.storeAll_of_nodup]
    · simp only [GoMap.empty, List.nil_append]
      congr 2
      apply String.ext
      simp [String.data_append]
    · simpa [GoMap.empty, GoMap.keys, List.map_fst_zip, hlen] using hnd
  refine ⟨happly, ?_, ?_⟩
  · rw [happly]
    simp [GoMap.len, hlen]
  · intro i m hi
    rw [happly]
    have hi' : i < ms.length := by
      rcases Nat.lt_or_ge i ms.length with h | h
      · exact h
      · rw [List.getElem?_eq_none h] at hi
        cases hi
    apply GoMap.lookupEntries_of_mem
    · simpa [List.map_fst_zip, hlen] using hnd
    · rw [List.mem_iff_getElem?]
      refine ⟨i, ?_⟩
      simp [List.getElem?_zip_eq_some, hi, List.getElem?_range (hlen ▸ hi')]

/-- C8 at the key `name` with three operands marshalled by the identity. -/
theorem in_apply_empty_witness :
    ((⟨"name"⟩ : ConditionExpression String).In ["x", "y", "z"]).Apply
        (fun s : String => some s) Accumulator.empty =
      ⟨some "(#__c_name__ IN (:__c_name_0__,:__c_name_1__,:__c_name_2__))",
       ⟨[("#__c_name__", "name")]⟩,
       ⟨[(":__c_name_0__", "x"), (":__c_name_1__", "y"), (":__c_name_2__", "z")]⟩⟩ :=
  (in_apply_empty (fun s : String => some s) "name" ["x", "y", "z"] ["x", "y", "z"]
    (by decide) rfl).1.trans (by decide)

/-! ## What `Apply` does to any accumulator -/

theorem exists_map_some {α β : Type} (f : α → Option β) (l : List α)
    (h : ∀ x ∈ l, (f x).isSome) : ∃ ms : List β, l.map f = ms.map some := by
  induction l with
  | nil => exact ⟨[], rfl⟩
  | cons x xs ih =>
    obtain ⟨ms, hms⟩ := ih (fun y hy => h y (List.mem_cons_of_mem _ hy))
    obtain ⟨m, hm⟩ := Option.isSome_iff_exists.mp (h x (List.mem_cons_self _ _))
    exact ⟨m :: ms, by simp [hm, hms]⟩

theorem emits_iff (marshal : A → Option V) (c : Constraint A) :
    c.emits marshal = true ↔ c.key ≠ "" ∧ ∀ x ∈ c.operands, (marshal x).isSome := by
  simp [Constraint.emits]

/-- A node with a non-empty key whose operands marshal to `ms` appends its
fragment `expr`, registers its alias for its key and binds its tokens, in
order, to `ms`. -/
theorem apply_of_marshals (marshal : A → Option V) (c : Constraint A) (ms : List V)
    (acc : Accumulator V) (hk : c.key ≠ "") (hm : c.operands.map marshal = ms.map some) :
    c.Apply marshal acc =
      ⟨conjoin acc.conditionExpression c.expr,
       acc.expressionAttributeNames.store c.alias c.key,
       acc.expressionAttributeValues.storeAll (c.lets.zip ms)⟩ := by
  cases c with
  | dyadic c =>
    simp only [Constraint.key] at hk
    rcases ms with _ | ⟨m, _ | ⟨m', ms⟩⟩ <;>
      simp only [Constraint.operands, List.map_cons, List.map_nil, List.cons.injEq,
        and_true, reduceCtorEq, and_false] at hm
    simp [Constraint.Apply, dyadicCondition.Apply, hk, hm, Constraint.expr, Constraint.alias,
      Constraint.lets, Constraint.key, GoMap.storeAll]
  | unary c =>
    simp only [Constraint.key] at hk
    simp [Constraint.Apply, unaryCondition.Apply, hk, Constraint.expr, Constraint.alias,
      Constraint.lets, Constraint.key, GoMap.storeAll]
  | between c =>
    simp only [Constraint.key] at hk
    rcases ms with _ | ⟨ma, _ | ⟨mb, _ | ⟨mc, ms⟩⟩⟩ <;>
      simp only [Constraint.operands, List.map_cons, List.map_nil, List.cons.injEq,
        and_true, reduceCtorEq, and_false] at hm
    simp [Constraint.Apply, betweenCondition.Apply, hk, hm.1, hm.2, Constraint.expr,
      Constraint.alias, Constraint.lets, Constraint.key, GoMap.storeAll]
  | inSeq c =>
    simp only [Constraint.key] at hk
    simp only [Constraint.operands] at hm
    simp only [Constraint.Apply, inCondition.Apply, hk, if_false]
    rw [inCondition_loop_ok marshal c.key c.seq ms 0 _ _ hm (by simp)]
    simp [Constraint.expr, Constraint.alias, Constraint.lets, Constraint.key,
      List.range_eq_range']
  | functional c =>
    simp only [Constraint.key] at hk
    rcases ms with _ | ⟨m, _ | ⟨m', ms⟩⟩ <;>
      simp only [Constraint.operands, List.map_cons, List.map_nil, List.cons.injEq,
        and_true, reduceCtorEq, and_false] at hm
    simp [Constraint.Apply, functionalCondition.Apply, hk, hm, Constraint.expr,
      Constraint.alias, Constraint.lets, Constraint.key, GoMap.storeAll]

/-- The loop of `inCondition.Apply` leaves through `return` as soon as one
operand fails to marshal. -/
theorem inCondition_loop_fails (marshal : A → Option V) (key : String) :
    ∀ (seq : List A) (i : Nat) (lets : List String) (values : GoMap V),
      (∃ x ∈ seq, marshal x = none) →
      (inCondition.loop marshal key seq i lets values).1 = none := by
  intro seq
  induction seq with
  | nil => intro i lets values h; simp at h
  | cons x rest ih =>
    intro i lets values h
    cases hx : marshal x with
    | none => simp [inCondition.loop, hx]
    | some m =>
      simp only [inCondition.loop, hx]
      apply ih
      obtain ⟨y, hy, hy'⟩ := h
      simp only [List.mem_cons] at hy
      rcases hy with rfl | hy
      · rw [hx] at hy'; cases hy'
      · exact ⟨y, hy, hy'⟩

/-- A node that does not emit leaves the expression as it was. -/
theorem apply_expression_of_not_emits (marshal : A → Option V) (c : Constraint A)
    (acc : Accumulator V) (h : c.emits marshal = false) :
    (c.Apply marshal acc).conditionExpression = acc.conditionExpression := by
  by_cases hk : c.key = ""
  · rw [apply_guard marshal c acc hk]
  · have hx : ∃ x ∈ c.operands, marshal x = none := by
      by_contra hcon
      have : c.emits marshal = true := by
        rw [emits_iff]
        refine ⟨hk, fun x hx => ?_⟩
        cases hmx : marshal x with
        | none => exact absurd ⟨x, hx, hmx⟩ hcon
        | some m => rfl
      rw [this] at h
      cases h
    cases c with
    | dyadic c =>
      simp only [Constraint.operands, List.mem_singleton, exists_eq_left] at hx
      simp [Constraint.Apply, dyadicCondition.Apply, hx]
    | unary c => simp [Constraint.operands] at hx
    | between c =>
      simp only [Constraint.operands, List.mem_cons, List.mem_singleton, List.not_mem_nil,
        or_false, exists_eq_or_imp, exists_eq_left] at hx
      simp only [Constraint.Apply, betweenCondition.Apply]
      split
      · rfl
      · rcases hx with hx | hx
        · simp [hx]
        · cases marshal c.a <;> simp [hx]
    | inSeq c =>
      simp only [Constraint.operands] at hx
      simp only [Constraint.Apply, inCondition.Apply]
      split
      · rfl
      · have := inCondition_loop_fails marshal c.key c.seq 0
          (List.replicate c.seq.length "") acc.expressionAttributeValues hx
        split
        · rfl
        · rename_i heq
          rw [heq] at this
          cases this
    | functional c =>
      simp only [Constraint.operands, List.mem_singleton, exists_eq_left] at hx
      simp [Constraint.Apply, functionalCondition.Apply, hx]

theorem apply_expression_of_emits (marshal : A → Option V) (c : Constraint A)
    (acc : Accumulator V) (h : c.emits marshal = true) :
    (c.Apply marshal acc).conditionExpression = conjoin acc.conditionExpression c.expr := by
  rw [emits_iff] at h
  obtain ⟨ms, hms⟩ := exists_map_some marshal c.operands h.2
  rw [apply_of_marshals marshal c ms acc h.1 hms]

/-- The expression after a list of nodes: the fragments of the emitting nodes,
conjoined in list order onto the starting expression. -/
theorem fold_expression (marshal : A → Option V) (cs : List (Constraint A)) :
    ∀ acc : Accumulator V,
      (cs.foldl (fun acc opt => opt.Apply marshal acc) acc).conditionExpression =
        ((cs.filter (Constraint.emits marshal)).map Constraint.expr).foldl conjoin
          acc.conditionExpression := by
  induction cs with
  | nil => intro acc; rfl
  | cons c rest ih =>
    intro acc
    simp only [List.foldl_cons]
    rw [ih]
    cases h : c.emits marshal with
    | true =>
      rw [apply_expression_of_emits marshal c acc h]
      simp [List.filter_cons, h]
    | false =>
      rw [apply_expression_of_not_emits marshal c acc h]
      simp [List.filter_cons, h]

theorem intercalate_go_eq (sep : String) (xs : List String) : ∀ acc : String,
    String.intercalate.go acc sep xs = xs.foldl (fun a x => a ++ sep ++ x) acc := by
  induction xs with
  | nil => intro acc; rfl
  | cons x xs ih => intro acc; simp [String.intercalate.go, ih]

theorem foldl_conjoin_some (es : List String) : ∀ prev : String,
    es.foldl conjoin (some prev) = some (es.foldl (fun a x => a ++ " and " ++ x) prev) := by
  induction es with
  | nil => intro prev; rfl
  | cons e es ih => intro prev; simp [conjoin, ih]

/-- Conjoining fragments onto a nil expression joins them with `" and "`. -/
theorem foldl_conjoin_none (es : List String) :
    es.foldl conjoin none = if es = [] then none else some (" and ".intercalate es) := by
  cases es with
  | nil => rfl
  | cons e es =>
    simp [conjoin, foldl_conjoin_some, String.intercalate, intercalate_go_eq]

/-- C2: for a non-empty list of nodes with non-empty keys and marshalable
operands, `maybeConditionExpression` started from a nil expression leaves
exactly the fragments of the nodes, in list order, joined by `" and "`; the
fragment of a node is the expression its `Apply` yields on the empty
accumulator, and appending one more node to a non-empty list appends
`" and "` and that node's fragment. -/
theorem maybeConditionExpression_joins (marshal : A → Option V) (cs : List (Constraint A))
    (hne : cs ≠ [])
    (h : ∀ c ∈ cs, c.key ≠ "" ∧ ∀ x ∈ c.operands, (marshal x).isSome) :
    (∀ c ∈ cs, (c.Apply marshal Accumulator.empty).conditionExpression = some c.expr) ∧
    (maybeConditionExpression marshal none cs : ConditionRequest V).conditionExpression =
      some (" and ".intercalate (cs.map Constraint.expr)) ∧
    (∀ c : Constraint A, c.key ≠ "" → (∀ x ∈ c.operands, (marshal x).isSome) →
      (maybeConditionExpression marshal none (cs ++ [c]) : ConditionRequest V).conditionExpression =
        some (" and ".intercalate (cs.map Constraint.expr) ++ " and " ++ c.expr)) := by
  have hall : ∀ c ∈ cs, c.emits marshal = true := fun c hc => (emits_iff marshal c).mpr (h c hc)
  have hfilter : cs.filter (Constraint.emits marshal) = cs := List.filter_eq_self.mpr hall
  have hmain : ∀ acc : Accumulator V, acc.conditionExpression = none →
      (cs.foldl (fun acc opt => opt.Apply marshal acc) acc).conditionExpression =
        some (" and ".intercalate (cs.map Constraint.expr)) := by
    intro acc hacc
    rw [fold_expression, hfilter, hacc, foldl_conjoin_none]
    simp [hne]
  refine ⟨fun c hc => ?_, ?_, ?_⟩
  · rw [apply_expression_of_emits marshal c _ (hall c hc)]
    rfl
  · have hlen : cs.length > 0 := List.length_pos.mpr hne
    simp only [maybeConditionExpression, hlen, if_true]
    exact hmain _ rfl
  · intro c hk hc
    have hce : c.emits marshal = true := (emits_iff marshal c).mpr ⟨hk, hc⟩
    simp only [maybeConditionExpression, List.length_append, List.length_singleton,
      gt_iff_lt, Nat.add_pos_iff_pos_or_pos, Nat.lt_one_iff, or_true, if_true,
      List.foldl_append, List.foldl_cons, List.foldl_nil]
    rw [apply_expression_of_emits marshal c _ hce, hmain _ rfl]
    rfl

/-- C2 on `Eq`, `Exists` and `Between` nodes over three fields. -/
theorem maybeConditionExpression_joins_witness :
    (maybeConditionExpression (fun s : String => some s) none
        [(⟨"name"⟩ : ConditionExpression String).Eq "Joe",
         (⟨"city"⟩ : ConditionExpression String).Exists,
         (⟨"age"⟩ : ConditionExpression String).Between "18" "65"]
      : ConditionRequest String).conditionExpression =
    some ("(#__c_name__ = :__c_name__) and (attribute_exists(#__c_city__)) and "
      ++ "(#__c_age__ BETWEEN :__c_age_a__ AND :__c_age_b__)") :=
  ((maybeConditionExpression_joins (fun s : String => some s)
      [(⟨"name"⟩ : ConditionExpression String).Eq "Joe",
       (⟨"city"⟩ : ConditionExpression String).Exists,
       (⟨"age"⟩ : ConditionExpression String).Between "18" "65"]
      (by decide) (by decide)).2.1).trans (by decide)

/-! ## Tables after a list of nodes -/

theorem mem_keys_storeAll (kvs : List (String × V)) : ∀ (m : GoMap V) (t : String),
    t ∈ (m.storeAll kvs).keys ↔ t ∈ m.keys ∨ t ∈ kvs.map Prod.fst := by
  induction kvs with
  | nil => intro m t; simp [GoMap.storeAll]
  | cons kv kvs ih =>
    intro m t
    have h := ih (m.store kv.1 kv.2) t
    simp only [GoMap.storeAll, List.foldl_cons] at h ⊢
    rw [h, GoMap.mem_keys_store]
    simp only [List.map_cons, List.mem_cons]
    tauto

/-- The keys of the value table after the loop of `inCondition.Apply`, however
it was left: the keys it had, and tokens of the indices the loop ran over. -/
theorem inCondition_loop_keys (marshal : A → Option V) (key : String) :
    ∀ (seq : List A) (i : Nat) (lets : List String) (values : GoMap V) (t : String),
      (t ∈ values.keys → t ∈ (inCondition.loop marshal key seq i lets values).2.keys) ∧
      (t ∈ (inCondition.loop marshal key seq i lets values).2.keys →
        t ∈ values.keys ∨
        ∃ j, i ≤ j ∧ j < i + seq.length ∧ t = ":__c_" ++ key ++ "_" ++ Itoa j ++ "__") := by
  intro seq
  induction seq with
  | nil => intro i lets values t; exact ⟨id, Or.inl⟩
  | cons x rest ih =>
    intro i lets values t
    cases hx : marshal x with
    | none =>
      simp only [inCondition.loop, hx]
      exact ⟨id, Or.inl⟩
    | some m =>
      simp only [inCondition.loop, hx]
      obtain ⟨h1, h2⟩ := ih (i + 1) (lets.set i (":__c_" ++ key ++ "_" ++ Itoa i ++ "__"))
        (values.store (":__c_" ++ key ++ "_" ++ Itoa i ++ "__") m) t
      constructor
      · intro ht
        exact h1 ((GoMap.mem_keys_store _ _ _ _).mpr (Or.inr ht))
      · intro ht
        rcases h2 ht with h | ⟨j, hj1, hj2, hj3⟩
        · rcases (GoMap.mem_keys_store _ _ _ _).mp h with h | h
          · exact Or.inr ⟨i, Nat.le_refl i, by simp, h⟩
          · exact Or.inl h
        · exact Or.inr ⟨j, by omega, by simp only [List.length_cons]; omega, hj3⟩

/-- The name table after `Apply`: untouched, or the alias of the node stored
for the key of the node. -/
theorem apply_names (marshal : A → Option V) (c : Constraint A) (acc : Accumulator V) :
    (c.Apply marshal acc).expressionAttributeNames = acc.expressionAttributeNames ∨
    (c.Apply marshal acc).expressionAttributeNames =
      acc.expressionAttributeNames.store c.alias c.key := by
  cases c with
  | dyadic c =>
    simp only [Constraint.Apply, dyadicCondition.Apply, Constraint.alias, Constraint.key]
    split
    · exact Or.inl rfl
    · split
      · exact Or.inl rfl
      · exact Or.inr rfl
  | unary c =>
    simp only [Constraint.Apply, unaryCondition.Apply, Constraint.alias, Constraint.key]
    split
    · exact Or.inl rfl
    · exact Or.inr rfl
  | between c =>
    simp only [Constraint.Apply, betweenCondition.Apply, Constraint.alias, Constraint.key]
    split
    · exact Or.inl rfl
    · split
      · exact Or.inl rfl
      · split
        · exact Or.inl rfl
        · exact Or.inr rfl
  | inSeq c =>
    simp only [Constraint.Apply, inCondition.Apply, Constraint.alias, Constraint.key]
    split
    · exact Or.inl rfl
    · split <;> exact Or.inr rfl
  | functional c =>
    simp only [Constraint.Apply, functionalCondition.Apply, Constraint.alias, Constraint.key]
    split
    · exact Or.inl rfl
    · split
      · exact Or.inl rfl
      · exact Or.inr rfl

/-- The keys of the value table after `Apply`: every key it had is kept, and a
new key is a binding token of the node. -/
theorem apply_values_keys (marshal : A → Option V) (c : Constraint A) (acc : Accumulator V)
    (t : String) :
    (t ∈ acc.expressionAttributeValues.keys →
      t ∈ (c.Apply marshal acc).expressionAttributeValues.keys) ∧
    (t ∈ (c.Apply marshal acc).expressionAttributeValues.keys →
      t ∈ acc.expressionAttributeValues.keys ∨ t ∈ c.lets) := by
  cases c with
  | dyadic c =>
    simp only [Constraint.Apply, dyadicCondition.Apply, Constraint.lets]
    split
    · exact ⟨id, Or.inl⟩
    · split
      · exact ⟨id, Or.inl⟩
      · simp only [GoMap.mem_keys_store, List.mem_singleton]
        tauto
  | unary c =>
    simp only [Constraint.Apply, unaryCondition.Apply, Constraint.lets]
    split <;> exact ⟨id, Or.inl⟩
  | between c =>
    simp only [Constraint.Apply, betweenCondition.Apply, Constraint.lets]
    split
    · exact ⟨id, Or.inl⟩
    · split
      · exact ⟨id, Or.inl⟩
      · split
        · exact ⟨id, Or.inl⟩
        · simp only [GoMap.mem_keys_store, List.mem_cons, List.mem_singleton, List.not_mem_nil,
            or_false]
          tauto
  | inSeq c =>
    have hloop := inCondition_loop_keys marshal c.key c.seq 0 (List.replicate c.seq.length "")
      acc.expressionAttributeValues t
    have hlets : ∀ j, 0 ≤ j ∧ j < 0 + c.seq.length ∧
        t = ":__c_" ++ c.key ++ "_" ++ Itoa j ++ "__" → t ∈ (Constraint.inSeq c).lets := by
      rintro j ⟨_, hj, rfl⟩
      simp only [Constraint.lets, List.mem_map, List.mem_range]
      exact ⟨j, by omega, rfl⟩
    simp only [Constraint.Apply, inCondition.Apply]
    split
    · exact ⟨id, Or.inl⟩
    · split <;>
      · rename_i heq
        rw [heq] at hloop
        refine ⟨hloop.1, fun ht => ?_⟩
        rcases hloop.2 ht with h | ⟨j, hj⟩
        · exact Or.inl h
        · exact Or.inr (hlets j hj)
  | functional c =>
    simp only [Constraint.Apply, functionalCondition.Apply, Constraint.lets]
    split
    · exact ⟨id, Or.inl⟩
    · split
      · exact ⟨id, Or.inl⟩
      · simp only [GoMap.mem_keys_store, List.mem_singleton]
        tauto

/-- An alias that resolves to its field keeps doing so whatever node is applied
next: a node stores under that alias only if it has the same key. -/
theorem apply_names_lookup_alias (marshal : A → Option V) (c : Constraint A)
    (acc : Accumulator V) (k : String)
    (h : acc.expressionAttributeNames.lookup ("#__c_" ++ k ++ "__") = some k) :
    (c.Apply marshal acc).expressionAttributeNames.lookup ("#__c_" ++ k ++ "__") = some k := by
  rcases apply_names marshal c acc with h1 | h1
  · rw [h1]; exact h
  · rw [h1]
    by_cases hk : c.key = k
    · subst hk
      exact GoMap.lookup_store_self _ _ _
    · rw [GoMap.lookup_store_ne]
      · exact h
      · intro heq
        exact hk (alias_inj heq).symm

theorem fold_names_lookup_alias (marshal : A → Option V) (cs : List (Constraint A))
    (k : String) : ∀ acc : Accumulator V,
      acc.expressionAttributeNames.lookup ("#__c_" ++ k ++ "__") = some k →
      (cs.foldl (fun acc opt => opt.Apply marshal acc) acc).expressionAttributeNames.lookup
        ("#__c_" ++ k ++ "__") = some k := by
  induction cs with
  | nil => intro acc h; exact h
  | cons c rest ih =>
    intro acc h
    exact ih _ (apply_names_lookup_alias marshal c acc k h)

theorem fold_values_keys_mono (marshal : A → Option V) (cs : List (Constraint A)) (t : String) :
    ∀ acc : Accumulator V, t ∈ acc.expressionAttributeValues.keys →
      t ∈ (cs.foldl (fun acc opt => opt.Apply marshal acc) acc).expressionAttributeValues.keys := by
  induction cs with
  | nil => intro acc h; exact h
  | cons c rest ih =>
    intro acc h
    exact ih _ ((apply_values_keys marshal c acc t).1 h)

/-- Right after an emitting node its alias resolves to its key and each of its
binding tokens is a key of the value table. -/
theorem apply_tokens_of_emits (marshal : A → Option V) (c : Constraint A) (acc : Accumulator V)
    (h : c.emits marshal = true) :
    (c.Apply marshal acc).expressionAttributeNames.lookup c.alias = some c.key ∧
    ∀ t ∈ c.lets, t ∈ (c.Apply marshal acc).expressionAttributeValues.keys := by
  rw [emits_iff] at h
  obtain ⟨ms, hms⟩ := exists_map_some marshal c.operands h.2
  have hlen : c.lets.length = ms.length := by
    have h1 : c.operands.length = ms.length := by simpa using congrArg List.length hms
    rw [← h1]
    cases c <;> simp [Constraint.lets, Constraint.operands]
  rw [apply_of_marshals marshal c ms acc h.1 hms]
  refine ⟨GoMap.lookup_store_self _ _ _, fun t ht => ?_⟩
  rw [mem_keys_storeAll]
  right
  rw [List.map_fst_zip _ _ (Nat.le_of_eq hlen)]
  exact ht

theorem fold_tokens_of_emits (marshal : A → Option V) (cs : List (Constraint A)) :
    ∀ (acc : Accumulator V), ∀ c ∈ cs, c.emits marshal = true →
      (cs.foldl (fun acc opt => opt.Apply marshal acc) acc).expressionAttributeNames.lookup
          c.alias = some c.key ∧
      ∀ t ∈ c.lets,
        t ∈ (cs.foldl (fun acc opt => opt.Apply marshal acc)
          acc).expressionAttributeValues.keys := by
  induction cs with
  | nil => intro acc c hc; simp at hc
  | cons c0 rest ih =>
    intro acc c hc hemit
    simp only [List.mem_cons] at hc
    simp only [List.foldl_cons]
    by_cases hrest : c ∈ rest
    · exact ih _ c hrest hemit
    · have hc0 : c = c0 := by tauto
      subst hc0
      obtain ⟨h1, h2⟩ := apply_tokens_of_emits marshal c acc hemit
      exact ⟨fold_names_lookup_alias marshal rest c.key _ h1,
        fun t ht => fold_values_keys_mono marshal rest t _ (h2 t ht)⟩

/-- C4: after a list of nodes is applied to a nil expression and any tables,
the expression is the `" and "`-join of the fragments of the nodes that emit,
each fragment being written with the alias token and the binding tokens of its
node; for every such node the alias token is a key of the name table whose
value is the key (wire name) of that node, and every binding token is a key of
the value table. The same holds of the tables `maybeConditionExpression`
returns. -/
theorem expression_tokens_resolved (marshal : A → Option V) (cs : List (Constraint A))
    (names : GoMap String) (values : GoMap V) :
    (maybeUpdateConditionExpression marshal ⟨none, names, values⟩ cs).conditionExpression =
      (if (cs.filter (Constraint.emits marshal)).isEmpty then none
       else some (" and ".intercalate
        ((cs.filter (Constraint.emits marshal)).map Constraint.expr))) ∧
    (∀ c ∈ cs, c.emits marshal = true →
      (maybeUpdateConditionExpression marshal ⟨none, names, values⟩
          cs).expressionAttributeNames.lookup c.alias = some c.key ∧
      ∀ t ∈ c.lets,
        t ∈ (maybeUpdateConditionExpression marshal ⟨none, names, values⟩
          cs).expressionAttributeValues.keys) ∧
    (∀ c ∈ cs, c.emits marshal = true →
      (∃ n, (maybeConditionExpression marshal none cs : ConditionRequest V).expressionAttributeNames
          = some n ∧ n.lookup c.alias = some c.key) ∧
      ∀ t ∈ c.lets,
        ∃ vt, (maybeConditionExpression marshal none cs : ConditionRequest V).expressionAttributeValues
          = some vt ∧ t ∈ vt.keys) := by
  refine ⟨?_, fun c hc hemit => ?_, fun c hc hemit => ?_⟩
  · rw [maybeUpdateConditionExpression, fold_expression, foldl_conjoin_none]
    cases cs.filter (Constraint.emits marshal) <;> simp
  · exact fold_tokens_of_emits marshal cs _ c hc hemit
  · obtain ⟨h1, h2⟩ := fold_tokens_of_emits marshal cs
      (⟨none, GoMap.empty, GoMap.empty⟩ : Accumulator V) c hc hemit
    have hlen : cs.length > 0 := List.length_pos.mpr (List.ne_nil_of_mem hc)
    simp only [maybeConditionExpression, hlen, if_true]
    constructor
    · refine ⟨_, ?_, h1⟩
      rw [if_neg]
      intro h0
      have hnil := List.length_eq_zero.mp h0
      simp [GoMap.lookup, hnil, GoMap.lookupEntries] at h1
    · intro t ht
      refine ⟨_, ?_, h2 t ht⟩
      rw [if_neg]
      intro h0
      have hnil := List.length_eq_zero.mp h0
      have := h2 t ht
      simp [GoMap.keys, hnil] at this

/-! ## Tokens of different nodes -/

theorem lets_start (c : Constraint A) (t : String) (h : t ∈ c.lets) :
    ∃ r, t = ":__c_" ++ r := by
  cases c with
  | dyadic c =>
    simp only [Constraint.lets, List.mem_singleton] at h
    exact ⟨c.key ++ "__", by rw [h, String.append_assoc]⟩
  | unary c => simp [Constraint.lets] at h
  | between c =>
    simp only [Constraint.lets, List.mem_cons, List.mem_singleton, List.not_mem_nil,
      or_false] at h
    rcases h with h | h
    · exact ⟨c.key ++ "_a__", by rw [h, String.append_assoc]⟩
    · exact ⟨c.key ++ "_b__", by rw [h, String.append_assoc]⟩
  | inSeq c =>
    simp only [Constraint.lets, List.mem_map, List.mem_range] at h
    obtain ⟨j, _, rfl⟩ := h
    exact ⟨c.key ++ "_" ++ Itoa j ++ "__", by simp only [String.append_assoc]⟩
  | functional c =>
    simp only [Constraint.lets, List.mem_singleton] at h
    exact ⟨c.key ++ "__", by rw [h, String.append_assoc]⟩

/-- A binding token is never an alias token. -/
theorem lets_ne_alias (c c' : Constraint A) (t : String) (h : t ∈ c.lets) : t ≠ c'.alias := by
  obtain ⟨r, rfl⟩ := lets_start c t h
  simp only [Constraint.alias, String.append_assoc]
  exact colon_ne_hash _ _

theorem lets_nodup (c : Constraint A) : c.lets.Nodup := by
  cases c with
  | dyadic c => simp [Constraint.lets]
  | unary c => simp [Constraint.lets]
  | between c => simp [Constraint.lets, letA_ne_letB c.key c.key]
  | inSeq c => exact inTokens_nodup c.key c.seq.length
  | functional c => simp [Constraint.lets]

/-- Nodes on different fields have no binding token in common, unless one of
them is a single-operand node and the other a `Between` or `In` node. -/
theorem lets_disjoint (c1 c2 : Constraint A) (hk : c1.key ≠ c2.key)
    (hclass : (c1.singleOperand = false ∧ c2.singleOperand = false) ∨
      (c1.manyOperand = false ∧ c2.manyOperand = false))
    (t : String) (h1 : t ∈ c1.lets) (h2 : t ∈ c2.lets) : False := by
  cases c1 <;> cases c2 <;>
    simp only [Constraint.lets, Constraint.key, Constraint.singleOperand,
      Constraint.manyOperand, List.mem_singleton, List.mem_cons, List.not_mem_nil, or_false,
      List.mem_map, List.mem_range, and_self, and_false, false_and, or_self, reduceCtorEq]
      at h1 h2 hk hclass
  · exact hk (let_inj (h1.symm.trans h2))
  · exact hk (let_inj (h1.symm.trans h2))
  · rcases h1 with h1 | h1 <;> rcases h2 with h2 | h2
    · exact hk (letA_inj (h1.symm.trans h2))
    · exact letA_ne_letB _ _ (h1.symm.trans h2)
    · exact letA_ne_letB _ _ (h2.symm.trans h1)
    · exact hk (letB_inj (h1.symm.trans h2))
  · obtain ⟨j, _, h2⟩ := h2
    rcases h1 with h1 | h1
    · exact hk (letA_inToken_key (h1.symm.trans h2.symm))
    · exact hk (letB_inToken_key (h1.symm.trans h2.symm))
  · obtain ⟨j, _, h1⟩ := h1
    rcases h2 with h2 | h2
    · exact hk (letA_inToken_key (h2.symm.trans h1.symm)).symm
    · exact hk (letB_inToken_key (h2.symm.trans h1.symm)).symm
  · obtain ⟨i, _, h1⟩ := h1
    obtain ⟨j, _, h2⟩ := h2
    exact hk (inToken_key_inj (h1.trans h2.symm))
  · exact hk (let_inj (h1.symm.trans h2))
  · exact hk (let_inj (h1.symm.trans h2))

theorem keys_store_nodup (m : GoMap V) (k : String) (v : V) (h : m.keys.Nodup) :
    (m.store k v).keys.Nodup := by
  rw [GoMap.keys_store]
  split
  · exact h
  · rename_i hk
    rw [List.nodup_append]
    refine ⟨h, by simp, ?_⟩
    intro t ht ht'
    simp only [List.mem_singleton] at ht'
    exact hk (ht' ▸ ht)

theorem inCondition_loop_keys_nodup (marshal : A → Option V) (key : String) :
    ∀ (seq : List A) (i : Nat) (lets : List String) (values : GoMap V),
      values.keys.Nodup → (inCondition.loop marshal key seq i lets values).2.keys.Nodup := by
  intro seq
  induction seq with
  | nil => intro i lets values h; exact h
  | cons x rest ih =>
    intro i lets values h
    cases hx : marshal x with
    | none => simp only [inCondition.loop, hx]; exact h
    | some m =>
      simp only [inCondition.loop, hx]
      exact ih _ _ _ (keys_store_nodup _ _ _ h)

/-- `Apply` keeps the keys of the value table free of repetitions. -/
theorem apply_values_keys_nodup (marshal : A → Option V) (c : Constraint A)
    (acc : Accumulator V) (h : acc.expressionAttributeValues.keys.Nodup) :
    (c.Apply marshal acc).expressionAttributeValues.keys.Nodup := by
  cases c with
  | dyadic c =>
    simp only [Constraint.Apply, dyadicCondition.Apply]
    split
    · exact h
    · split
      · exact h
      · exact keys_store_nodup _ _ _ h
  | unary c =>
    simp only [Constraint.Apply, unaryCondition.Apply]
    split <;> exact h
  | between c =>
    simp only [Constraint.Apply, betweenCondition.Apply]
    split
    · exact h
    · split
      · exact h
      · split
        · exact h
        · exact keys_store_nodup _ _ _ (keys_store_nodup _ _ _ h)
  | inSeq c =>
    have hloop := inCondition_loop_keys_nodup marshal c.key c.seq 0
      (List.replicate c.seq.length "") acc.expressionAttributeValues h
    simp only [Constraint.Apply, inCondition.Apply]
    split
    · exact h
    · split <;>
      · rename_i heq
        rw [heq] at hloop
        exact hloop
  | functional c =>
    simp only [Constraint.Apply, functionalCondition.Apply]
    split
    · exact h
    · split
      · exact h
      · exact keys_store_nodup _ _ _ h

theorem aliasTokens_cases (marshal : A → Option V) (c : Constraint A) :
    c.aliasTokens marshal = [] ∨ c.aliasTokens marshal = [c.alias] := by
  rcases apply_names marshal c Accumulator.empty with h | h
  · left
    rw [Constraint.aliasTokens, h]
    rfl
  · right
    rw [Constraint.aliasTokens, h]
    rfl

theorem mem_bindingTokens (marshal : A → Option V) (c : Constraint A) (t : String)
    (h : t ∈ c.bindingTokens marshal) : t ∈ c.lets := by
  rcases (apply_values_keys marshal c Accumulator.empty t).2 h with h1 | h1
  · simp [Accumulator.empty, GoMap.keys, GoMap.empty] at h1
  · exact h1

theorem bindingTokens_nodup (marshal : A → Option V) (c : Constraint A) :
    (c.bindingTokens marshal).Nodup :=
  apply_values_keys_nodup marshal c Accumulator.empty
    (by simp [Accumulator.empty, GoMap.keys, GoMap.empty])

theorem tokens_of_emits (marshal : A → Option V) (c : Constraint A)
    (h : c.emits marshal = true) :
    c.aliasTokens marshal = [c.alias] ∧ c.bindingTokens marshal = c.lets := by
  rw [emits_iff] at h
  obtain ⟨ms, hms⟩ := exists_map_some marshal c.operands h.2
  have hlen : c.lets.length = ms.length := by
    have h1 : c.operands.length = ms.length := by simpa using congrArg List.length hms
    rw [← h1]
    cases c <;> simp [Constraint.lets, Constraint.operands]
  have hfst : (c.lets.zip ms).map Prod.fst = c.lets := List.map_fst_zip _ _ (Nat.le_of_eq hlen)
  simp only [Constraint.aliasTokens, Constraint.bindingTokens,
    apply_of_marshals marshal c ms _ h.1 hms, Accumulator.empty, GoMap.store_empty]
  refine ⟨rfl, ?_⟩
  rw [GoMap.storeAll_of_nodup]
  · simp [GoMap.keys, GoMap.empty, hfst]
  · simpa [GoMap.keys, GoMap.empty, hfst] using lets_nodup c

theorem nodeTokens_nodup (marshal : A → Option V) (c : Constraint A) :
    (c.aliasTokens marshal ++ c.bindingTokens marshal).Nodup := by
  rw [List.nodup_append]
  refine ⟨?_, bindingTokens_nodup marshal c, ?_⟩
  · rcases aliasTokens_cases marshal c with h | h <;> simp [h]
  · intro t h1 h2
    rcases aliasTokens_cases marshal c with h | h
    · simp [h] at h1
    · rw [h, List.mem_singleton] at h1
      exact lets_ne_alias c c t (mem_bindingTokens marshal c t h2) h1

theorem aliasTokens_disjoint (marshal : A → Option V) (c1 c2 : Constraint A)
    (hk : c1.key ≠ c2.key) (t : String) (h1 : t ∈ c1.aliasTokens marshal)
    (h2 : t ∈ c2.aliasTokens marshal) : False := by
  rcases aliasTokens_cases marshal c1 with e1 | e1
  · simp [e1] at h1
  · rcases aliasTokens_cases marshal c2 with e2 | e2
    · simp [e2] at h2
    · rw [e1, List.mem_singleton] at h1
      rw [e2, List.mem_singleton] at h2
      exact hk (alias_inj (h1.symm.trans h2))

/-- C3, as the code has it: tokens are scoped per field, not per node. For
nodes on pairwise distinct fields the generated alias tokens are pairwise
distinct, and all generated tokens, alias and binding, are pairwise distinct
provided the list does not mix single-operand nodes (comparisons, `HasPrefix`,
`Contains`) with `Between` or `In` nodes. Two emitting nodes on the same field
generate the same alias token and, when both are single-operand nodes, the
same binding token. -/
theorem tokens_scoped_per_field (marshal : A → Option V) (cs : List (Constraint A)) :
    ((cs.map Constraint.key).Nodup →
      (cs.flatMap (Constraint.aliasTokens marshal)).Nodup ∧
      (((∀ c ∈ cs, c.singleOperand = false) ∨ (∀ c ∈ cs, c.manyOperand = false)) →
        (cs.flatMap fun c => c.aliasTokens marshal ++ c.bindingTokens marshal).Nodup)) ∧
    (∀ c1 ∈ cs, ∀ c2 ∈ cs, c1.emits marshal = true → c2.emits marshal = true →
      c1.key = c2.key →
      c1.aliasTokens marshal = c2.aliasTokens marshal ∧
      (c1.singleOperand = true → c2.singleOperand = true →
        c1.bindingTokens marshal = c2.bindingTokens marshal)) := by
  refine ⟨fun hkeys => ⟨?_, fun hclass => ?_⟩, fun c1 _ c2 _ he1 he2 hk => ?_⟩
  · rw [List.nodup_flatMap]
    refine ⟨fun c _ => ?_, ?_⟩
    · rcases aliasTokens_cases marshal c with h | h <;> simp [h]
    · have hp : cs.Pairwise (fun a b => a.key ≠ b.key) := by
        simpa [List.Nodup, List.pairwise_map] using hkeys
      refine hp.imp ?_
      intro a b hab t h1 h2
      exact aliasTokens_disjoint marshal a b hab t h1 h2
  · rw [List.nodup_flatMap]
    refine ⟨fun c _ => nodeTokens_nodup marshal c, ?_⟩
    have hp : cs.Pairwise (fun a b => a.key ≠ b.key) := by
      simpa [List.Nodup, List.pairwise_map] using hkeys
    refine (List.Pairwise.and_mem.mp hp).imp ?_
    rintro a b ⟨ha, hb, hab⟩ t h1 h2
    have hcl : (a.singleOperand = false ∧ b.singleOperand = false) ∨
        (a.manyOperand = false ∧ b.manyOperand = false) := by
      rcases hclass with h | h
      · exact Or.inl ⟨h a ha, h b hb⟩
      · exact Or.inr ⟨h a ha, h b hb⟩
    simp only [List.mem_append] at h1 h2
    rcases h1 with h1 | h1 <;> rcases h2 with h2 | h2
    · exact aliasTokens_disjoint marshal a b hab t h1 h2
    · rcases aliasTokens_cases marshal a with e | e
      · simp [e] at h1
      · rw [e, List.mem_singleton] at h1
        exact lets_ne_alias b a t (mem_bindingTokens marshal b t h2) h1
    · rcases aliasTokens_cases marshal b with e | e
      · simp [e] at h2
      · rw [e, List.mem_singleton] at h2
        exact lets_ne_alias a b t (mem_bindingTokens marshal a t h1) h2
    · exact lets_disjoint a b hab hcl t (mem_bindingTokens marshal a t h1)
        (mem_bindingTokens marshal b t h2)
  · obtain ⟨a1, b1⟩ := tokens_of_emits marshal c1 he1
    obtain ⟨a2, b2⟩ := tokens_of_emits marshal c2 he2
    refine ⟨by rw [a1, a2, Constraint.alias, Constraint.alias, hk], fun s1 s2 => ?_⟩
    rw [b1, b2]
    cases c1 <;> cases c2 <;>
      simp_all [Constraint.lets, Constraint.key, Constraint.singleOperand]

/-- C3 on an `Eq` node, an `Exists` node and a `Contains` node over three
fields: their five tokens are pairwise distinct. -/
theorem tokens_scoped_per_field_witness :
    ([(⟨"name"⟩ : ConditionExpression String).Eq "Joe",
      (⟨"city"⟩ : ConditionExpression String).Exists,
      (⟨"tags"⟩ : ConditionExpression String).Contains "x"].flatMap
        fun c => c.aliasTokens (fun s : String => some s) ++
          c.bindingTokens (fun s : String => some s)).Nodup :=
  ((tokens_scoped_per_field (fun s : String => some s)
      [(⟨"name"⟩ : ConditionExpression String).Eq "Joe",
       (⟨"city"⟩ : ConditionExpression String).Exists,
       (⟨"tags"⟩ : ConditionExpression String).Contains "x"]).1 (by decide)).2
    (Or.inr (by decide))

/-- C3 as stated fails. `Eq("a")` and `Ne("b")` on the field `name` generate
the same alias token and the same binding token, and after both are applied
the value table holds the single binding `:__c_name__ ↦ b`: the operand `a` is
gone. On distinct fields, `Between` on `x` and `Eq` on `x_a` both generate the
binding token `:__c_x_a__`. -/
theorem tokens_collide_on_same_field :
    ¬ ([(⟨"name"⟩ : ConditionExpression String).Eq "a",
        (⟨"name"⟩ : ConditionExpression String).Ne "b"].flatMap
          (Constraint.bindingTokens (fun s : String => some s))).Nodup ∧
    ¬ ([(⟨"name"⟩ : ConditionExpression String).Eq "a",
        (⟨"name"⟩ : ConditionExpression String).Ne "b"].flatMap
          (Constraint.aliasTokens (fun s : String => some s))).Nodup ∧
    maybeUpdateConditionExpression (fun s : String => some s) Accumulator.empty
        [(⟨"name"⟩ : ConditionExpression String).Eq "a",
         (⟨"name"⟩ : ConditionExpression String).Ne "b"] =
      ⟨some "(#__c_name__ = :__c_name__) and (#__c_name__ <> :__c_name__)",
       ⟨[("#__c_name__", "name")]⟩, ⟨[(":__c_name__", "b")]⟩⟩ ∧
    ¬ ([(⟨"x"⟩ : ConditionExpression String).Between "1" "2",
        (⟨"x_a"⟩ : ConditionExpression String).Eq "3"].flatMap
          (Constraint.bindingTokens (fun s : String => some s))).Nodup := by
  refine ⟨by decide, by decide, by decide, by decide⟩

/-- C4 on an `Eq` node and an `In` node applied to empty tables: the alias of
the `In` node resolves to its field and its two binding tokens are bound. -/
theorem expression_tokens_resolved_witness :
    (maybeUpdateConditionExpression (fun s : String => some s) ⟨none, GoMap.empty, GoMap.empty⟩
        [(⟨"name"⟩ : ConditionExpression String).Eq "Joe",
         (⟨"tag"⟩ : ConditionExpression String).In ["a", "b"]]).expressionAttributeNames.lookup
          "#__c_tag__" = some "tag" ∧
    ":__c_tag_0__" ∈ (maybeUpdateConditionExpression (fun s : String => some s)
        ⟨none, GoMap.empty, GoMap.empty⟩
        [(⟨"name"⟩ : ConditionExpression String).Eq "Joe",
         (⟨"tag"⟩ : ConditionExpression String).In ["a", "b"]]).expressionAttributeValues.keys ∧
    ":__c_tag_1__" ∈ (maybeUpdateConditionExpression (fun s : String => some s)
        ⟨none, GoMap.empty, GoMap.empty⟩
        [(⟨"name"⟩ : ConditionExpression String).Eq "Joe",
         (⟨"tag"⟩ : ConditionExpression String).In ["a", "b"]]).expressionAttributeValues.keys :=
  have h := (expression_tokens_resolved (fun s : String => some s)
    [(⟨"name"⟩ : ConditionExpression String).Eq "Joe",
     (⟨"tag"⟩ : ConditionExpression String).In ["a", "b"]] GoMap.empty GoMap.empty).2.1
    ((⟨"tag"⟩ : ConditionExpression String).In ["a", "b"]) (by decide) (by decide)
  ⟨h.1, h.2 ":__c_tag_0__" (by decide), h.2 ":__c_tag_1__" (by decide)⟩

end Nodes

/-! ## Match: the key condition and the query request -/

section MatchRequest

variable {T E : Type}

theorem lookupEntries_filter_ne {V : Type} (es : List (String × V)) (k : String) :
    GoMap.lookupEntries (es.filter fun e => e.1 != k) k = none := by
  induction es with
  | nil => rfl
  | cons e es ih =>
    obtain ⟨k1, v1⟩ := e
    by_cases h : k1 = k
    · simp [List.filter_cons, h, ih]
    · simp [List.filter_cons, h, GoMap.lookupEntries, ih]

theorem lookup_delete_self {V : Type} (m : GoMap V) (k : String) :
    (m.delete k).lookup k = none :=
  lookupEntries_filter_ne m.entries k

theorem not_mem_keys_delete {V : Type} (m : GoMap V) (k : String) : k ∉ (m.delete k).keys := by
  intro h
  have h1 := (GoMap.lookup_isSome_iff (m.delete k) k).mpr h
  rw [lookup_delete_self] at h1
  cases h1

theorem colon_token_inj {k k' : String} (h : ":__" ++ k ++ "__" = ":__" ++ k' ++ "__") :
    k = k' :=
  str_append_left_cancel (str_append_right_cancel h)

theorem hash_token_inj {k k' : String} (h : "#__" ++ k ++ "__" = "#__" ++ k' ++ "__") :
    k = k' :=
  str_append_left_cancel (str_append_right_cancel h)

/-- The keys of `exprOf gen` are tokens `:__k__` of attributes `k` of `gen`. -/
theorem mem_keys_exprOf_fold (es : List (String × AttributeValue)) :
    ∀ (val : GoMap AttributeValue) (t : String),
      t ∈ (es.foldl
        (fun val e =>
          match e.2 with
          | .NULL _ => val
          | v => val.store (":__" ++ e.1 ++ "__") v) val).keys →
      t ∈ val.keys ∨ ∃ k ∈ es.map Prod.fst, t = ":__" ++ k ++ "__" := by
  induction es with
  | nil => intro val t h; exact Or.inl h
  | cons e es ih =>
    intro val t h
    simp only [List.foldl_cons] at h
    rcases ih _ t h with h1 | ⟨k, hk, rfl⟩
    · have h2 : t ∈ val.keys ∨ t = ":__" ++ e.1 ++ "__" := by
        revert h1
        split
        · exact Or.inl
        · intro h1
          rcases (GoMap.mem_keys_store _ _ _ _).mp h1 with h3 | h3
          · exact Or.inr h3
          · exact Or.inl h3
      rcases h2 with h2 | h2
      · exact Or.inl h2
      · exact Or.inr ⟨e.1, by simp, h2⟩
    · exact Or.inr ⟨k, by simp [List.mem_map] at hk ⊢; exact Or.inr hk, rfl⟩

theorem mem_keys_exprOf (gen : GoMap AttributeValue) (t : String)
    (h : t ∈ (exprOf gen).keys) : ∃ k ∈ gen.keys, t = ":__" ++ k ++ "__" := by
  rcases mem_keys_exprOf_fold gen.entries GoMap.empty t h with h1 | h1
  · simp [GoMap.keys, GoMap.empty] at h1
  · exact h1

theorem match_calls (db : Storage T E) (gen : GoMap AttributeValue) (opts : List MatchOpt) :
    (db.match_ gen opts).calls = [db.matchQuery gen opts] := by
  simp only [Storage.match_]
  split
  · rfl
  · split <;> rfl

theorem matchQuery_of_absent (db : Storage T E) (gen : GoMap AttributeValue)
    (opts : List MatchOpt) (h : gen.lookup db.codec.skSuffix = none) :
    db.matchQuery gen opts =
      db.reqQuery gen (db.codec.pkPrefix ++ " = :__" ++ db.codec.pkPrefix ++ "__") opts := by
  simp [Storage.matchQuery, h]

theorem matchQuery_of_present (db : Storage T E) (gen : GoMap AttributeValue)
    (opts : List MatchOpt) (v : AttributeValue) (h : gen.lookup db.codec.skSuffix = some v)
    (hv : v ≠ .S "_") :
    db.matchQuery gen opts =
      db.reqQuery gen (db.codec.pkPrefix ++ " = :__" ++ db.codec.pkPrefix ++ "__" ++
        " and begins_with(" ++ db.codec.skSuffix ++ ", :__" ++ db.codec.skSuffix ++ "__)")
        opts := by
  have hs : (match some v with
      | some (AttributeValue.S w) =>
        if w = "_" then (gen.delete db.codec.skSuffix, false) else (gen, true)
      | some _ => (gen, true)
      | none => (gen, false)) = (gen, true) := by
    cases v with
    | S w =>
      have hw : w ≠ "_" := fun hw => hv (by rw [hw])
      simp [hw]
    | _ => rfl
  simp only [Storage.matchQuery, h, hs, if_true]

theorem matchQuery_of_sentinel (db : Storage T E) (gen : GoMap AttributeValue)
    (opts : List MatchOpt) (h : gen.lookup db.codec.skSuffix = some (.S "_")) :
    db.matchQuery gen opts = db.matchQuery (gen.delete db.codec.skSuffix) opts := by
  simp [Storage.matchQuery, h, lookup_delete_self]

theorem match_of_sentinel (db : Storage T E) (gen : GoMap AttributeValue)
    (opts : List MatchOpt) (h : gen.lookup db.codec.skSuffix = some (.S "_")) :
    db.match_ gen opts = db.match_ (gen.delete db.codec.skSuffix) opts := by
  simp only [Storage.match_, matchQuery_of_sentinel db gen opts h]

/-- C11: writing `pk` and `sk` for the reserved hash-key and sort-key attribute
names of the codec, the one query request `match` issues for an encoded key
has the key-condition expression `pk = :__pk__` when the key has no sort-key
attribute, and `pk = :__pk__ and begins_with(sk, :__sk__)` when a sort-key
attribute is present and is not the string `_`. -/
theorem match_key_condition (db : Storage T E) (gen : GoMap AttributeValue)
    (opts : List MatchOpt) :
    (gen.lookup db.codec.skSuffix = none →
      ∃ q, (db.match_ gen opts).calls = [q] ∧
        q.KeyConditionExpression =
          some (db.codec.pkPrefix ++ " = :__" ++ db.codec.pkPrefix ++ "__")) ∧
    (∀ v, gen.lookup db.codec.skSuffix = some v → v ≠ .S "_" →
      ∃ q, (db.match_ gen opts).calls = [q] ∧
        q.KeyConditionExpression =
          some (db.codec.pkPrefix ++ " = :__" ++ db.codec.pkPrefix ++ "__ and begins_with("
            ++ db.codec.skSuffix ++ ", :__" ++ db.codec.skSuffix ++ "__)")) := by
  constructor
  · intro h
    refine ⟨_, match_calls db gen opts, ?_⟩
    rw [matchQuery_of_absent db gen opts h]
    rfl
  · intro v h hv
    refine ⟨_, match_calls db gen opts, ?_⟩
    rw [matchQuery_of_present db gen opts v h hv]
    simp only [Storage.reqQuery, Option.some.injEq]
    apply String.ext
    simp [String.data_append]

/-- C12: when the sort-key attribute of the encoded key is the string `_`,
`match` does exactly what it does for the key with that attribute deleted,
which has no sort-key attribute: the same request and the same result. The
request has the hash-only key condition `pk = :__pk__` and its
`ExpressionAttributeValues` has no binding `:__sk__`. -/
theorem match_sentinel_stripped (db : Storage T E) (gen : GoMap AttributeValue)
    (opts : List MatchOpt) (h : gen.lookup db.codec.skSuffix = some (.S "_")) :
    db.match_ gen opts = db.match_ (gen.delete db.codec.skSuffix) opts ∧
    (gen.delete db.codec.skSuffix).lookup db.codec.skSuffix = none ∧
    ∃ q, (db.match_ gen opts).calls = [q] ∧
      q.KeyConditionExpression =
        some (db.codec.pkPrefix ++ " = :__" ++ db.codec.pkPrefix ++ "__") ∧
      q.ExpressionAttributeValues.lookup (":__" ++ db.codec.skSuffix ++ "__") = none := by
  refine ⟨match_of_sentinel db gen opts h, lookup_delete_self gen _, ?_⟩
  rw [match_of_sentinel db gen opts h]
  refine ⟨_, match_calls db _ opts, ?_⟩
  rw [matchQuery_of_absent db _ opts (lookup_delete_self gen _)]
  refine ⟨rfl, ?_⟩
  simp only [Storage.reqQuery]
  cases hl : (exprOf (gen.delete db.codec.skSuffix)).lookup (":__" ++ db.codec.skSuffix ++ "__")
    with
  | none => rfl
  | some v =>
    exfalso
    have hmem := (GoMap.lookup_isSome_iff _ _).mp (by rw [hl]; rfl)
    obtain ⟨k, hk, hk'⟩ := mem_keys_exprOf _ _ hmem
    have := colon_token_inj hk'
    subst this
    exact not_mem_keys_delete gen _ hk

/-- C11 on the mock storage: the key `dead` alone, and the key `dead` / `beef`. -/
theorem match_key_condition_witness :
    (∃ q, ((mockStorage mockDDB mockCodec).match_ ⟨[("prefix", .S "dead")]⟩ []).calls = [q] ∧
      q.KeyConditionExpression = some "prefix = :__prefix__") ∧
    (∃ q, ((mockStorage mockDDB mockCodec).match_
        ⟨[("prefix", .S "dead"), ("suffix", .S "beef")]⟩ []).calls = [q] ∧
      q.KeyConditionExpression =
        some "prefix = :__prefix__ and begins_with(suffix, :__suffix__)") :=
  ⟨(match_key_condition (mockStorage mockDDB mockCodec) ⟨[("prefix", .S "dead")]⟩ []).1 rfl,
   (match_key_condition (mockStorage mockDDB mockCodec)
      ⟨[("prefix", .S "dead"), ("suffix", .S "beef")]⟩ []).2 (.S "beef") rfl (by simp)⟩

/-- C12 on the mock storage: the key `dead` / `_` is queried as the key `dead`. -/
theorem match_sentinel_stripped_witness :
    (mockStorage mockDDB mockCodec).match_ ⟨[("prefix", .S "dead"), ("suffix", .S "_")]⟩ [] =
      (mockStorage mockDDB mockCodec).match_ ⟨[("prefix", .S "dead")]⟩ [] :=
  (match_sentinel_stripped (mockStorage mockDDB mockCodec)
    ⟨[("prefix", .S "dead"), ("suffix", .S "_")]⟩ [] rfl).1

/-! ## Match: the options of the query -/

theorem reqQuery_fold_limit (db : Storage T E) (post : List MatchOpt)
    (h : ∀ o ∈ post, ∀ m, o ≠ MatchOpt.limit m) :
    ∀ st, (post.foldl db.reqQueryStep st).1 = st.1 := by
  induction post with
  | nil => intro st; rfl
  | cons o post ih =>
    intro st
    simp only [List.foldl_cons]
    rw [ih (fun o' ho' => h o' (List.mem_cons_of_mem _ ho'))]
    cases o with
    | limit m => exact absurd rfl (h _ (List.mem_cons_self _ _) m)
    | cursor a b =>
      simp only [Storage.reqQueryStep]
      split <;> rfl
    | other => rfl

theorem reqQuery_fold_startKey (db : Storage T E) (post : List MatchOpt)
    (h : ∀ o ∈ post, ∀ a b, o = MatchOpt.cursor a b → a = "") :
    ∀ st, (post.foldl db.reqQueryStep st).2 = st.2 := by
  induction post with
  | nil => intro st; rfl
  | cons o post ih =>
    intro st
    simp only [List.foldl_cons]
    rw [ih (fun o' ho' => h o' (List.mem_cons_of_mem _ ho'))]
    cases o with
    | limit m => rfl
    | cursor a b =>
      have ha : a = "" := h _ (List.mem_cons_self _ _) a b rfl
      simp [Storage.reqQueryStep, ha]
    | other => rfl

/-- C13: the options of `reqQuery`. Without a `Limit` option the limit is
absent, otherwise it is the value of the last `Limit` option. The last cursor
entity with a non-empty hash key `h` sets `ExclusiveStartKey` to the map built
by `key[pk] = S(h); key[sk] = S(s)` when its sort key `s` is not empty and by
`key[pk] = S(h); key[sk] = S("_")` when it is, which for `pk ≠ sk` is the map
`{pk ↦ S(h), sk ↦ S(s)}`; cursor entities with an empty hash key set nothing,
so with none but those, or with no cursor at all, the start key is absent. -/
theorem reqQuery_options (db : Storage T E) (gen : GoMap AttributeValue) (expr : String) :
    (∀ opts : List MatchOpt, (∀ o ∈ opts, ∀ m, o ≠ MatchOpt.limit m) →
      (db.reqQuery gen expr opts).Limit = none) ∧
    (∀ (pre post : List MatchOpt) (n : Int), (∀ o ∈ post, ∀ m, o ≠ MatchOpt.limit m) →
      (db.reqQuery gen expr (pre ++ MatchOpt.limit n :: post)).Limit = some n) ∧
    (∀ (pre post : List MatchOpt) (h s : String), h ≠ "" → s ≠ "" →
      (∀ o ∈ post, ∀ a b, o = MatchOpt.cursor a b → a = "") →
      (db.reqQuery gen expr (pre ++ MatchOpt.cursor h s :: post)).ExclusiveStartKey =
        some ((GoMap.empty.store db.codec.pkPrefix (.S h)).store db.codec.skSuffix (.S s))) ∧
    (∀ (pre post : List MatchOpt) (h : String), h ≠ "" →
      (∀ o ∈ post, ∀ a b, o = MatchOpt.cursor a b → a = "") →
      (db.reqQuery gen expr (pre ++ MatchOpt.cursor h "" :: post)).ExclusiveStartKey =
        some ((GoMap.empty.store db.codec.pkPrefix (.S h)).store db.codec.skSuffix (.S "_"))) ∧
    (db.codec.pkPrefix ≠ db.codec.skSuffix → ∀ h s : String,
      (GoMap.empty.store db.codec.pkPrefix (AttributeValue.S h)).store db.codec.skSuffix
          (AttributeValue.S s) =
        ⟨[(db.codec.pkPrefix, .S h), (db.codec.skSuffix, .S s)]⟩) ∧
    (∀ opts : List MatchOpt, (∀ o ∈ opts, ∀ a b, o = MatchOpt.cursor a b → a = "") →
      (db.reqQuery gen expr opts).ExclusiveStartKey = none) := by
  refine ⟨fun opts h => ?_, fun pre post n h => ?_, fun pre post h s hh hs hpost => ?_,
    fun pre post h hh hpost => ?_, fun hne h s => ?_, fun opts h => ?_⟩
  · simp only [Storage.reqQuery]
    rw [reqQuery_fold_limit db opts h]
  · simp only [Storage.reqQuery, List.foldl_append, List.foldl_cons]
    rw [reqQuery_fold_limit db post h]
    rfl
  · simp only [Storage.reqQuery, List.foldl_append, List.foldl_cons]
    rw [reqQuery_fold_startKey db post hpost]
    simp [Storage.reqQueryStep, hh, hs]
  · simp only [Storage.reqQuery, List.foldl_append, List.foldl_cons]
    rw [reqQuery_fold_startKey db post hpost]
    simp [Storage.reqQueryStep, hh]
  · simp [GoMap.store, GoMap.storeEntries, GoMap.empty, hne]
  · simp only [Storage.reqQuery]
    rw [reqQuery_fold_startKey db opts h]

/-- C13 on the mock storage: two limits and a cursor `dead` without sort key,
followed by a cursor with an empty hash key. -/
theorem reqQuery_options_witness :
    ((mockStorage mockDDB mockCodec).reqQuery GoMap.empty "e"
        ([MatchOpt.limit 5] ++ MatchOpt.limit 10 :: [MatchOpt.cursor "dead" "",
          MatchOpt.cursor "" "x"])).Limit = some 10 ∧
    ((mockStorage mockDDB mockCodec).reqQuery GoMap.empty "e"
        ([MatchOpt.limit 5, MatchOpt.limit 10] ++ MatchOpt.cursor "dead" "" ::
          [MatchOpt.cursor "" "x"])).ExclusiveStartKey =
      some ⟨[("prefix", .S "dead"), ("suffix", .S "_")]⟩ :=
  ⟨(reqQuery_options (mockStorage mockDDB mockCodec) GoMap.empty "e").2.1 [MatchOpt.limit 5]
      [MatchOpt.cursor "dead" "", MatchOpt.cursor "" "x"] 10 (by simp),
   (reqQuery_options (mockStorage mockDDB mockCodec) GoMap.empty "e").2.2.2.1
      [MatchOpt.limit 5, MatchOpt.limit 10] [MatchOpt.cursor "" "x"] "dead" (by decide)
      (by simp)⟩

/-! ## Match: decoding the items -/

theorem decode_eq_of_ok (db : Storage T E) (item : GoMap AttributeValue)
    (h : (db.codec.Decode item).2 = none) :
    db.codec.Decode item = ((db.codec.Decode item).1, none) := by
  rw [← h]

/-- The loop of `match` when every item decodes and the indices stay in range:
the slots visited hold the decoded items, in order. -/
theorem matchLoop_ok (db : Storage T E) (items : List (GoMap AttributeValue))
    (hdec : ∀ item ∈ items, (db.codec.Decode item).2 = none) :
    ∀ (n i : Nat) (seq : List T), i + n ≤ items.length → seq.length = i + n →
      db.matchLoop items n i seq =
        some (some (seq.take i ++ ((items.drop i).take n).map fun it => (db.codec.Decode it).1),
          none) := by
  intro n
  induction n with
  | zero =>
    intro i seq _ hlen
    simp only [Nat.add_zero] at hlen
    subst hlen
    simp [Storage.matchLoop]
  | succ n ih =>
    intro i seq hi hlen
    have hlt : i < items.length := by omega
    have hget : items[i]? = some items[i] := List.getElem?_eq_getElem hlt
    have hd := decode_eq_of_ok db items[i] (hdec _ (List.getElem_mem hlt))
    simp only [Storage.matchLoop, hget]
    rw [hd]
    simp only []
    have hdrop : items.drop i = items[i] :: items.drop (i + 1) := List.drop_eq_getElem_cons hlt
    have htake : (items.drop i).take (n + 1) = items[i] :: (items.drop (i + 1)).take n := by
      rw [hdrop, List.take_succ_cons]
    rw [ih (i + 1) _ (by omega) (by simp; omega), take_succ_set seq _ i (by omega), htake,
      List.map_cons, List.append_assoc]
    rfl

/-- The loop of `match` when the item at some index it is due to visit fails
to decode: whatever was decoded before, the outcome is `nil, InvalidEntity`. -/
theorem matchLoop_fails (db : Storage T E) (items : List (GoMap AttributeValue))
    (j : Nat) (item : GoMap AttributeValue) (hj : items[j]? = some item)
    (hbad : (db.codec.Decode item).2 ≠ none) :
    ∀ (n i : Nat) (seq : List T), i ≤ j → j < i + n →
      ∃ err, db.matchLoop items n i seq = some (none, some (.InvalidEntity err)) := by
  intro n
  induction n with
  | zero => intro i seq h1 h2; omega
  | succ n ih =>
    intro i seq h1 h2
    have hjlt : j < items.length := by
      rcases Nat.lt_or_ge j items.length with h | h
      · exact h
      · rw [List.getElem?_eq_none h] at hj
        cases hj
    have hlt : i < items.length := by omega
    have hget : items[i]? = some items[i] := List.getElem?_eq_getElem hlt
    simp only [Storage.matchLoop, hget]
    cases hd : db.codec.Decode items[i] with
    | mk obj e =>
      cases e with
      | some err => exact ⟨err, rfl⟩
      | none =>
        have hne : i ≠ j := by
          rintro rfl
          rw [hget] at hj
          cases hj
          rw [hd] at hbad
          exact hbad rfl
        exact ih (i + 1) _ (by omega) (by omega)

/-- Whatever the loop of `match` returns is either a sequence without an error
or an error without a sequence. -/
theorem matchLoop_shape (db : Storage T E) (items : List (GoMap AttributeValue)) :
    ∀ (n i : Nat) (seq : List T) (r : Option (List T) × Option (Failure E T)),
      db.matchLoop items n i seq = some r →
      (r.1.isSome ∧ r.2 = none) ∨ (r.1 = none ∧ r.2.isSome) := by
  intro n
  induction n with
  | zero =>
    intro i seq r h
    simp only [Storage.matchLoop, Option.some.injEq] at h
    subst h
    exact Or.inl ⟨rfl, rfl⟩
  | succ n ih =>
    intro i seq r h
    simp only [Storage.matchLoop] at h
    split at h
    · cases h
    · split at h
      · simp only [Option.some.injEq] at h
        subst h
        exact Or.inr ⟨rfl, rfl⟩
      · exact ih _ _ r h

theorem match_result_of_ok (db : Storage T E) (gen : GoMap AttributeValue)
    (opts : List MatchOpt) (q : QueryInput) (val : QueryOutput)
    (hq : (db.match_ gen opts).calls = [q]) (hval : db.service.Query q = .ok val) :
    (db.match_ gen opts).result =
      if val.Count < 0 then none
      else db.matchLoop val.Items val.Count.toNat 0
        (List.replicate val.Count.toNat db.undefined) := by
  rw [match_calls] at hq
  simp only [List.cons.injEq, and_true] at hq
  subst hq
  simp only [Storage.match_, hval]
  split <;> rfl

theorem match_result_of_error (db : Storage T E) (gen : GoMap AttributeValue)
    (opts : List MatchOpt) (q : QueryInput) (err : E)
    (hq : (db.match_ gen opts).calls = [q]) (herr : db.service.Query q = .error err) :
    (db.match_ gen opts).result = some (none, some (.ServiceIOError err)) := by
  rw [match_calls] at hq
  simp only [List.cons.injEq, and_true] at hq
  subst hq
  simp only [Storage.match_, herr]

theorem Match_of_encoded (db : Storage T E) (key : T) (opts : List MatchOpt)
    (gen : GoMap AttributeValue) (h : db.codec.EncodeKey key = (gen, none)) :
    db.Match key opts = db.match_ gen opts := by
  simp [Storage.Match, h]

/-- C14: if the key encodes, the backend answers the query with `Count = n`
and `n` items, and every item decodes, then `Match` returns no error and the
`n` decoded items: the `i`-th entity is the decoding of the `i`-th item, in
the backend's order, nothing added, dropped or reordered. -/
theorem Match_returns_decoded_items (db : Storage T E) (key : T) (opts : List MatchOpt)
    (gen : GoMap AttributeValue) (q : QueryInput) (val : QueryOutput) (n : Nat)
    (hkey : db.codec.EncodeKey key = (gen, none))
    (hq : (db.Match key opts).calls = [q]) (hval : db.service.Query q = .ok val)
    (hcount : val.Count = n) (hitems : val.Items.length = n)
    (hdec : ∀ item ∈ val.Items, (db.codec.Decode item).2 = none) :
    (db.Match key opts).result =
      some (some (val.Items.map fun item => (db.codec.Decode item).1), none) ∧
    (val.Items.map fun item => (db.codec.Decode item).1).length = n ∧
    ∀ i (hi : i < val.Items.length),
      (val.Items.map fun item => (db.codec.Decode item).1)[i]? =
        some (db.codec.Decode (val.Items.get ⟨i, hi⟩)).1 := by
  rw [Match_of_encoded db key opts gen hkey] at hq ⊢
  refine ⟨?_, by simp [hitems], fun i hi => by simp [List.getElem?_eq_getElem hi]⟩
  rw [match_result_of_ok db gen opts q val hq hval, hcount]
  simp only [Int.natCast_nonneg, not_lt.mpr, if_false, Int.toNat_ofNat]
  rw [matchLoop_ok db val.Items hdec n 0 _ (by omega) (by simp)]
  simp [← hitems]

/-- C14 on the mock storage: the two items of the mock come back decoded. -/
theorem Match_returns_decoded_items_witness :
    ((mockStorage mockDDB mockCodec).Match ⟨[("prefix", .S "dead")]⟩ []).result =
      some (some [mockItem, mockItem], none) :=
  (Match_returns_decoded_items (mockStorage mockDDB mockCodec) ⟨[("prefix", .S "dead")]⟩ []
    ⟨[("prefix", .S "dead")]⟩
    ((mockStorage mockDDB mockCodec).reqQuery ⟨[("prefix", .S "dead")]⟩
      "prefix = :__prefix__" [])
    ⟨2, [mockItem, mockItem]⟩ 2 rfl rfl rfl rfl rfl (fun _ _ => rfl)).1

/-- C15: `Match` classifies each failure into one kind and returns no data
with it. If encoding the key fails it returns `InvalidKey` and issues no
query; if the query fails it returns `ServiceIO`; if one of the items the
loop is due to visit fails to decode it returns `InvalidEntity`, also when
earlier items decoded; and whenever `Match` returns an error the sequence it
returns is nil. -/
theorem Match_failures (db : Storage T E) (key : T) (opts : List MatchOpt) :
    (∀ g err, db.codec.EncodeKey key = (g, some err) →
      db.Match key opts = ⟨[], some (none, some (.InvalidKey err))⟩) ∧
    (∀ gen q err, db.codec.EncodeKey key = (gen, none) → (db.Match key opts).calls = [q] →
      db.service.Query q = .error err →
      (db.Match key opts).result = some (none, some (.ServiceIOError err))) ∧
    (∀ gen q val (j : Nat) item, db.codec.EncodeKey key = (gen, none) →
      (db.Match key opts).calls = [q] → db.service.Query q = .ok val →
      (j : Int) < val.Count → val.Items[j]? = some item → (db.codec.Decode item).2 ≠ none →
      ∃ err, (db.Match key opts).result = some (none, some (.InvalidEntity err))) ∧
    (∀ r, (db.Match key opts).result = some r → r.2 ≠ none → r.1 = none) := by
  refine ⟨fun g err h => ?_, fun gen q err hkey hq herr => ?_,
    fun gen q val j item hkey hq hval hj hitem hbad => ?_, fun r hr herr => ?_⟩
  · simp [Storage.Match, h]
  · rw [Match_of_encoded db key opts gen hkey] at hq ⊢
    exact match_result_of_error db gen opts q err hq herr
  · rw [Match_of_encoded db key opts gen hkey] at hq ⊢
    rw [match_result_of_ok db gen opts q val hq hval]
    have hpos : ¬ val.Count < 0 := by omega
    simp only [hpos, if_false]
    exact matchLoop_fails db val.Items j item hitem hbad _ 0 _ (Nat.zero_le j) (by omega)
  · cases hk : db.codec.EncodeKey key with
    | mk gen e =>
      cases e with
      | some err =>
        simp only [Storage.Match, hk, Option.some.injEq] at hr
        subst hr
        rfl
      | none =>
        rw [Match_of_encoded db key opts gen hk] at hr
        simp only [Storage.match_] at hr
        split at hr
        · simp only [Option.some.injEq] at hr
          subst hr
          rfl
        · split at hr
          · cases hr
          · rcases matchLoop_shape db _ _ _ _ r hr with ⟨_, h2⟩ | ⟨h1, _⟩
            · exact absurd h2 herr
            · exact h1

/-- C15 on the mock storage: a codec that fails, a backend that fails, and a
codec that cannot decode what the backend returns. -/
theorem Match_failures_witness :
    (mockStorage mockDDB mockBadCodec).Match ⟨[("prefix", .S "dead")]⟩ [] =
      ⟨[], some (none, some (.InvalidKey "bad key"))⟩ ∧
    ((mockStorage (mockFailing "timeout") mockCodec).Match ⟨[("prefix", .S "dead")]⟩ []).result =
      some (none, some (.ServiceIOError "timeout")) ∧
    ∃ err, ((mockStorage mockDDB { mockBadCodec with EncodeKey := mockCodec.EncodeKey }).Match
        ⟨[("prefix", .S "dead")]⟩ []).result = some (none, some (.InvalidEntity err)) :=
  ⟨(Match_failures (mockStorage mockDDB mockBadCodec) ⟨[("prefix", .S "dead")]⟩ []).1
      GoMap.empty "bad key" rfl,
   (Match_failures (mockStorage (mockFailing "timeout") mockCodec) ⟨[("prefix", .S "dead")]⟩
      []).2.1 ⟨[("prefix", .S "dead")]⟩
      ((mockStorage (mockFailing "timeout") mockCodec).reqQuery ⟨[("prefix", .S "dead")]⟩
        "prefix = :__prefix__" []) "timeout" rfl rfl rfl,
   (Match_failures (mockStorage mockDDB { mockBadCodec with EncodeKey := mockCodec.EncodeKey })
      ⟨[("prefix", .S "dead")]⟩ []).2.2.1 ⟨[("prefix", .S "dead")]⟩
      ((mockStorage mockDDB { mockBadCodec with EncodeKey := mockCodec.EncodeKey }).reqQuery
        ⟨[("prefix", .S "dead")]⟩ "prefix = :__prefix__" [])
      ⟨2, [mockItem, mockItem]⟩ 1 mockItem rfl rfl rfl (by decide) rfl
      (by show (some "bad item" : Option String) ≠ none; simp)⟩

end MatchRequest

/-! ## Update: the request -/

section UpdateRequest

variable {T E A : Type}

theorem applyToRequest_of_tables (marshal : A → Option AttributeValue) (req : UpdateItemInput)
    (opt : Constraint A) (names : GoMap String) (values : GoMap AttributeValue)
    (hn : req.ExpressionAttributeNames = some names)
    (hv : req.ExpressionAttributeValues = some values) :
    applyToRequest marshal req opt =
      some { req with
        ConditionExpression :=
          (opt.Apply marshal ⟨req.ConditionExpression, names, values⟩).conditionExpression
        ExpressionAttributeNames :=
          some (opt.Apply marshal ⟨req.ConditionExpression, names, values⟩).expressionAttributeNames
        ExpressionAttributeValues :=
          some (opt.Apply marshal
            ⟨req.ConditionExpression, names, values⟩).expressionAttributeValues } := by
  simp [applyToRequest, hn, hv]

/-- With both tables present the conditions never panic: the request leaves
with the expression and the tables that `maybeUpdateConditionExpression`
computes, and its other fields as they were. -/
theorem conditionRequest_of_tables (marshal : A → Option AttributeValue)
    (opts : List (Constraint A)) :
    ∀ (req : UpdateItemInput) (names : GoMap String) (values : GoMap AttributeValue),
      req.ExpressionAttributeNames = some names → req.ExpressionAttributeValues = some values →
      conditionRequest marshal req opts =
        some { req with
          ConditionExpression :=
            (maybeUpdateConditionExpression marshal ⟨req.ConditionExpression, names, values⟩
              opts).conditionExpression
          ExpressionAttributeNames :=
            some (maybeUpdateConditionExpression marshal ⟨req.ConditionExpression, names, values⟩
              opts).expressionAttributeNames
          ExpressionAttributeValues :=
            some (maybeUpdateConditionExpression marshal ⟨req.ConditionExpression, names, values⟩
              opts).expressionAttributeValues } := by
  induction opts with
  | nil =>
    intro req names values hn hv
    simp only [conditionRequest, List.foldlM_nil, maybeUpdateConditionExpression, List.foldl_nil]
    cases req
    simp_all
  | cons opt opts ih =>
    intro req names values hn hv
    simp only [conditionRequest, List.foldlM_cons,
      applyToRequest_of_tables marshal req opt names values hn hv, Option.bind_eq_bind,
      Option.some_bind]
    have h := ih { req with
        ConditionExpression :=
          (opt.Apply marshal ⟨req.ConditionExpression, names, values⟩).conditionExpression
        ExpressionAttributeNames :=
          some (opt.Apply marshal ⟨req.ConditionExpression, names, values⟩).expressionAttributeNames
        ExpressionAttributeValues :=
          some (opt.Apply marshal
            ⟨req.ConditionExpression, names, values⟩).expressionAttributeValues } _ _ rfl rfl
    simp only [conditionRequest] at h
    rw [h]
    simp [maybeUpdateConditionExpression]

/-- The conditions leave the key, the update expression, the table name and
`ReturnValues` of a request as they were. -/
theorem conditionRequest_frame (marshal : A → Option AttributeValue)
    (opts : List (Constraint A)) :
    ∀ (req req' : UpdateItemInput), conditionRequest marshal req opts = some req' →
      req'.Key = req.Key ∧ req'.UpdateExpression = req.UpdateExpression ∧
      req'.TableName = req.TableName ∧ req'.ReturnValues = req.ReturnValues := by
  induction opts with
  | nil =>
    intro req req' h
    simp only [conditionRequest, List.foldlM_nil] at h
    cases h
    exact ⟨rfl, rfl, rfl, rfl⟩
  | cons opt opts ih =>
    intro req req' h
    simp only [conditionRequest, List.foldlM_cons, Option.bind_eq_bind] at h
    cases h1 : applyToRequest marshal req opt with
    | none => rw [h1] at h; cases h
    | some r1 =>
      rw [h1] at h
      simp only [Option.some_bind] at h
      obtain ⟨a, b, c, d⟩ := ih r1 req' h
      simp only [applyToRequest] at h1
      split at h1
      · cases h1
      · cases h1
        exact ⟨a, b, c, d⟩

theorem updateItem_calls (recover : E → Bool) (db : Storage T E) (req : UpdateItemInput)
    (entity : T) : (db.updateItem recover req entity).calls = [req] := by
  simp only [Storage.updateItem]
  split
  · split
    · split <;> rfl
    · rfl
  · split <;> rfl

/-- `Update` on an entity that encodes: the request is built, the conditions
are applied (the tables are present, so without panic), and the request goes
to the backend. -/
theorem Update_of_encoded (recover : E → Bool) (marshal : A → Option AttributeValue)
    (db : Storage T E) (entity : T) (config : List (Constraint A)) (gen : GoMap AttributeValue)
    (h : db.codec.Encode entity = (gen, none)) :
    ∃ req, conditionRequest marshal (db.updateRequest gen) config = some req ∧
      db.Update recover marshal entity config = db.updateItem recover req entity := by
  have hc := conditionRequest_of_tables marshal config (db.updateRequest gen) _ _ rfl rfl
  refine ⟨_, hc, ?_⟩
  simp only [Storage.Update, h, hc]

theorem Update_of_calls (recover : E → Bool) (marshal : A → Option AttributeValue)
    (db : Storage T E) (entity : T) (config : List (Constraint A)) (req : UpdateItemInput)
    (h : (db.Update recover marshal entity config).calls = [req]) :
    db.Update recover marshal entity config = db.updateItem recover req entity ∧
    ∃ gen, db.codec.Encode entity = (gen, none) ∧
      conditionRequest marshal (db.updateRequest gen) config = some req := by
  cases he : db.codec.Encode entity with
  | mk gen e =>
    cases e with
    | some err => simp [Storage.Update, he] at h
    | none =>
      obtain ⟨req', h1, h2⟩ := Update_of_encoded recover marshal db entity config gen he
      rw [h2, updateItem_calls] at h
      simp only [List.cons.injEq, and_true] at h
      subst h
      exact ⟨h2, gen, rfl, h1⟩

theorem UpdateWith_of_calls (recover : E → Bool) (marshal : A → Option AttributeValue)
    (db : Storage T E) (expr : Expr T) (opts : List (Constraint A)) (req : UpdateItemInput)
    (h : (db.UpdateWith recover marshal expr opts).calls = [req]) :
    db.UpdateWith recover marshal expr opts = db.updateItem recover req expr.entity ∧
    ∃ gen, db.codec.Encode expr.entity = (gen, none) ∧
      conditionRequest marshal
        { expr.update with
          Key := some (db.codec.KeyOnly gen)
          TableName := db.table
          ReturnValues := "ALL_NEW" } opts = some req := by
  cases he : db.codec.Encode expr.entity with
  | mk gen e =>
    cases e with
    | some err => simp [Storage.UpdateWith, he] at h
    | none =>
      simp only [Storage.UpdateWith, he] at h ⊢
      split at h
      · simp at h
      · rename_i req' hreq
        rw [updateItem_calls] at h
        simp only [List.cons.injEq, and_true] at h
        subst h
        exact ⟨rfl, gen, rfl, hreq⟩

/-- The loop of `Update` over a map: one alias, one binding and one clause for
every attribute that passes the guard, in the order of the entries. -/
theorem updateStep_fold (db : Storage T E) (es : List (String × AttributeValue)) :
    ∀ done : List (String × AttributeValue), ((done ++ es).map Prod.fst).Nodup →
      es.foldl db.updateStep
        (⟨(done.filter fun e => db.isPatched e.1).map fun e => ("#__" ++ e.1 ++ "__", e.1)⟩,
         ⟨(done.filter fun e => db.isPatched e.1).map fun e => (":__" ++ e.1 ++ "__", e.2)⟩,
         (done.filter fun e => db.isPatched e.1).map fun e =>
           "#__" ++ e.1 ++ "__=" ++ ":__" ++ e.1 ++ "__") =
        (⟨((done ++ es).filter fun e => db.isPatched e.1).map fun e =>
            ("#__" ++ e.1 ++ "__", e.1)⟩,
         ⟨((done ++ es).filter fun e => db.isPatched e.1).map fun e =>
            (":__" ++ e.1 ++ "__", e.2)⟩,
         ((done ++ es).filter fun e => db.isPatched e.1).map fun e =>
           "#__" ++ e.1 ++ "__=" ++ ":__" ++ e.1 ++ "__") := by
  induction es with
  | nil => intro done _; simp
  | cons e es ih =>
    intro done hnd
    have hnd' : (((done ++ [e]) ++ es).map Prod.fst).Nodup := by simpa using hnd
    have hfresh : e.1 ∉ done.map Prod.fst := by
      intro hmem
      simp only [List.map_append, List.map_cons] at hnd
      rw [List.nodup_append] at hnd
      exact hnd.2.2 hmem (List.mem_cons_self _ _)
    have hstep : db.updateStep
        (⟨(done.filter fun e => db.isPatched e.1).map fun e => ("#__" ++ e.1 ++ "__", e.1)⟩,
         ⟨(done.filter fun e => db.isPatched e.1).map fun e => (":__" ++ e.1 ++ "__", e.2)⟩,
         (done.filter fun e => db.isPatched e.1).map fun e =>
           "#__" ++ e.1 ++ "__=" ++ ":__" ++ e.1 ++ "__") e =
        (⟨((done ++ [e]).filter fun e => db.isPatched e.1).map fun e =>
            ("#__" ++ e.1 ++ "__", e.1)⟩,
         ⟨((done ++ [e]).filter fun e => db.isPatched e.1).map fun e =>
            (":__" ++ e.1 ++ "__", e.2)⟩,
         ((done ++ [e]).filter fun e => db.isPatched e.1).map fun e =>
           "#__" ++ e.1 ++ "__=" ++ ":__" ++ e.1 ++ "__") := by
      by_cases hp : e.1 ≠ db.codec.pkPrefix ∧ e.1 ≠ db.codec.skSuffix ∧ e.1 ≠ "id"
      · have hpe : db.isPatched e.1 = true := by simp [Storage.isPatched, hp]
        have hn : ("#__" ++ e.1 ++ "__") ∉
            (⟨(done.filter fun e => db.isPatched e.1).map fun e =>
              ("#__" ++ e.1 ++ "__", e.1)⟩ : GoMap String).keys := by
          simp only [GoMap.keys, List.map_map, List.mem_map, List.mem_filter, Function.comp,
            not_exists, not_and, and_imp]
          intro d hd _ heq
          exact hfresh (List.mem_map.mpr ⟨d, hd, hash_token_inj heq⟩)
        have hv : (":__" ++ e.1 ++ "__") ∉
            (⟨(done.filter fun e => db.isPatched e.1).map fun e =>
              (":__" ++ e.1 ++ "__", e.2)⟩ : GoMap AttributeValue).keys := by
          simp only [GoMap.keys, List.map_map, List.mem_map, List.mem_filter, Function.comp,
            not_exists, not_and, and_imp]
          intro d hd _ heq
          exact hfresh (List.mem_map.mpr ⟨d, hd, colon_token_inj heq⟩)
        simp only [Storage.updateStep, if_pos hp, GoMap.store_of_not_mem _ _ _ hn,
          GoMap.store_of_not_mem _ _ _ hv, List.filter_append, List.map_append]
        simp [List.filter_cons, hpe]
      · have hpe : db.isPatched e.1 = false := by simp [Storage.isPatched, hp]
        simp only [Storage.updateStep, if_neg hp, List.filter_append]
        simp [List.filter_cons, hpe]
    simp only [List.foldl_cons]
    rw [hstep, ih (done ++ [e]) hnd']
    simp

theorem updateRequest_eq (db : Storage T E) (gen : GoMap AttributeValue)
    (hnd : gen.keys.Nodup) :
    db.updateRequest gen =
      { Key := some (db.codec.KeyOnly gen)
        ExpressionAttributeNames :=
          some ⟨(gen.entries.filter fun e => db.isPatched e.1).map fun e =>
            ("#__" ++ e.1 ++ "__", e.1)⟩
        ExpressionAttributeValues :=
          some ⟨(gen.entries.filter fun e => db.isPatched e.1).map fun e =>
            (":__" ++ e.1 ++ "__", e.2)⟩
        UpdateExpression :=
          some ("SET " ++ ",".intercalate
            ((gen.entries.filter fun e => db.isPatched e.1).map fun e =>
              "#__" ++ e.1 ++ "__=:__" ++ e.1 ++ "__"))
        ConditionExpression := none
        TableName := db.table
        ReturnValues := "ALL_NEW" } := by
  have h := updateStep_fold db gen.entries [] (by simpa [GoMap.keys] using hnd)
  simp only [List.filter_nil, List.map_nil, List.nil_append] at h
  have hclause : (fun e : String × AttributeValue => "#__" ++ e.1 ++ "__=" ++ ":__" ++ e.1 ++ "__") =
      fun e => "#__" ++ e.1 ++ "__=:__" ++ e.1 ++ "__" := by
    funext e
    apply String.ext
    simp [String.data_append]
  simp only [Storage.updateRequest, GoMap.empty, h, hclause]

/-- C16, as the code has it: for an entity that encodes to the map `gen`,
`Update` builds the update expression `SET ` followed by the `,`-joined list
holding one clause `#__k__=:__k__` for every attribute `k` of `gen` other than
the hash-key attribute, the sort-key attribute and the attribute named `id`,
in the order `gen` is visited, and no other clause; without conditions the
name table of the request maps `#__k__` to `k` and the value table maps
`:__k__` to the encoded value of `k`, for these attributes and no other. -/
theorem Update_set_clauses (recover : E → Bool) (marshal : A → Option AttributeValue)
    (db : Storage T E) (entity : T) (config : List (Constraint A)) (gen : GoMap AttributeValue)
    (henc : db.codec.Encode entity = (gen, none)) (hnd : gen.keys.Nodup) :
    (∃ req, (db.Update recover marshal entity config).calls = [req] ∧
      req.UpdateExpression =
        some ("SET " ++ ",".intercalate
          ((gen.entries.filter fun e => db.isPatched e.1).map fun e =>
            "#__" ++ e.1 ++ "__=:__" ++ e.1 ++ "__"))) ∧
    (∃ req, (db.Update recover marshal entity ([] : List (Constraint A))).calls = [req] ∧
      req.ExpressionAttributeNames =
        some ⟨(gen.entries.filter fun e => db.isPatched e.1).map fun e =>
          ("#__" ++ e.1 ++ "__", e.1)⟩ ∧
      req.ExpressionAttributeValues =
        some ⟨(gen.entries.filter fun e => db.isPatched e.1).map fun e =>
          (":__" ++ e.1 ++ "__", e.2)⟩) ∧
    (∀ k, db.isPatched k = true ↔
      k ≠ db.codec.pkPrefix ∧ k ≠ db.codec.skSuffix ∧ k ≠ "id") := by
  refine ⟨?_, ?_, fun k => by simp [Storage.isPatched]⟩
  · obtain ⟨req, h1, h2⟩ := Update_of_encoded recover marshal db entity config gen henc
    refine ⟨req, by rw [h2, updateItem_calls], ?_⟩
    rw [(conditionRequest_frame marshal config _ req h1).2.1, updateRequest_eq db gen hnd]
  · obtain ⟨req, h1, h2⟩ :=
      Update_of_encoded recover marshal db entity ([] : List (Constraint A)) gen henc
    refine ⟨req, by rw [h2, updateItem_calls], ?_⟩
    simp only [conditionRequest, List.foldlM_nil] at h1
    cases h1
    rw [updateRequest_eq db gen hnd]
    exact ⟨rfl, rfl⟩

/-- C16 on the mock storage: the entity of the tests is patched on `address`,
`name` and `age`. -/
theorem Update_set_clauses_witness :
    ∃ req, ((mockStorage mockDDB mockCodec).Update (fun _ => false)
        (fun s : String => some (.S s)) mockItem []).calls = [req] ∧
      req.UpdateExpression =
        some "SET #__address__=:__address__,#__name__=:__name__,#__age__=:__age__" :=
  (Update_set_clauses (fun _ => false) (fun s : String => some (.S s))
    (mockStorage mockDDB mockCodec) mockItem [] mockItem rfl (by decide)).1

/-- C16 as stated fails: an encoded attribute named `id` is neither the
hash-key nor the sort-key attribute, yet `Update` gives it no clause, no alias
and no binding. -/
theorem Update_skips_id :
    (((mockStorage mockDDB mockCodec).Update (fun _ => false) (fun s : String => some (.S s))
        ⟨[("prefix", .S "dead"), ("suffix", .S "beef"), ("id", .S "7"), ("name", .S "Joe")]⟩
        []).calls.map fun req =>
          (req.UpdateExpression, req.ExpressionAttributeNames,
            req.ExpressionAttributeValues.map GoMap.keys)) =
      [(some "SET #__name__=:__name__", some ⟨[("#__name__", "name")]⟩,
        some [":__name__"])] := by
  decide

/-! ## Update: the answer of the backend -/

/-- How the last statements of `Update` and `UpdateWith` turn the answer of the
backend into the result. -/
theorem updateItem_outcomes (recover : E → Bool) (db : Storage T E) (req : UpdateItemInput)
    (entity : T) :
    (∀ err ce, db.service.UpdateItem req = .error err → recover err = true →
      req.ConditionExpression = some ce →
      (db.updateItem recover req entity).result =
        some (db.undefined, some (.PreConditionFailed err entity
          (Contains ce "attribute_not_exists" || Contains ce "=")
          (Contains ce "attribute_exists" || Contains ce "<>")))) ∧
    (∀ err, db.service.UpdateItem req = .error err → recover err = false →
      (db.updateItem recover req entity).result = some (db.undefined, some (.ServiceIOError err))) ∧
    (∀ val obj, db.service.UpdateItem req = .ok val →
      db.codec.Decode val.Attributes = (obj, none) →
      (db.updateItem recover req entity).result = some (obj, none)) ∧
    (∀ val obj err, db.service.UpdateItem req = .ok val →
      db.codec.Decode val.Attributes = (obj, some err) →
      (db.updateItem recover req entity).result =
        some (db.undefined, some (.InvalidEntity err))) := by
  refine ⟨fun err ce h1 h2 h3 => ?_, fun err h1 h2 => ?_, fun val obj h1 h2 => ?_,
    fun val obj err h1 h2 => ?_⟩
  · simp [Storage.updateItem, h1, h2, h3]
  · simp [Storage.updateItem, h1, h2]
  · simp [Storage.updateItem, h1, h2]
  · simp [Storage.updateItem, h1, h2]

/-- C17, as the code has it: in `Update` and `UpdateWith`, when the backend
rejects a request that carries a condition expression and the error is a
conditional-check failure, the operation returns `PreConditionFailed`, this
being tested before any other classification; every other backend error
returns `ServiceIO`; and when the backend accepts the request the operation
returns no error provided the returned attributes decode. -/
theorem update_classifies_backend_answer (recover : E → Bool)
    (marshal : A → Option AttributeValue) (db : Storage T E) (entity : T)
    (config : List (Constraint A)) (expr : Expr T) (opts : List (Constraint A)) :
    (∀ req, (db.Update recover marshal entity config).calls = [req] →
      (∀ err ce, db.service.UpdateItem req = .error err → recover err = true →
        req.ConditionExpression = some ce →
        (db.Update recover marshal entity config).result =
          some (db.undefined, some (.PreConditionFailed err entity
            (Contains ce "attribute_not_exists" || Contains ce "=")
            (Contains ce "attribute_exists" || Contains ce "<>")))) ∧
      (∀ err, db.service.UpdateItem req = .error err → recover err = false →
        (db.Update recover marshal entity config).result =
          some (db.undefined, some (.ServiceIOError err))) ∧
      (∀ val obj, db.service.UpdateItem req = .ok val →
        db.codec.Decode val.Attributes = (obj, none) →
        (db.Update recover marshal entity config).result = some (obj, none))) ∧
    (∀ req, (db.UpdateWith recover marshal expr opts).calls = [req] →
      (∀ err ce, db.service.UpdateItem req = .error err → recover err = true →
        req.ConditionExpression = some ce →
        (db.UpdateWith recover marshal expr opts).result =
          some (db.undefined, some (.PreConditionFailed err expr.entity
            (Contains ce "attribute_not_exists" || Contains ce "=")
            (Contains ce "attribute_exists" || Contains ce "<>")))) ∧
      (∀ err, db.service.UpdateItem req = .error err → recover err = false →
        (db.UpdateWith recover marshal expr opts).result =
          some (db.undefined, some (.ServiceIOError err))) ∧
      (∀ val obj, db.service.UpdateItem req = .ok val →
        db.codec.Decode val.Attributes = (obj, none) →
        (db.UpdateWith recover marshal expr opts).result = some (obj, none))) := by
  constructor
  · intro req hreq
    rw [(Update_of_calls recover marshal db entity config req hreq).1]
    obtain ⟨h1, h2, h3, _⟩ := updateItem_outcomes recover db req entity
    exact ⟨h1, h2, h3⟩
  · intro req hreq
    rw [(UpdateWith_of_calls recover marshal db expr opts req hreq).1]
    obtain ⟨h1, h2, h3, _⟩ := updateItem_outcomes recover db req expr.entity
    exact ⟨h1, h2, h3⟩

/-- C17 on the mock storage: a patch of the age under the condition
`name = "yyy"`, against a backend that fails the conditional check. -/
theorem update_classifies_backend_answer_witness :
    ((mockStorage (mockFailing "ConditionalCheckFailedException") mockCodec).Update
        (fun e => e == "ConditionalCheckFailedException") (fun s : String => some (.S s))
        ⟨[("prefix", .S "dead"), ("suffix", .S "beef"), ("age", .N "65")]⟩
        [(⟨"name"⟩ : ConditionExpression String).Eq "yyy"]).result =
      some (GoMap.empty, some (.PreConditionFailed "ConditionalCheckFailedException"
        ⟨[("prefix", .S "dead"), ("suffix", .S "beef"), ("age", .N "65")]⟩ true false)) :=
  ((update_classifies_backend_answer (fun e => e == "ConditionalCheckFailedException")
      (fun s : String => some (.S s))
      (mockStorage (mockFailing "ConditionalCheckFailedException") mockCodec)
      ⟨[("prefix", .S "dead"), ("suffix", .S "beef"), ("age", .N "65")]⟩
      [(⟨"name"⟩ : ConditionExpression String).Eq "yyy"]
      ⟨GoMap.empty, ⟨none, none, none, none, none, none, ""⟩⟩ ([] : List (Constraint String))).1
    ⟨some ⟨[("prefix", .S "dead"), ("suffix", .S "beef")]⟩,
     some ⟨[("#__age__", "age"), ("#__c_name__", "name")]⟩,
     some ⟨[(":__age__", .N "65"), (":__c_name__", .S "yyy")]⟩,
     some "SET #__age__=:__age__", some "(#__c_name__ = :__c_name__)", some "table", "ALL_NEW"⟩
    rfl).1 "ConditionalCheckFailedException" "(#__c_name__ = :__c_name__)" rfl rfl rfl

/-- C17 as stated fails. The backend accepts the update, the returned
attributes fail to decode, and `Update` returns the error `InvalidEntity`;
and when the backend answers an update that carries no condition with a
conditional-check failure, `Update` ends in a panic on the nil
`ConditionExpression` instead of returning `PreConditionFailed`. -/
theorem update_accepted_yet_error :
    ((mockStorage mockDDB { mockCodec with Decode := fun m => (m, some "bad item") }).Update
        (fun e => e == "ConditionalCheckFailedException") (fun s : String => some (.S s))
        ⟨[("prefix", .S "dead"), ("suffix", .S "beef"), ("age", .N "65")]⟩
        [(⟨"name"⟩ : ConditionExpression String).Eq "Verner Pleishner"]).result =
      some (GoMap.empty, some (.InvalidEntity "bad item")) ∧
    ((mockStorage (mockFailing "ConditionalCheckFailedException") mockCodec).Update
        (fun e => e == "ConditionalCheckFailedException") (fun s : String => some (.S s))
        ⟨[("prefix", .S "dead"), ("suffix", .S "beef"), ("age", .N "65")]⟩
        ([] : List (Constraint String))).result = none :=
  ⟨rfl, rfl⟩

theorem Update_calls_cases (recover : E → Bool) (marshal : A → Option AttributeValue)
    (db : Storage T E) (entity : T) (config : List (Constraint A)) :
    (db.Update recover marshal entity config).calls = [] ∨
    ∃ req, (db.Update recover marshal entity config).calls = [req] := by
  cases he : db.codec.Encode entity with
  | mk gen e =>
    cases e with
    | some err => left; simp [Storage.Update, he]
    | none =>
      obtain ⟨req, _, h2⟩ := Update_of_encoded recover marshal db entity config gen he
      right
      exact ⟨req, by rw [h2, updateItem_calls]⟩

theorem UpdateWith_calls_cases (recover : E → Bool) (marshal : A → Option AttributeValue)
    (db : Storage T E) (expr : Expr T) (opts : List (Constraint A)) :
    (db.UpdateWith recover marshal expr opts).calls = [] ∨
    ∃ req, (db.UpdateWith recover marshal expr opts).calls = [req] := by
  cases he : db.codec.Encode expr.entity with
  | mk gen e =>
    cases e with
    | some err => left; simp [Storage.UpdateWith, he]
    | none =>
      simp only [Storage.UpdateWith, he]
      split
      · left; rfl
      · right
        exact ⟨_, updateItem_calls _ _ _ _⟩

/-- `UpdateWith` on an entity that encodes, with an update that carries both
tables: the conditions are applied without panic and the request goes to the
backend. -/
theorem UpdateWith_of_encoded (recover : E → Bool) (marshal : A → Option AttributeValue)
    (db : Storage T E) (expr : Expr T) (opts : List (Constraint A)) (gen : GoMap AttributeValue)
    (names : GoMap String) (values : GoMap AttributeValue)
    (h : db.codec.Encode expr.entity = (gen, none))
    (hn : expr.update.ExpressionAttributeNames = some names)
    (hv : expr.update.ExpressionAttributeValues = some values) :
    ∃ req, conditionRequest marshal
        { expr.update with
          Key := some (db.codec.KeyOnly gen)
          TableName := db.table
          ReturnValues := "ALL_NEW" } opts = some req ∧
      db.UpdateWith recover marshal expr opts = db.updateItem recover req expr.entity := by
  have hc := conditionRequest_of_tables marshal opts
    { expr.update with
      Key := some (db.codec.KeyOnly gen)
      TableName := db.table
      ReturnValues := "ALL_NEW" } names values hn hv
  refine ⟨_, hc, ?_⟩
  simp only [Storage.UpdateWith, h, hc]

/-- C18: `Update` on an entity that encodes, and `UpdateWith` on an entity that
encodes with an update carrying both tables (or without conditions), send
exactly one request, for the key of the entity, and every request they issue
asks for the complete item after the update (`ReturnValues = ALL_NEW`); when
the backend accepts the request the entity returned is the decoding of the
attributes the backend returned, whatever patch was sent. -/
theorem update_returns_all_new (recover : E → Bool) (marshal : A → Option AttributeValue)
    (db : Storage T E) (entity : T) (config : List (Constraint A)) (expr : Expr T)
    (opts : List (Constraint A)) :
    (∀ req ∈ (db.Update recover marshal entity config).calls, req.ReturnValues = "ALL_NEW") ∧
    (∀ req ∈ (db.UpdateWith recover marshal expr opts).calls, req.ReturnValues = "ALL_NEW") ∧
    (∀ req val obj, (db.Update recover marshal entity config).calls = [req] →
      db.service.UpdateItem req = .ok val → db.codec.Decode val.Attributes = (obj, none) →
      (db.Update recover marshal entity config).result = some (obj, none)) ∧
    (∀ req val obj, (db.UpdateWith recover marshal expr opts).calls = [req] →
      db.service.UpdateItem req = .ok val → db.codec.Decode val.Attributes = (obj, none) →
      (db.UpdateWith recover marshal expr opts).result = some (obj, none)) ∧
    (∀ gen, db.codec.Encode entity = (gen, none) →
      ∃ req, (db.Update recover marshal entity config).calls = [req] ∧
        req.ReturnValues = "ALL_NEW" ∧ req.Key = some (db.codec.KeyOnly gen) ∧
        req.TableName = db.table) ∧
    (∀ gen names values, db.codec.Encode expr.entity = (gen, none) →
      expr.update.ExpressionAttributeNames = some names →
      expr.update.ExpressionAttributeValues = some values →
      ∃ req, (db.UpdateWith recover marshal expr opts).calls = [req] ∧
        req.ReturnValues = "ALL_NEW" ∧ req.Key = some (db.codec.KeyOnly gen) ∧
        req.TableName = db.table ∧ req.UpdateExpression = expr.update.UpdateExpression) ∧
    (∀ gen, db.codec.Encode expr.entity = (gen, none) →
      (db.UpdateWith recover marshal expr ([] : List (Constraint A))).calls =
        [{ expr.update with
            Key := some (db.codec.KeyOnly gen)
            TableName := db.table
            ReturnValues := "ALL_NEW" }]) := by
  refine ⟨fun req hreq => ?_, fun req hreq => ?_, fun req val obj hreq hval hdec => ?_,
    fun req val obj hreq hval hdec => ?_, fun gen henc => ?_,
    fun gen names values henc hn hv => ?_, fun gen henc => ?_⟩
  · rcases Update_calls_cases recover marshal db entity config with h | ⟨r, h⟩
    · rw [h] at hreq; cases hreq
    · rw [h, List.mem_singleton] at hreq
      subst hreq
      obtain ⟨_, gen, _, hc⟩ := Update_of_calls recover marshal db entity config req h
      rw [(conditionRequest_frame marshal config _ req hc).2.2.2]
      rfl
  · rcases UpdateWith_calls_cases recover marshal db expr opts with h | ⟨r, h⟩
    · rw [h] at hreq; cases hreq
    · rw [h, List.mem_singleton] at hreq
      subst hreq
      obtain ⟨_, gen, _, hc⟩ := UpdateWith_of_calls recover marshal db expr opts req h
      rw [(conditionRequest_frame marshal opts _ req hc).2.2.2]
  · rw [(Update_of_calls recover marshal db entity config req hreq).1]
    exact (updateItem_outcomes recover db req entity).2.2.1 val obj hval hdec
  · rw [(UpdateWith_of_calls recover marshal db expr opts req hreq).1]
    exact (updateItem_outcomes recover db req expr.entity).2.2.1 val obj hval hdec
  · obtain ⟨req, h1, h2⟩ := Update_of_encoded recover marshal db entity config gen henc
    obtain ⟨hk, _, ht, hr⟩ := conditionRequest_frame marshal config _ req h1
    exact ⟨req, by rw [h2, updateItem_calls], by rw [hr]; rfl, by rw [hk]; rfl, by rw [ht]; rfl⟩
  · obtain ⟨req, h1, h2⟩ :=
      UpdateWith_of_encoded recover marshal db expr opts gen names values henc hn hv
    obtain ⟨hk, hu, ht, hr⟩ := conditionRequest_frame marshal opts _ req h1
    exact ⟨req, by rw [h2, updateItem_calls], by rw [hr], by rw [hk], by rw [ht], by rw [hu]⟩
  · simp only [Storage.UpdateWith, henc, conditionRequest, List.foldlM_nil]
    exact updateItem_calls _ _ _ _

/-- C18 on the mock storage: a patch that holds the key alone returns the
whole stored entity, from `Update` and from `UpdateWith`, each of which sends
one request asking for `ALL_NEW`. -/
theorem update_returns_all_new_witness :
    ((mockStorage mockDDB mockCodec).Update (fun _ => false) (fun s : String => some (.S s))
        ⟨[("prefix", .S "dead"), ("suffix", .S "beef")]⟩ ([] : List (Constraint String))).result =
      some (mockItem, none) ∧
    ((mockStorage mockDDB mockCodec).UpdateWith (fun _ => false)
        (fun s : String => some (.S s))
        ⟨⟨[("prefix", .S "dead"), ("suffix", .S "beef")]⟩,
          ⟨none, some ⟨[("#__age__", "age")]⟩, some ⟨[(":__age__", .N "65")]⟩,
            some "SET #__age__ = :__age__", none, none, ""⟩⟩
        [(⟨"name"⟩ : ConditionExpression String).Eq "Verner Pleishner"]).result =
      some (mockItem, none) ∧
    (((mockStorage mockDDB mockCodec).UpdateWith (fun _ => false)
        (fun s : String => some (.S s))
        ⟨⟨[("prefix", .S "dead"), ("suffix", .S "beef")]⟩,
          ⟨none, some ⟨[("#__age__", "age")]⟩, some ⟨[(":__age__", .N "65")]⟩,
            some "SET #__age__ = :__age__", none, none, ""⟩⟩
        [(⟨"name"⟩ : ConditionExpression String).Eq "Verner Pleishner"]).calls.map
          fun req => req.ReturnValues) = ["ALL_NEW"] := by
  have h := update_returns_all_new (fun _ => false) (fun s : String => some (.S s))
    (mockStorage mockDDB mockCodec) ⟨[("prefix", .S "dead"), ("suffix", .S "beef")]⟩
    ([] : List (Constraint String))
    ⟨⟨[("prefix", .S "dead"), ("suffix", .S "beef")]⟩,
      ⟨none, some ⟨[("#__age__", "age")]⟩, some ⟨[(":__age__", .N "65")]⟩,
        some "SET #__age__ = :__age__", none, none, ""⟩⟩
    [(⟨"name"⟩ : ConditionExpression String).Eq "Verner Pleishner"]
  obtain ⟨r1, hc1, _⟩ := h.2.2.2.2.1 _ rfl
  obtain ⟨r2, hc2, hr2, _⟩ := h.2.2.2.2.2.1 _ _ _ rfl rfl rfl
  exact ⟨h.2.2.1 r1 ⟨mockItem⟩ mockItem hc1 rfl rfl,
    h.2.2.2.1 r2 ⟨mockItem⟩ mockItem hc2 rfl rfl, by rw [hc2]; simp [hr2]⟩

/-- C19: if encoding the entity fails, `Update` and `UpdateWith` return
`InvalidEntity` next to the undefined entity and issue no request; if decoding
the attributes the backend returned fails, they return `InvalidEntity` next to
the undefined entity, not the entity the decoder was filling. -/
theorem update_codec_failures (recover : E → Bool) (marshal : A → Option AttributeValue)
    (db : Storage T E) (entity : T) (config : List (Constraint A)) (expr : Expr T)
    (opts : List (Constraint A)) :
    (∀ g err, db.codec.Encode entity = (g, some err) →
      db.Update recover marshal entity config =
        ⟨[], some (db.undefined, some (.InvalidEntity err))⟩) ∧
    (∀ g err, db.codec.Encode expr.entity = (g, some err) →
      db.UpdateWith recover marshal expr opts =
        ⟨[], some (db.undefined, some (.InvalidEntity err))⟩) ∧
    (∀ req val obj err, (db.Update recover marshal entity config).calls = [req] →
      db.service.UpdateItem req = .ok val → db.codec.Decode val.Attributes = (obj, some err) →
      (db.Update recover marshal entity config).result =
        some (db.undefined, some (.InvalidEntity err))) ∧
    (∀ req val obj err, (db.UpdateWith recover marshal expr opts).calls = [req] →
      db.service.UpdateItem req = .ok val → db.codec.Decode val.Attributes = (obj, some err) →
      (db.UpdateWith recover marshal expr opts).result =
        some (db.undefined, some (.InvalidEntity err))) := by
  refine ⟨fun g err h => ?_, fun g err h => ?_, fun req val obj err hreq hval hdec => ?_,
    fun req val obj err hreq hval hdec => ?_⟩
  · simp [Storage.Update, h]
  · simp [Storage.UpdateWith, h]
  · rw [(Update_of_calls recover marshal db entity config req hreq).1]
    exact (updateItem_outcomes recover db req entity).2.2.2 val obj err hval hdec
  · rw [(UpdateWith_of_calls recover marshal db expr opts req hreq).1]
    exact (updateItem_outcomes recover db req expr.entity).2.2.2 val obj err hval hdec

/-- C19 on the mock storage with the codec that fails to encode. -/
theorem update_codec_failures_witness :
    (mockStorage mockDDB mockBadCodec).Update (fun _ => false) (fun s : String => some (.S s))
        mockItem ([] : List (Constraint String)) =
      ⟨[], some (GoMap.empty, some (.InvalidEntity "bad entity"))⟩ :=
  (update_codec_failures (fun _ => false) (fun s : String => some (.S s))
      (mockStorage mockDDB mockBadCodec) mockItem ([] : List (Constraint String))
      ⟨mockItem, ⟨none, none, none, none, none, none, ""⟩⟩ ([] : List (Constraint String))).1
    GoMap.empty "bad entity" rfl

end UpdateRequest

/-! ## Condition handles -/

section Handles

variable {A : Type}

theorem generic_fold (name : String) (Generic : List FieldType) : ∀ acc : List FieldType,
    Generic.foldl
      (fun seq t => [name].foldl (fun seq f => if t.Name = f then seq ++ [t] else seq) seq) acc =
      acc ++ Generic.filter fun t => t.Name = name := by
  induction Generic with
  | nil => intro acc; simp
  | cons t ts ih =>
    intro acc
    simp only [List.foldl_cons, List.foldl_nil] at ih ⊢
    rw [ih]
    by_cases h : t.Name = name
    · simp [List.filter_cons, h]
    · simp [List.filter_cons, h]

/-- `generic` on one name: the fields of that name. -/
theorem generic_single (Generic : List FieldType) (name : String) :
    generic Generic [name] = Generic.filter fun t => t.Name = name := by
  rw [generic, generic_fold]
  rfl

/-- The first piece of a split is the text before the first separator. -/
theorem splitChars_head (sep : Char) (l : List Char) :
    (splitChars sep l).headD [] = l.takeWhile fun c => c ≠ sep := by
  induction l with
  | nil => rfl
  | cons c cs ih =>
    by_cases h : c = sep
    · simp [splitChars, h]
    · have hd : decide (c ≠ sep) = true := by simp [h]
      simp only [splitChars, h, if_false]
      rw [List.takeWhile_cons, hd, if_pos rfl, ← ih]
      cases splitChars sep cs <;> rfl

theorem newConditionExpression_some (t : FieldType) (ce : ConditionExpression A)
    (h : newConditionExpression t = some ce) :
    t.TagGet "dynamodbav" ≠ "" ∧
    ce.key = String.mk ((t.TagGet "dynamodbav").data.takeWhile fun c => c ≠ ',') := by
  simp only [newConditionExpression] at h
  split at h
  · cases h
  · rename_i hne
    simp only [Option.some.injEq] at h
    subst h
    exact ⟨hne, by rw [SplitHead, splitChars_head]⟩

/-- `FMap1` on the fields of one name: the first field of that name decides. -/
theorem FMap1_filter {β : Type} (p : FieldType → Bool) (f : FieldType → Option β)
    (Generic : List FieldType) :
    FMap1 (Generic.filter p) f = (Generic.find? p).bind f := by
  induction Generic with
  | nil => rfl
  | cons t ts ih =>
    by_cases h : p t = true
    · simp [List.filter_cons, List.find?_cons, h, FMap1]
    · simp only [Bool.not_eq_true] at h
      simp [List.filter_cons, List.find?_cons, h, ih]

theorem ClauseFor_eq (Generic : List FieldType) (name : String) :
    (ClauseFor Generic name : Option (ConditionExpression A)) =
      (Generic.find? fun t => t.Name = name).bind newConditionExpression := by
  rw [ClauseFor, generic_single, FMap1_filter]

/-- C20, as the code has it: resolving a condition handle (`ClauseFor`,
`Schema.Condition`) by the name of a field takes the first field of that name.
It fails at construction, instead of returning a handle, when no field has
the name or when the `dynamodbav` tag of that field is absent or empty;
otherwise it returns the handle whose key is the name component of that tag,
the text before the first comma, which is non-empty whenever the tag does not
begin with a comma. Every handle that construction returns is of this
kind. -/
theorem ClauseFor_key (Generic : List FieldType) (name : String) :
    ((∀ t ∈ Generic, t.Name ≠ name) →
      (ClauseFor Generic name : Option (ConditionExpression A)) = none) ∧
    (∀ t, (Generic.find? fun t => t.Name = name) = some t → t.TagGet "dynamodbav" = "" →
      (ClauseFor Generic name : Option (ConditionExpression A)) = none) ∧
    (∀ t, (Generic.find? fun t => t.Name = name) = some t → t.TagGet "dynamodbav" ≠ "" →
      (ClauseFor Generic name : Option (ConditionExpression A)) =
        some ⟨String.mk ((t.TagGet "dynamodbav").data.takeWhile fun c => c ≠ ',')⟩) ∧
    (∀ ce : ConditionExpression A, ClauseFor Generic name = some ce →
      ∃ t ∈ Generic, (Generic.find? fun t => t.Name = name) = some t ∧ t.Name = name ∧
        t.TagGet "dynamodbav" ≠ "" ∧
        ce.key = String.mk ((t.TagGet "dynamodbav").data.takeWhile fun c => c ≠ ',') ∧
        (∀ c cs, (t.TagGet "dynamodbav").data = c :: cs → c ≠ ',' → ce.key ≠ "")) ∧
    (Schema.Condition Generic ⟨name⟩ : Option (ConditionExpression A)) =
      ClauseFor Generic name := by
  refine ⟨fun hno => ?_, fun t ht htag => ?_, fun t ht htag => ?_, fun ce hce => ?_, rfl⟩
  · have hf : (Generic.find? fun t => t.Name = name) = none := by
      rw [List.find?_eq_none]
      intro t ht
      simpa using hno t ht
    rw [ClauseFor_eq, hf]
    rfl
  · rw [ClauseFor_eq, ht]
    simp [newConditionExpression, htag]
  · rw [ClauseFor_eq, ht]
    simp only [Option.some_bind, newConditionExpression, htag, if_false, SplitHead,
      splitChars_head]
  · rw [ClauseFor_eq] at hce
    cases hf : (Generic.find? fun t => t.Name = name) with
    | none => rw [hf] at hce; cases hce
    | some t =>
      rw [hf] at hce
      simp only [Option.some_bind] at hce
      obtain ⟨h1, h2⟩ := newConditionExpression_some t ce hce
      have hname : t.Name = name := by
        have := List.find?_some hf
        simpa using this
      refine ⟨t, List.mem_of_find?_eq_some hf, rfl, hname, h1, h2, fun c cs hdata hc => ?_⟩
      rw [h2, hdata]
      intro hempty
      have := congrArg String.data hempty
      simp [List.takeWhile_cons, hc] at this

/-- C20 on the entity of the tests: the handle of the field `Name` carries the
key `name`, a field without tag gets no handle, and of two fields of one name
the first decides. -/
theorem ClauseFor_key_witness :
    (ClauseFor [⟨"Name", ⟨[("dynamodbav", "name,omitempty")]⟩⟩, ⟨"Age", ⟨[]⟩⟩] "Age"
      : Option (ConditionExpression String)) = none ∧
    (ClauseFor [⟨"Name", ⟨[("dynamodbav", "name,omitempty")]⟩⟩, ⟨"Age", ⟨[]⟩⟩] "Name"
      : Option (ConditionExpression String)) = some ⟨"name"⟩ ∧
    (ClauseFor [⟨"Name", ⟨[("dynamodbav", "base")]⟩⟩, ⟨"Name", ⟨[]⟩⟩] "Name"
      : Option (ConditionExpression String)) = some ⟨"base"⟩ ∧
    (ClauseFor [⟨"Name", ⟨[("dynamodbav", "name,omitempty")]⟩⟩, ⟨"Age", ⟨[]⟩⟩] "City"
      : Option (ConditionExpression String)) = none :=
  ⟨(ClauseFor_key [⟨"Name", ⟨[("dynamodbav", "name,omitempty")]⟩⟩, ⟨"Age", ⟨[]⟩⟩] "Age").2.1
      ⟨"Age", ⟨[]⟩⟩ rfl rfl,
   ((ClauseFor_key [⟨"Name", ⟨[("dynamodbav", "name,omitempty")]⟩⟩, ⟨"Age", ⟨[]⟩⟩] "Name").2.2.1
      ⟨"Name", ⟨[("dynamodbav", "name,omitempty")]⟩⟩ rfl (by decide)).trans (by decide),
   ((ClauseFor_key [⟨"Name", ⟨[("dynamodbav", "base")]⟩⟩, ⟨"Name", ⟨[]⟩⟩] "Name").2.2.1
      ⟨"Name", ⟨[("dynamodbav", "base")]⟩⟩ rfl (by decide)).trans (by decide),
   (ClauseFor_key [⟨"Name", ⟨[("dynamodbav", "name,omitempty")]⟩⟩, ⟨"Age", ⟨[]⟩⟩] "City").1
      (by decide)⟩

/-- C20 as stated fails: for a field tagged `dynamodbav:",omitempty"` both
constructions return a handle, and its key is the empty string. -/
theorem ClauseFor_empty_key :
    (ClauseFor [⟨"Name", ⟨[("dynamodbav", ",omitempty")]⟩⟩] "Name"
      : Option (ConditionExpression String)) = some ⟨""⟩ ∧
    (Schema.Condition [⟨"Name", ⟨[("dynamodbav", ",omitempty")]⟩⟩] ⟨"Name"⟩
      : Option (ConditionExpression String)) = some ⟨""⟩ := by
  decide

end Handles

/-! ## The schema of an entity type -/

section SchemaOf

theorem newSchema_loop_attrs : ∀ (seq : List String) (i : Nat) (names : GoMap String)
    (attrs : List String), attrs.length = i + seq.length →
    (newSchema.loop seq i names attrs).2 =
      attrs.take i ++ seq.map fun x => "#__" ++ x ++ "__" := by
  intro seq
  induction seq with
  | nil =>
    intro i names attrs h
    simp only [List.length_nil, Nat.add_zero] at h
    simp [newSchema.loop, ← h]
  | cons x rest ih =>
    intro i names attrs h
    simp only [List.length_cons] at h
    have hi : i < attrs.length := by omega
    simp only [newSchema.loop]
    rw [ih (i + 1) _ _ (by simp; omega), take_succ_set attrs _ i hi]
    simp

theorem newSchema_loop_names : ∀ (seq : List String) (i : Nat) (names : GoMap String)
    (attrs : List String),
    (newSchema.loop seq i names attrs).1 =
      names.storeAll (seq.map fun x => ("#__" ++ x ++ "__", x)) := by
  intro seq
  induction seq with
  | nil => intro i names attrs; simp [newSchema.loop, GoMap.storeAll]
  | cons x rest ih =>
    intro i names attrs
    simp only [newSchema.loop]
    rw [ih]
    simp [GoMap.storeAll]

theorem newSchema_names (Generic : List FieldType) :
    (newSchema Generic).ExpectedAttributeNames =
      GoMap.empty.storeAll ((wireNames Generic).map fun x => ("#__" ++ x ++ "__", x)) := by
  simp [newSchema, newSchema_loop_names]

theorem newSchema_projection (Generic : List FieldType) :
    (newSchema Generic).Projection =
      some (", ".intercalate ((wireNames Generic).map fun x => "#__" ++ x ++ "__")) := by
  simp [newSchema, newSchema_loop_attrs]

/-- After registering the aliases of `seq`, the alias of `w` resolves to `w`
when `w` is in `seq` or its alias resolved to `w` before. -/
theorem storeAll_alias_lookup (w : String) : ∀ (seq : List String) (names : GoMap String),
    (w ∈ seq ∨ names.lookup ("#__" ++ w ++ "__") = some w) →
    (names.storeAll (seq.map fun x => ("#__" ++ x ++ "__", x))).lookup ("#__" ++ w ++ "__") =
      some w := by
  intro seq
  induction seq with
  | nil => intro names h; simpa [GoMap.storeAll] using h
  | cons x rest ih =>
    intro names h
    have h1 := ih (names.store ("#__" ++ x ++ "__") x)
    simp only [GoMap.storeAll, List.map_cons, List.foldl_cons] at h1 ⊢
    apply h1
    by_cases hx : w = x
    · subst hx
      exact Or.inr (GoMap.lookup_store_self _ _ _)
    · rcases h with h | h
      · simp only [List.mem_cons, hx, false_or] at h
        exact Or.inl h
      · right
        rw [GoMap.lookup_store_ne _ _ (fun e => hx (hash_token_inj e))]
        exact h

theorem storeAll_keys_nodup {V : Type} (kvs : List (String × V)) : ∀ (m : GoMap V),
    m.keys.Nodup → (m.storeAll kvs).keys.Nodup := by
  induction kvs with
  | nil => intro m h; simpa [GoMap.storeAll] using h
  | cons kv kvs ih =>
    intro m h
    have h1 := ih (m.store kv.1 kv.2) (keys_store_nodup m kv.1 kv.2 h)
    simpa [GoMap.storeAll] using h1

/-- The number of entries of the table `newSchema` builds: one for every
distinct wire name. -/
theorem newSchema_len (Generic : List FieldType) :
    (newSchema Generic).ExpectedAttributeNames.len = (wireNames Generic).dedup.length := by
  rw [newSchema_names]
  have hnd := storeAll_keys_nodup ((wireNames Generic).map fun x => ("#__" ++ x ++ "__", x))
    (GoMap.empty : GoMap String) (by simp [GoMap.keys, GoMap.empty])
  have hinj : Function.Injective fun x : String => "#__" ++ x ++ "__" :=
    fun a b h => hash_token_inj h
  have hperm : (GoMap.empty.storeAll
      ((wireNames Generic).map fun x => ("#__" ++ x ++ "__", x))).keys.Perm
        (((wireNames Generic).dedup).map fun x => "#__" ++ x ++ "__") := by
    rw [List.perm_ext_iff_of_nodup hnd ((List.nodup_dedup _).map hinj)]
    intro t
    rw [mem_keys_storeAll]
    simp [GoMap.keys, GoMap.empty, List.mem_dedup]
  have hl := hperm.length_eq
  simpa [GoMap.len, GoMap.keys] using hl

/-- C21, as the code has it: `newSchema` validates nothing. It registers the alias
`#__w__` of the name component `w` of every field's `dynamodbav` tag, empty or
not, so the table has one entry for every distinct wire name: never more
entries than declared fields, and exactly one entry per declared field if and
only if no two fields share a wire name. -/
theorem newSchema_entries (Generic : List FieldType) :
    (∀ t, t ∈ (newSchema Generic).ExpectedAttributeNames.keys ↔
      ∃ w ∈ wireNames Generic, t = "#__" ++ w ++ "__") ∧
    (newSchema Generic).ExpectedAttributeNames.len = (wireNames Generic).dedup.length ∧
    (newSchema Generic).ExpectedAttributeNames.len ≤ Generic.length ∧
    ((newSchema Generic).ExpectedAttributeNames.len = Generic.length ↔
      (wireNames Generic).Nodup) := by
  have hlen : (wireNames Generic).length = Generic.length := by simp [wireNames]
  have hsub := List.dedup_sublist (wireNames Generic)
  refine ⟨?_, newSchema_len Generic, ?_, ?_⟩
  · intro t
    rw [newSchema_names, mem_keys_storeAll]
    simp only [GoMap.keys, GoMap.empty, List.map_nil, List.not_mem_nil, false_or, List.map_map,
      List.mem_map, Function.comp]
    constructor
    · rintro ⟨w, hw, rfl⟩
      exact ⟨w, hw, rfl⟩
    · rintro ⟨w, hw, rfl⟩
      exact ⟨w, hw, rfl⟩
  · rw [newSchema_len, ← hlen]
    exact hsub.length_le
  · rw [newSchema_len, ← hlen]
    constructor
    · intro h
      rw [← List.dedup_eq_self]
      exact hsub.eq_of_length h
    · intro h
      rw [List.dedup_eq_self.mpr h]

theorem newSchema_entries_witness :
    (newSchema personFields).ExpectedAttributeNames.len = 5 ∧
    "#__name__" ∈ (newSchema personFields).ExpectedAttributeNames.keys :=
  ⟨((newSchema_entries personFields).2.2.2.mpr (by decide)).trans rfl,
   ((newSchema_entries personFields).1 "#__name__").mpr ⟨"name", by decide, by decide⟩⟩

/-- C21 as stated fails: for an entity type with an untagged field and two
fields tagged `name`, `newSchema` registers the empty wire name under the alias
`#____` and keeps two entries for the three declared fields. -/
theorem newSchema_registers_empty_and_shared :
    wireNames looseFields = ["", "name", "name"] ∧
    (newSchema looseFields).ExpectedAttributeNames = ⟨[("#____", ""), ("#__name__", "name")]⟩ ∧
    (newSchema looseFields).ExpectedAttributeNames.len = 2 ∧
    (newSchema looseFields).Projection = some "#____, #__name__, #__name__" := by
  decide

/-- C22: for an entity type with wire names `w1..wn` in declaration order, the
projection of `newSchema` is the aliases `#__w1__`, ..., `#__wn__` in that
order joined by `, `, and the table maps each alias `#__wi__` to `wi` and holds
nothing but these aliases: every alias of the projection is defined, and the
projection names every wire name. -/
theorem newSchema_projection_aliases (Generic : List FieldType) :
    (newSchema Generic).Projection =
      some (", ".intercalate ((wireNames Generic).map fun w => "#__" ++ w ++ "__")) ∧
    (∀ w ∈ wireNames Generic,
      (newSchema Generic).ExpectedAttributeNames.lookup ("#__" ++ w ++ "__") = some w) ∧
    (∀ t ∈ (newSchema Generic).ExpectedAttributeNames.keys,
      t ∈ (wireNames Generic).map fun w => "#__" ++ w ++ "__") := by
  refine ⟨newSchema_projection Generic, ?_, ?_⟩
  · intro w hw
    rw [newSchema_names]
    exact storeAll_alias_lookup w _ _ (Or.inl hw)
  · intro t ht
    rw [newSchema_names, mem_keys_storeAll] at ht
    simpa [GoMap.keys, GoMap.empty, Function.comp] using ht

theorem newSchema_projection_aliases_witness :
    (newSchema personFields).Projection =
      some "#__prefix__, #__suffix__, #__name__, #__age__, #__address__" ∧
    (newSchema personFields).ExpectedAttributeNames.lookup "#__age__" = some "age" :=
  ⟨(newSchema_projection_aliases personFields).1.trans (by decide),
   (newSchema_projection_aliases personFields).2.1 "age" (by decide)⟩

end SchemaOf

/-! ## The object-store adapter -/

section ObjectStore

variable {T E : Type}

/-- What `Get` does on each answer of the client: one request for the encoded
key, then the classification of the error or the decoding of the body. -/
theorem ds3_Get_cases (db : ds3 T E) (key : T) :
    (db.Get key).calls = [.GetObject ⟨db.bucket, some (db.EncodeKey key)⟩] ∧
    (∀ msg, db.s3.GetObjectWithContext ⟨db.bucket, some (db.EncodeKey key)⟩ =
        .error (.awserr ErrCodeNoSuchKey msg) →
      (db.Get key).result = some (none, some (.NotFound key))) ∧
    (∀ err, db.s3.GetObjectWithContext ⟨db.bucket, some (db.EncodeKey key)⟩ = .error err →
      (∀ msg, err ≠ .awserr ErrCodeNoSuchKey msg) →
      (db.Get key).result = some (none, some (.backend err))) ∧
    (∀ val, db.s3.GetObjectWithContext ⟨db.bucket, some (db.EncodeKey key)⟩ = .ok val →
      (db.Get key).result =
        some (some (db.json.Decode val).1, (db.json.Decode val).2.map .json)) := by
  refine ⟨?_, ?_, ?_, ?_⟩
  · simp only [ds3.Get]
    split
    · split
      · split <;> rfl
      · rfl
    · rfl
  · intro msg h
    simp [ds3.Get, h]
  · intro err h hne
    simp only [ds3.Get, h]
    cases err with
    | awserr Code msg =>
      have hc : Code ≠ ErrCodeNoSuchKey := fun e => hne msg (e ▸ rfl)
      simp [hc]
    | other msg => rfl
  · intro val h
    simp [ds3.Get, h]

/-- C25: `Get` sends one request for the encoded key. It returns `NotFound`
carrying the requested key exactly when the client reports the error code
`NoSuchKey`; any other error of the client is returned as it is, which is not
`NotFound`; and in both cases no entity is returned. -/
theorem ds3_Get_not_found (db : ds3 T E) (key : T) (err : BackendError)
    (h : db.s3.GetObjectWithContext ⟨db.bucket, some (db.EncodeKey key)⟩ = .error err) :
    (db.Get key).calls = [.GetObject ⟨db.bucket, some (db.EncodeKey key)⟩] ∧
    ((db.Get key).result = some (none, some (.NotFound key)) ↔
      ∃ msg, err = .awserr ErrCodeNoSuchKey msg) ∧
    ((¬ ∃ msg, err = .awserr ErrCodeNoSuchKey msg) →
      (db.Get key).result = some (none, some (.backend err))) ∧
    (∃ e, (db.Get key).result = some (none, some e)) := by
  have hc := ds3_Get_cases db key
  by_cases hn : ∃ msg, err = .awserr ErrCodeNoSuchKey msg
  · obtain ⟨msg, rfl⟩ := hn
    have hr := hc.2.1 msg h
    exact ⟨hc.1, ⟨fun _ => ⟨msg, rfl⟩, fun _ => hr⟩, fun hno => absurd ⟨msg, rfl⟩ hno,
      ⟨_, hr⟩⟩
  · have hr := hc.2.2.1 err h (fun msg e => hn ⟨msg, e⟩)
    refine ⟨hc.1, ⟨fun hnf => ?_, fun hyes => absurd hyes hn⟩, fun _ => hr, ⟨_, hr⟩⟩
    rw [hr] at hnf
    simp at hnf

theorem ds3_Get_not_found_witness :
    (mockDs3.Get ("dead/none", "")).result = some (none, some (.NotFound ("dead/none", ""))) ∧
    (mockDs3.Get ("dead/lock", "")).result = some (none, some (.backend (.other "timeout"))) :=
  ⟨(ds3_Get_not_found mockDs3 ("dead/none", "")
      (.awserr "NoSuchKey" "The specified key does not exist.") rfl).2.1.mpr ⟨_, rfl⟩,
   (ds3_Get_not_found mockDs3 ("dead/lock", "") (.other "timeout") rfl).2.2.1
      (by simp)⟩

/-- C26 fails in the code: when the stored object does not decode, `Get`
returns the decoder's error together with the entity the decoder was filling
(`return &entity, err`), not an error alone; `Update` of the same file drops
the entity in that case. The stored text of `dead/half` is cut short. -/
theorem ds3_Get_entity_with_error :
    (mockDs3.Get ("dead/half", "")).result =
      some (some ("", "Verner Plei"), some (.json "unexpected end of JSON input")) ∧
    (mockDs3.Update ("dead/half", "") ([] : List Unit)).result =
      some (none, some (.json "unexpected end of JSON input")) := by
  decide

/-- What `Put` does: nothing is sent when `json.Marshal` fails, else one
request carrying the marshalled entity under its encoded key. -/
theorem ds3_Put_cases {C : Type} (db : ds3 T E) (entity : T) (config : List C) :
    (∀ gen err, db.json.Marshal entity = (gen, some err) →
      db.Put entity config = ⟨[], some (some (.json err))⟩) ∧
    (∀ gen, db.json.Marshal entity = (gen, none) →
      db.Put entity config =
        ⟨[.PutObject ⟨db.bucket, some (db.EncodeKey entity), gen⟩],
          some ((db.s3.PutObjectWithContext
            ⟨db.bucket, some (db.EncodeKey entity), gen⟩).map .backend)⟩) := by
  constructor
  · intro gen err h
    simp [ds3.Put, h]
  · intro gen h
    simp [ds3.Put, h]

/-- C27: `Update` sends exactly one `GetObject` for the encoded key of the
entity, followed by at most one `PutObject`. When the `GetObject` fails or the
existing object does not decode, nothing else is sent and the error is
returned without an entity. When both succeed, the object to write is
`Merge(entity, existing)`: if it marshals, exactly one `PutObject` follows,
carrying the marshalled merged object under its encoded key, and on success
the value returned is that merged object; if it does not marshal, nothing is
written. -/
theorem ds3_Update_get_then_put {C : Type} (db : ds3 T E) (entity : T) (config : List C) :
    (∃ puts, (db.Update entity config).calls =
        .GetObject ⟨db.bucket, some (db.EncodeKey entity)⟩ :: puts ∧ puts.length ≤ 1 ∧
        ∀ c ∈ puts, ∃ req, c = .PutObject req) ∧
    (∀ err, db.s3.GetObjectWithContext ⟨db.bucket, some (db.EncodeKey entity)⟩ = .error err →
      db.Update entity config =
        ⟨[.GetObject ⟨db.bucket, some (db.EncodeKey entity)⟩], some (none, some (.backend err))⟩) ∧
    (∀ val existing err,
      db.s3.GetObjectWithContext ⟨db.bucket, some (db.EncodeKey entity)⟩ = .ok val →
      db.json.Decode val = (existing, some err) →
      db.Update entity config =
        ⟨[.GetObject ⟨db.bucket, some (db.EncodeKey entity)⟩], some (none, some (.json err))⟩) ∧
    (∀ val existing,
      db.s3.GetObjectWithContext ⟨db.bucket, some (db.EncodeKey entity)⟩ = .ok val →
      db.json.Decode val = (existing, none) →
      (∀ gen err, db.json.Marshal (db.Merge entity existing) = (gen, some err) →
        db.Update entity config =
          ⟨[.GetObject ⟨db.bucket, some (db.EncodeKey entity)⟩],
            some (none, some (.json err))⟩) ∧
      (∀ gen, db.json.Marshal (db.Merge entity existing) = (gen, none) →
        (db.Update entity config).calls =
          [.GetObject ⟨db.bucket, some (db.EncodeKey entity)⟩,
           .PutObject ⟨db.bucket, some (db.EncodeKey (db.Merge entity existing)), gen⟩] ∧
        (db.s3.PutObjectWithContext
            ⟨db.bucket, some (db.EncodeKey (db.Merge entity existing)), gen⟩ = none →
          (db.Update entity config).result = some (some (db.Merge entity existing), none)) ∧
        (∀ err, db.s3.PutObjectWithContext
            ⟨db.bucket, some (db.EncodeKey (db.Merge entity existing)), gen⟩ = some err →
          (db.Update entity config).result = some (none, some (.backend err))))) := by
  have hget : ∀ err, db.s3.GetObjectWithContext ⟨db.bucket, some (db.EncodeKey entity)⟩ =
      .error err → db.Update entity config =
        ⟨[.GetObject ⟨db.bucket, some (db.EncodeKey entity)⟩],
          some (none, some (.backend err))⟩ := by
    intro err h
    simp [ds3.Update, h]
  have hdec : ∀ val existing err,
      db.s3.GetObjectWithContext ⟨db.bucket, some (db.EncodeKey entity)⟩ = .ok val →
      db.json.Decode val = (existing, some err) →
      db.Update entity config =
        ⟨[.GetObject ⟨db.bucket, some (db.EncodeKey entity)⟩],
          some (none, some (.json err))⟩ := by
    intro val existing err h hd
    simp [ds3.Update, h, hd]
  have hbad : ∀ val existing gen err,
      db.s3.GetObjectWithContext ⟨db.bucket, some (db.EncodeKey entity)⟩ = .ok val →
      db.json.Decode val = (existing, none) →
      db.json.Marshal (db.Merge entity existing) = (gen, some err) →
      db.Update entity config =
        ⟨[.GetObject ⟨db.bucket, some (db.EncodeKey entity)⟩],
          some (none, some (.json err))⟩ := by
    intro val existing gen err h hd hm
    simp [ds3.Update, h, hd, ds3.Put, hm]
  have hput : ∀ val existing gen,
      db.s3.GetObjectWithContext ⟨db.bucket, some (db.EncodeKey entity)⟩ = .ok val →
      db.json.Decode val = (existing, none) →
      db.json.Marshal (db.Merge entity existing) = (gen, none) →
      (db.Update entity config).calls =
          [.GetObject ⟨db.bucket, some (db.EncodeKey entity)⟩,
           .PutObject ⟨db.bucket, some (db.EncodeKey (db.Merge entity existing)), gen⟩] ∧
        (db.s3.PutObjectWithContext
            ⟨db.bucket, some (db.EncodeKey (db.Merge entity existing)), gen⟩ = none →
          (db.Update entity config).result = some (some (db.Merge entity existing), none)) ∧
        (∀ err, db.s3.PutObjectWithContext
            ⟨db.bucket, some (db.EncodeKey (db.Merge entity existing)), gen⟩ = some err →
          (db.Update entity config).result = some (none, some (.backend err))) := by
    intro val existing gen h hd hm
    refine ⟨?_, ?_, ?_⟩
    · simp only [ds3.Update, h, hd, ds3.Put, hm]
      cases db.s3.PutObjectWithContext
        ⟨db.bucket, some (db.EncodeKey (db.Merge entity existing)), gen⟩ <;> rfl
    · intro hp
      simp [ds3.Update, h, hd, ds3.Put, hm, hp]
    · intro err hp
      simp [ds3.Update, h, hd, ds3.Put, hm, hp]
  refine ⟨?_, hget, hdec, fun val existing h hd =>
    ⟨fun gen err hm => hbad val existing gen err h hd hm,
     fun gen hm => hput val existing gen h hd hm⟩⟩
  cases h : db.s3.GetObjectWithContext ⟨db.bucket, some (db.EncodeKey entity)⟩ with
  | error err => exact ⟨[], by rw [hget err h], by simp, by simp⟩
  | ok val =>
    rcases hd : db.json.Decode val with ⟨existing, _ | err⟩
    · rcases hm : db.json.Marshal (db.Merge entity existing) with ⟨gen, _ | err⟩
      · exact ⟨[.PutObject ⟨db.bucket, some (db.EncodeKey (db.Merge entity existing)), gen⟩],
          (hput val existing gen h hd hm).1, by simp, by simp⟩
      · exact ⟨[], by rw [hbad val existing gen err h hd hm], by simp, by simp⟩
    · exact ⟨[], by rw [hdec val existing err h hd], by simp, by simp⟩

theorem ds3_Update_get_then_put_witness :
    (mockDs3.Update ("dead/beef", "") ([] : List Unit)).calls =
      [.GetObject ⟨some "bucket", some "dead/beef"⟩,
       .PutObject ⟨some "bucket", some "dead/beef", "name=Verner Pleishner"⟩] ∧
    (mockDs3.Update ("dead/beef", "") ([] : List Unit)).result =
      some (some ("dead/beef", "Verner Pleishner"), none) ∧
    mockDs3.Update ("dead/none", "x") ([] : List Unit) =
      ⟨[.GetObject ⟨some "bucket", some "dead/none"⟩],
        some (none, some (.backend (.awserr "NoSuchKey" "The specified key does not exist.")))⟩ :=
  ⟨((ds3_Update_get_then_put mockDs3 ("dead/beef", "") ([] : List Unit)).2.2.2
      "name=Verner Pleishner" ("", "Verner Pleishner") rfl (by decide)).2
      "name=Verner Pleishner" (by decide) |>.1,
   ((ds3_Update_get_then_put mockDs3 ("dead/beef", "") ([] : List Unit)).2.2.2
      "name=Verner Pleishner" ("", "Verner Pleishner") rfl (by decide)).2
      "name=Verner Pleishner" (by decide) |>.2.1 (by decide),
   (ds3_Update_get_then_put mockDs3 ("dead/none", "x") ([] : List Unit)).2.1
      (.awserr "NoSuchKey" "The specified key does not exist.") rfl⟩

end ObjectStore

/-! ## The codec: round trip and failing hooks -/

section CodecLaws

variable {Val E : Type}

/-- The map `Encode` leaves when every hook accepts its value and the wire
names differ: under the wire name of each field, the encoded value, or nothing
when the field is omitted; any other entry as it was. -/
theorem encodeFields_lookup (r : Registry Val E) :
    ∀ (ds : List (FieldDescriptor Val E)) (vs : List Val) (m : GoMap AttributeValue),
      vs.length = ds.length → (ds.map r.wire).Nodup →
      (∀ dv ∈ ds.zip vs, ∃ a, (r.codecOf dv.1).encode dv.2 = .ok a) →
      (∀ d ∈ ds, m.lookup (r.wire d) = none) →
      ∃ M, r.encodeFields ds vs m = .ok M ∧
        (∀ dv ∈ ds.zip vs, ∀ a, (r.codecOf dv.1).encode dv.2 = .ok a →
          M.lookup (r.wire dv.1) =
            if dv.1.optional && r.isEmpty dv.2 then none else some a) ∧
        (∀ w, w ∉ ds.map r.wire → M.lookup w = m.lookup w) := by
  intro ds
  induction ds with
  | nil =>
    intro vs m _ _ _ _
    cases vs <;> exact ⟨m, rfl, by simp, by simp⟩
  | cons d ds ih =>
    intro vs m hlen hnd henc hm
    cases vs with
    | nil => simp at hlen
    | cons v vs =>
      simp only [List.length_cons, Nat.add_right_cancel_iff] at hlen
      simp only [List.map_cons, List.nodup_cons] at hnd
      obtain ⟨a, ha⟩ := henc (d, v) (by simp)
      have hm' : ∀ d' ∈ ds,
          (if d.optional && r.isEmpty v then m else m.store (r.wire d) a).lookup (r.wire d') =
            none := by
        intro d' hd'
        have hne : r.wire d' ≠ r.wire d := fun e =>
          hnd.1 (e ▸ List.mem_map_of_mem r.wire hd')
        split
        · exact hm d' (by simp [hd'])
        · rw [GoMap.lookup_store_ne _ _ hne]
          exact hm d' (by simp [hd'])
      obtain ⟨M, hM, hzip, hframe⟩ := ih vs _ hlen hnd.2
        (fun dv hdv => henc dv (by simp [hdv])) hm'
      refine ⟨M, by simp only [Registry.encodeFields, ha]; exact hM, ?_, ?_⟩
      · intro dv hdv b hb
        simp only [List.zip_cons_cons, List.mem_cons] at hdv
        rcases hdv with rfl | hdv
        · rw [ha] at hb
          cases hb
          rw [hframe _ hnd.1]
          split
          · exact hm d (by simp)
          · exact GoMap.lookup_store_self _ _ _
        · exact hzip dv hdv b hb
      · intro w hw
        simp only [List.map_cons, List.mem_cons, not_or] at hw
        rw [hframe w hw.2]
        split
        · rfl
        · exact GoMap.lookup_store_ne _ _ hw.1

theorem decodeFields_of_hooks (r : Registry Val E) (M : GoMap AttributeValue) :
    ∀ (ds : List (FieldDescriptor Val E)) (vs : List Val), vs.length = ds.length →
      (∀ dv ∈ ds.zip vs, (r.codecOf dv.1).decode (M.lookup (r.wire dv.1)) = .ok dv.2) →
      r.decodeFields ds M = .ok vs := by
  intro ds
  induction ds with
  | nil =>
    intro vs hlen _
    cases vs with
    | nil => rfl
    | cons v vs => simp at hlen
  | cons d ds ih =>
    intro vs hlen h
    cases vs with
    | nil => simp at hlen
    | cons v vs =>
      simp only [List.length_cons, Nat.add_right_cancel_iff] at hlen
      have h1 := h (d, v) (by simp)
      have h2 := ih vs hlen (fun dv hdv => h dv (by simp [hdv]))
      simp only at h1
      simp [Registry.decodeFields, h1, h2]

theorem traverse_round_trip {α β ε : Type} (f : α → Except ε β) (g : β → Except ε α) :
    ∀ vs : List α, (∀ v ∈ vs, ∃ a, f v = .ok a ∧ g a = .ok v) →
      ∃ as, traverse f vs = .ok as ∧ traverse g as = .ok vs := by
  intro vs
  induction vs with
  | nil => intro _; exact ⟨[], rfl, rfl⟩
  | cons v vs ih =>
    intro h
    obtain ⟨a, ha, hg⟩ := h v (by simp)
    obtain ⟨as, has, hgs⟩ := ih (fun w hw => h w (by simp [hw]))
    exact ⟨a :: as, by simp [traverse, ha, has], by simp [traverse, hg, hgs]⟩

theorem decimalValue_Itoa (m : Nat) : decimalValue (Itoa m).data = m := by
  simp only [Itoa_data, Nat.toDigits]
  exact decimalValue_toDigitsCore _ _ (Nat.lt_succ_self m)

theorem isDigit_of_mem_Itoa (m : Nat) (c : Char) (h : c ∈ (Itoa m).data) :
    c.isDigit = true := by
  have hd : ∀ d ∈ "0123456789".data, d.isDigit = true := by decide
  exact hd c (Itoa_digits m c h)

theorem Itoa_data_ne_nil (m : Nat) : (Itoa m).data ≠ [] := by
  intro h
  have h1 := decimalValue_Itoa m
  rw [h] at h1
  have h0 : m = 0 := by simpa [decimalValue] using h1.symm
  subst h0
  exact absurd h (by decide)

theorem parseDigits_Itoa (m : Nat) : parseDigits (Itoa m).data = some m := by
  have h1 : (Itoa m).data.isEmpty = false := by
    cases hd : (Itoa m).data with
    | nil => exact absurd hd (Itoa_data_ne_nil m)
    | cons c cs => rfl
  have h2 : (Itoa m).data.all Char.isDigit = true := by
    rw [List.all_eq_true]
    exact fun c hc => isDigit_of_mem_Itoa m c hc
  simp [parseDigits, h1, h2, decimalValue_Itoa]

/-- The text of a number reads back as that number. -/
theorem parseNumber_numberText (n : Int) : parseNumber (numberText n) = some n := by
  cases n with
  | ofNat m =>
    have hh : (Itoa m).data.head? ≠ some '-' := by
      intro h
      have hmem : '-' ∈ (Itoa m).data := List.mem_of_mem_head? h
      exact absurd (isDigit_of_mem_Itoa m '-' hmem) (by decide)
    simp [parseNumber, numberText, hh, parseDigits_Itoa]
  | negSucc m =>
    have hd : ("-" ++ Itoa (m + 1)).data = '-' :: (Itoa (m + 1)).data := by
      simp [String.data_append]
    simp only [parseNumber, numberText, hd, List.head?_cons, if_true, List.tail_cons,
      parseDigits_Itoa, Option.map_some', Option.some.injEq]
    rw [Int.negSucc_eq]
    rfl

/-- An empty value of a declared type is the zero value of that type. -/
theorem empty_eq_zero (k : Kind) (v : Value) (hk : k.admits v = true)
    (he : v.isEmpty = true) : v = k.zero := by
  cases k <;> cases v <;>
    simp_all [Kind.admits, Value.isEmpty, Kind.zero]

/-- The default encoding loses nothing: a value of the declared type is
encoded, and the attribute value decodes to it. -/
theorem default_round_trip : ∀ (k : Kind) (v : Value), k.admits v = true →
    ∃ a, k.encode v = .ok a ∧ k.decodeValue a = .ok v := by
  intro k
  induction k with
  | text =>
    intro v h
    cases v <;> simp [Kind.admits] at h
    exact ⟨_, rfl, rfl⟩
  | number =>
    intro v h
    cases v <;> simp [Kind.admits] at h
    exact ⟨_, rfl, by simp [Kind.decodeValue, parseNumber_numberText]⟩
  | flag =>
    intro v h
    cases v <;> simp [Kind.admits] at h
    exact ⟨_, rfl, rfl⟩
  | binary =>
    intro v h
    cases v <;> simp [Kind.admits] at h
    exact ⟨_, rfl, rfl⟩
  | list k ih =>
    intro v h
    cases v with
    | list vs =>
      simp only [Kind.admits, List.all_eq_true] at h
      obtain ⟨as, h1, h2⟩ := traverse_round_trip (Kind.encode k) (Kind.decodeValue k) vs
        (fun v hv => ih v (h v hv))
      exact ⟨.L as, by simp only [Kind.encode, h1]; rfl,
        by simp only [Kind.decodeValue, h2]; rfl⟩
    | _ => simp [Kind.admits] at h
  | map k ih =>
    intro v h
    cases v with
    | map kvs =>
      simp only [Kind.admits, List.all_eq_true] at h
      obtain ⟨as, h1, h2⟩ := traverse_round_trip
        (fun kv : String × Value => (Kind.encode k kv.2).map fun a => (kv.1, a))
        (fun kv : String × AttributeValue => (Kind.decodeValue k kv.2).map fun v => (kv.1, v))
        kvs (fun kv hkv => by
          obtain ⟨a, ha, hd⟩ := ih kv.2 (h kv hkv)
          exact ⟨(kv.1, a), by simp [ha, Except.map], by simp [hd, Except.map]⟩)
      exact ⟨.M as, by simp only [Kind.encode, h1]; rfl,
        by simp only [Kind.decodeValue, h2]; rfl⟩
    | _ => simp [Kind.admits] at h

/-- C23: the round-trip law of the codec. For an entity of a registry whose
fields are written under pairwise distinct wire names (the reserved names for
the key fields), every field holding a value of its declared type, and every
custom codec decoding what it encodes and giving the empty value for an
omitted attribute: `Encode` returns an attribute map, and `Decode` of that
map returns the entity, whether a field goes through a custom codec or the
default encoding and whether or not it is omitted as empty. -/
theorem codec_round_trip (fields : List (FieldDescriptor Value String))
    (hashName sortName : String) (entity : List Value)
    (hlen : entity.length = fields.length)
    (hwire : (fields.map (Registry.typed fields hashName sortName).wire).Nodup)
    (hkind : ∀ dv ∈ fields.zip entity, dv.1.declared.admits dv.2 = true)
    (hcustom : ∀ d ∈ fields, ∀ c, d.custom = some c →
      c.decode none = .ok d.declared.zero ∧
      ∀ v, d.declared.admits v = true → ∃ a, c.encode v = .ok a ∧ c.decode (some a) = .ok v) :
    ∃ m, (Registry.typed fields hashName sortName).Encode entity = .ok m ∧
      (Registry.typed fields hashName sortName).Decode m = .ok entity := by
  have hfield : ∀ dv ∈ fields.zip entity,
      ∃ a, ((Registry.typed fields hashName sortName).codecOf dv.1).encode dv.2 = .ok a ∧
        ((Registry.typed fields hashName sortName).codecOf dv.1).decode
          (if dv.1.optional && Value.isEmpty dv.2 then none else some a) = .ok dv.2 := by
    intro dv hdv
    have hk := hkind dv hdv
    have hd : dv.1 ∈ fields := (List.of_mem_zip hdv).1
    cases hc : dv.1.custom with
    | some c =>
      obtain ⟨hz, hl⟩ := hcustom dv.1 hd c hc
      obtain ⟨a, ha, hda⟩ := hl dv.2 hk
      refine ⟨a, by simp [Registry.codecOf, hc, ha], ?_⟩
      simp only [Registry.codecOf, hc, Option.getD_some]
      by_cases ho : (dv.1.optional && Value.isEmpty dv.2) = true
      · rw [if_pos ho, hz]
        simp only [Bool.and_eq_true] at ho
        exact congrArg Except.ok (empty_eq_zero _ _ hk ho.2).symm
      · rw [if_neg ho]
        exact hda
    | none =>
      obtain ⟨a, ha, hda⟩ := default_round_trip dv.1.declared dv.2 hk
      refine ⟨a, by simp [Registry.codecOf, hc, Registry.typed, defaultCodec, ha], ?_⟩
      by_cases ho : (dv.1.optional && Value.isEmpty dv.2) = true
      · rw [if_pos ho]
        simp only [Bool.and_eq_true] at ho
        simp only [Registry.codecOf, hc, Option.getD_none, Registry.typed, defaultCodec]
        exact congrArg Except.ok (empty_eq_zero _ _ hk ho.2).symm
      · rw [if_neg ho]
        simp only [Registry.codecOf, hc, Option.getD_none, Registry.typed, defaultCodec]
        exact hda
  obtain ⟨M, hM, hzip, _⟩ := encodeFields_lookup (Registry.typed fields hashName sortName)
    fields entity GoMap.empty hlen hwire
    (fun dv hdv => by
      obtain ⟨a, ha, _⟩ := hfield dv hdv
      exact ⟨a, ha⟩)
    (fun d _ => rfl)
  refine ⟨M, hM, decodeFields_of_hooks _ M fields entity hlen ?_⟩
  intro dv hdv
  obtain ⟨a, ha, hdec⟩ := hfield dv hdv
  rw [hzip dv hdv a ha]
  exact hdec

theorem codecTypeDB_lawful :
    codecTypeDB.decode none = .ok Kind.text.zero ∧
    ∀ v, Kind.text.admits v = true →
      ∃ a, codecTypeDB.encode v = .ok a ∧ codecTypeDB.decode (some a) = .ok v := by
  refine ⟨rfl, fun v h => ?_⟩
  cases v <;> simp [Kind.admits] at h
  exact ⟨_, rfl, rfl⟩

/-- C23 on the entities of the tests: `codecStruct`, whose key fields use the
custom codec, and `codecMyType` with all its fields, with the key pair only
and with the hash key only. -/
theorem codec_round_trip_witness :
    (∃ m, codecStruct.Encode [.text "myID", .text "myType", .text "myName", .text "myCity"] =
        .ok m ∧
      codecStruct.Decode m =
        .ok [.text "myID", .text "myType", .text "myName", .text "myCity"]) ∧
    (∃ m, codecMyType.Encode [.text "test:a/b", .text "c/d", .text "test:a/b/c"] = .ok m ∧
      codecMyType.Decode m = .ok [.text "test:a/b", .text "c/d", .text "test:a/b/c"]) ∧
    (∃ m, codecMyType.Encode [.text "test:a/b", .text "c/d", .text ""] = .ok m ∧
      codecMyType.Decode m = .ok [.text "test:a/b", .text "c/d", .text ""]) ∧
    (∃ m, codecMyType.Encode [.text "test:a/b", .text "", .text ""] = .ok m ∧
      codecMyType.Decode m = .ok [.text "test:a/b", .text "", .text ""]) :=
  ⟨codec_round_trip _ "id" "type"
      [.text "myID", .text "myType", .text "myName", .text "myCity"] rfl (by decide) (by decide)
      (by
        intro d hd c hc
        simp only [List.mem_cons, List.mem_singleton, List.not_mem_nil, or_false] at hd
        rcases hd with rfl | rfl | rfl | rfl
        · cases hc; exact codecTypeDB_lawful
        · cases hc; exact codecTypeDB_lawful
        · cases hc
        · cases hc),
   codec_round_trip _ "hkey" "skey" [.text "test:a/b", .text "c/d", .text "test:a/b/c"] rfl
      (by decide) (by decide)
      (by
        intro d hd c hc
        simp only [List.mem_cons, List.mem_singleton, List.not_mem_nil, or_false] at hd
        rcases hd with rfl | rfl | rfl <;> cases hc),
   codec_round_trip _ "hkey" "skey" [.text "test:a/b", .text "c/d", .text ""] rfl
      (by decide) (by decide)
      (by
        intro d hd c hc
        simp only [List.mem_cons, List.mem_singleton, List.not_mem_nil, or_false] at hd
        rcases hd with rfl | rfl | rfl <;> cases hc),
   codec_round_trip _ "hkey" "skey" [.text "test:a/b", .text "", .text ""] rfl
      (by decide) (by decide)
      (by
        intro d hd c hc
        simp only [List.mem_cons, List.mem_singleton, List.not_mem_nil, or_false] at hd
        rcases hd with rfl | rfl | rfl <;> cases hc)⟩

theorem encodeFields_of_failing (r : Registry Val E) (d : FieldDescriptor Val E)
    (hfail : ∀ v, ∃ e, (r.codecOf d).encode v = .error e) :
    ∀ (ds : List (FieldDescriptor Val E)) (vs : List Val) (m : GoMap AttributeValue),
      d ∈ ds → vs.length = ds.length →
      ∃ err, r.encodeFields ds vs m = .error err ∧
        err.field ∈ ds.map FieldDescriptor.logicalName := by
  intro ds
  induction ds with
  | nil => intro vs m hd; simp at hd
  | cons d0 ds ih =>
    intro vs m hd hlen
    cases vs with
    | nil => simp at hlen
    | cons v vs =>
      simp only [List.length_cons, Nat.add_right_cancel_iff] at hlen
      cases h0 : (r.codecOf d0).encode v with
      | error e => exact ⟨⟨d0.logicalName, e⟩, by simp [Registry.encodeFields, h0], by simp⟩
      | ok a =>
        simp only [List.mem_cons] at hd
        rcases hd with rfl | hd
        · obtain ⟨e, he⟩ := hfail v
          rw [he] at h0
          cases h0
        · obtain ⟨err, herr, hf⟩ := ih vs _ hd hlen
          refine ⟨err, ?_, by simp [hf]⟩
          simp only [Registry.encodeFields, h0]
          exact herr

theorem decodeFields_of_failing (r : Registry Val E) (d : FieldDescriptor Val E)
    (m : GoMap AttributeValue)
    (hfail : ∀ a, ∃ e, (r.codecOf d).decode a = .error e) :
    ∀ (ds : List (FieldDescriptor Val E)), d ∈ ds →
      ∃ err, r.decodeFields ds m = .error err ∧
        err.field ∈ ds.map FieldDescriptor.logicalName := by
  intro ds
  induction ds with
  | nil => intro hd; simp at hd
  | cons d0 ds ih =>
    intro hd
    cases h0 : (r.codecOf d0).decode (m.lookup (r.wire d0)) with
    | error e => exact ⟨⟨d0.logicalName, e⟩, by simp [Registry.decodeFields, h0], by simp⟩
    | ok v =>
      simp only [List.mem_cons] at hd
      rcases hd with rfl | hd
      · obtain ⟨e, he⟩ := hfail (m.lookup (r.wire d))
        rw [he] at h0
        cases h0
      · obtain ⟨err, herr, hf⟩ := ih hd
        exact ⟨err, by simp [Registry.decodeFields, h0, herr], by simp [hf]⟩

/-- C24: for an entity type with a field whose custom codec always fails.
When its encode hook rejects every value, `Encode` of every entity returns an
error, naming a field of the type, and no attribute map; when its decode hook
rejects every input, `Decode` of every attribute map returns an error, naming
a field of the type. Both functions are total: the failure is a returned
value. -/
theorem codec_failure_reported (r : Registry Val E) (d : FieldDescriptor Val E)
    (c : CustomCodec Val E) (hd : d ∈ r.fields) (hc : d.custom = some c) :
    ((∀ v, ∃ e, c.encode v = .error e) →
      ∀ entity : List Val, entity.length = r.fields.length →
        ∃ err, r.Encode entity = .error err ∧
          err.field ∈ r.fields.map FieldDescriptor.logicalName) ∧
    ((∀ a, ∃ e, c.decode a = .error e) →
      ∀ m : GoMap AttributeValue,
        ∃ err, r.Decode m = .error err ∧
          err.field ∈ r.fields.map FieldDescriptor.logicalName) := by
  have hcodec : r.codecOf d = c := by simp [Registry.codecOf, hc]
  constructor
  · intro hfail entity hlen
    exact encodeFields_of_failing r d (by rw [hcodec]; exact hfail) r.fields entity _ hd hlen
  · intro hfail m
    exact decodeFields_of_failing r d m (by rw [hcodec]; exact hfail) r.fields hd

theorem codec_failure_reported_witness :
    codecBadType.Encode ["dead", "beef", "a/b/c"] = .error ⟨"Link", "Encode error."⟩ ∧
    (∃ err, codecBadType.Encode ["dead", "beef", ""] = .error err ∧
      err.field ∈ codecBadType.fields.map FieldDescriptor.logicalName) ∧
    (∃ err, codecBadType.Decode ⟨[("prefix", .S "dead"), ("link", .S "a/b/c")]⟩ = .error err ∧
      err.field ∈ codecBadType.fields.map FieldDescriptor.logicalName) :=
  ⟨rfl,
   (codec_failure_reported codecBadType ⟨"Link", "link", .text, true, none, some badCodec⟩ badCodec
      (by simp [codecBadType]) rfl).1 (fun _ => ⟨_, rfl⟩) ["dead", "beef", ""] rfl,
   (codec_failure_reported codecBadType ⟨"Link", "link", .text, true, none, some badCodec⟩ badCodec
      (by simp [codecBadType]) rfl).2 (fun _ => ⟨_, rfl⟩) _⟩

end CodecLaws

/-! ## Tokens across kinds, and what later nodes leave in the tables -/

section Frames

variable {A V : Type}

theorem lookup_storeAll_of_not_mem (kvs : List (String × V)) : ∀ (m : GoMap V) (k : String),
    k ∉ kvs.map Prod.fst → (m.storeAll kvs).lookup k = m.lookup k := by
  induction kvs with
  | nil => intro m k _; rfl
  | cons kv kvs ih =>
    intro m k hk
    simp only [List.map_cons, List.mem_cons, not_or] at hk
    have h := ih (m.store kv.1 kv.2) k hk.2
    simp only [GoMap.storeAll, List.foldl_cons] at h ⊢
    rw [h, GoMap.lookup_store_ne _ _ hk.1]

theorem lookup_storeAll_of_mem (kvs : List (String × V)) : ∀ (m : GoMap V) (k : String) (v : V),
    (kvs.map Prod.fst).Nodup → (k, v) ∈ kvs → (m.storeAll kvs).lookup k = some v := by
  induction kvs with
  | nil => intro m k v _ h; simp at h
  | cons kv kvs ih =>
    intro m k v hnd hmem
    simp only [List.map_cons, List.nodup_cons] at hnd
    simp only [List.mem_cons] at hmem
    rcases hmem with rfl | hmem
    · have h := lookup_storeAll_of_not_mem kvs (m.store k v) k hnd.1
      simp only [GoMap.storeAll, List.foldl_cons] at h ⊢
      rw [h, GoMap.lookup_store_self]
    · have h := ih (m.store kv.1 kv.2) k v hnd.2 hmem
      simpa [GoMap.storeAll] using h

/-- The loop of `inCondition.Apply` leaves every entry of the value table that
is not under one of its tokens as it was. -/
theorem inCondition_loop_lookup (marshal : A → Option V) (key : String) :
    ∀ (seq : List A) (i : Nat) (lets : List String) (values : GoMap V) (t : String),
      (∀ j, i ≤ j → j < i + seq.length → t ≠ ":__c_" ++ key ++ "_" ++ Itoa j ++ "__") →
      (inCondition.loop marshal key seq i lets values).2.lookup t = values.lookup t := by
  intro seq
  induction seq with
  | nil => intro i lets values t _; rfl
  | cons x rest ih =>
    intro i lets values t h
    cases hx : marshal x with
    | none => simp only [inCondition.loop, hx]
    | some m =>
      simp only [inCondition.loop, hx]
      rw [ih (i + 1) _ _ t (fun j h1 h2 => h j (by omega) (by simp only [List.length_cons]; omega))]
      exact GoMap.lookup_store_ne _ _ (h i (Nat.le_refl i) (by simp))

/-- A node leaves every entry of the value table that is not under one of its
binding tokens as it was. -/
theorem apply_values_lookup (marshal : A → Option V) (c : Constraint A) (acc : Accumulator V)
    (t : String) (h : t ∉ c.lets) :
    (c.Apply marshal acc).expressionAttributeValues.lookup t =
      acc.expressionAttributeValues.lookup t := by
  cases c with
  | dyadic c =>
    simp only [Constraint.lets, List.mem_singleton] at h
    simp only [Constraint.Apply, dyadicCondition.Apply]
    split
    · rfl
    · split
      · rfl
      · exact GoMap.lookup_store_ne _ _ h
  | unary c =>
    simp only [Constraint.Apply, unaryCondition.Apply]
    split <;> rfl
  | between c =>
    simp only [Constraint.lets, List.mem_cons, List.mem_singleton, List.not_mem_nil, or_false,
      not_or] at h
    simp only [Constraint.Apply, betweenCondition.Apply]
    split
    · rfl
    · split
      · rfl
      · split
        · rfl
        · show GoMap.lookup (GoMap.store (GoMap.store _ _ _) _ _) t = _
          rw [GoMap.lookup_store_ne _ _ h.2, GoMap.lookup_store_ne _ _ h.1]
  | inSeq c =>
    have hloop := inCondition_loop_lookup marshal c.key c.seq 0 (List.replicate c.seq.length "")
      acc.expressionAttributeValues t (by
        intro j _ hj e
        apply h
        simp only [Constraint.lets, List.mem_map, List.mem_range]
        exact ⟨j, by omega, e.symm⟩)
    simp only [Constraint.Apply, inCondition.Apply]
    split
    · rfl
    · split <;>
      · rename_i heq
        rw [heq] at hloop
        exact hloop
  | functional c =>
    simp only [Constraint.lets, List.mem_singleton] at h
    simp only [Constraint.Apply, functionalCondition.Apply]
    split
    · rfl
    · split
      · rfl
      · exact GoMap.lookup_store_ne _ _ h

/-- A node leaves every entry of the name table that is not under its alias as
it was. -/
theorem apply_names_lookup (marshal : A → Option V) (c : Constraint A) (acc : Accumulator V)
    (t : String) (h : t ≠ c.alias) :
    (c.Apply marshal acc).expressionAttributeNames.lookup t =
      acc.expressionAttributeNames.lookup t := by
  rcases apply_names marshal c acc with e | e
  · rw [e]
  · rw [e, GoMap.lookup_store_ne _ _ h]

theorem fold_values_lookup (marshal : A → Option V) (cs : List (Constraint A)) (t : String) :
    ∀ acc : Accumulator V, (∀ c ∈ cs, t ∉ c.lets) →
      (maybeUpdateConditionExpression marshal acc cs).expressionAttributeValues.lookup t =
        acc.expressionAttributeValues.lookup t := by
  induction cs with
  | nil => intro acc _; rfl
  | cons c cs ih =>
    intro acc h
    have h1 := ih (c.Apply marshal acc) (fun c' hc' => h c' (by simp [hc']))
    simp only [maybeUpdateConditionExpression, List.foldl_cons] at h1 ⊢
    rw [h1, apply_values_lookup marshal c acc t (h c (by simp))]

theorem fold_names_lookup (marshal : A → Option V) (cs : List (Constraint A)) (t : String) :
    ∀ acc : Accumulator V, (∀ c ∈ cs, t ≠ c.alias) →
      (maybeUpdateConditionExpression marshal acc cs).expressionAttributeNames.lookup t =
        acc.expressionAttributeNames.lookup t := by
  induction cs with
  | nil => intro acc _; rfl
  | cons c cs ih =>
    intro acc h
    have h1 := ih (c.Apply marshal acc) (fun c' hc' => h c' (by simp [hc']))
    simp only [maybeUpdateConditionExpression, List.foldl_cons] at h1 ⊢
    rw [h1, apply_names_lookup marshal c acc t (h c (by simp))]

/-- A binding token shared by a single-operand node and a `Between` or `In`
node: the field of the former is the field of the latter followed by `_` and
the suffix of that token. -/
theorem lets_cross (c1 c2 : Constraint A) (t : String) (h1 : t ∈ c1.lets) (h2 : t ∈ c2.lets)
    (hs : c1.singleOperand = true) (hm : c2.manyOperand = true) :
    ∃ r, ":__c_" ++ c2.key ++ "_" ++ r ++ "__" ∈ c2.lets ∧ c1.key = c2.key ++ "_" ++ r := by
  have hA : ∀ k : String, ":__c_" ++ k ++ "_a__" = ":__c_" ++ k ++ "_" ++ "a" ++ "__" := by
    intro k
    apply String.ext
    simp [String.data_append]
  have hB : ∀ k : String, ":__c_" ++ k ++ "_b__" = ":__c_" ++ k ++ "_" ++ "b" ++ "__" := by
    intro k
    apply String.ext
    simp [String.data_append]
  have hR : ∀ k r : String, ":__c_" ++ k ++ "_" ++ r ++ "__" = ":__c_" ++ (k ++ "_" ++ r) ++ "__" := by
    intro k r
    simp only [String.append_assoc]
  have key : ∀ k1 : String, t = ":__c_" ++ k1 ++ "__" →
      ∃ r, ":__c_" ++ c2.key ++ "_" ++ r ++ "__" ∈ c2.lets ∧ k1 = c2.key ++ "_" ++ r := by
    intro k1 ht
    cases c2 with
    | dyadic c => simp [Constraint.manyOperand] at hm
    | unary c => simp [Constraint.manyOperand] at hm
    | functional c => simp [Constraint.manyOperand] at hm
    | between c =>
      simp only [Constraint.lets, List.mem_cons, List.mem_singleton, List.not_mem_nil,
        or_false] at h2
      rcases h2 with h2 | h2
      · refine ⟨"a", by simp [Constraint.lets, Constraint.key, ← hA], ?_⟩
        have e := ht.symm.trans h2
        rw [hA, hR] at e
        exact let_inj e
      · refine ⟨"b", by simp [Constraint.lets, Constraint.key, ← hB], ?_⟩
        have e := ht.symm.trans h2
        rw [hB, hR] at e
        exact let_inj e
    | inSeq c =>
      simp only [Constraint.lets, List.mem_map, List.mem_range] at h2
      obtain ⟨j, hj, h2⟩ := h2
      refine ⟨Itoa j, ?_, ?_⟩
      · simp only [Constraint.lets, Constraint.key, List.mem_map, List.mem_range]
        exact ⟨j, hj, rfl⟩
      · have e := ht.symm.trans h2.symm
        rw [hR] at e
        exact let_inj e
  cases c1 with
  | dyadic c =>
    simp only [Constraint.lets, List.mem_singleton] at h1
    exact key c.key h1
  | functional c =>
    simp only [Constraint.lets, List.mem_singleton] at h1
    exact key c.key h1
  | unary c => simp [Constraint.singleOperand] at hs
  | between c => simp [Constraint.singleOperand] at hs
  | inSeq c => simp [Constraint.singleOperand] at hs

/-- Nodes on different fields have no binding token in common, unless the
field of a single-operand node is the field of a `Between` or `In` node
followed by `_` and the suffix of one of its tokens. -/
theorem lets_disjoint_across (c1 c2 : Constraint A) (hk : c1.key ≠ c2.key)
    (h12 : c1.singleOperand = true → c2.manyOperand = true →
      ∀ r, ":__c_" ++ c2.key ++ "_" ++ r ++ "__" ∈ c2.lets → c1.key ≠ c2.key ++ "_" ++ r)
    (h21 : c2.singleOperand = true → c1.manyOperand = true →
      ∀ r, ":__c_" ++ c1.key ++ "_" ++ r ++ "__" ∈ c1.lets → c2.key ≠ c1.key ++ "_" ++ r)
    (t : String) (h1 : t ∈ c1.lets) (h2 : t ∈ c2.lets) : False := by
  by_cases hcl : (c1.singleOperand = false ∧ c2.singleOperand = false) ∨
      (c1.manyOperand = false ∧ c2.manyOperand = false)
  · exact lets_disjoint c1 c2 hk hcl t h1 h2
  · have hx : (c1.singleOperand = true ∧ c2.manyOperand = true) ∨
        (c2.singleOperand = true ∧ c1.manyOperand = true) := by
      cases c1 <;> cases c2 <;>
        simp [Constraint.singleOperand, Constraint.manyOperand] at hcl ⊢
    rcases hx with ⟨a, b⟩ | ⟨a, b⟩
    · obtain ⟨r, hr, e⟩ := lets_cross c1 c2 t h1 h2 a b
      exact h12 a b r hr e
    · obtain ⟨r, hr, e⟩ := lets_cross c2 c1 t h2 h1 a b
      exact h21 a b r hr e

theorem lets_length (c : Constraint A) : c.lets.length = c.operands.length := by
  cases c <;> simp [Constraint.lets, Constraint.operands]

/-- After a list of nodes whose binding tokens are those of no other node of
the list, every token of an emitting node is bound to its own operand. -/
theorem fold_values_own (marshal : A → Option V) (pre post : List (Constraint A))
    (c : Constraint A) (acc : Accumulator V) (ms : List V) (hk : c.key ≠ "")
    (hm : c.operands.map marshal = ms.map some)
    (hpost : ∀ c' ∈ post, ∀ t ∈ c.lets, t ∉ c'.lets) :
    ∀ tv ∈ c.lets.zip ms,
      (maybeUpdateConditionExpression marshal acc
        (pre ++ c :: post)).expressionAttributeValues.lookup tv.1 = some tv.2 := by
  intro tv htv
  have hlen : c.lets.length ≤ ms.length := by
    have h1 : c.operands.length = ms.length := by simpa using congrArg List.length hm
    rw [lets_length, h1]
  have hfst : (c.lets.zip ms).map Prod.fst = c.lets := List.map_fst_zip _ _ hlen
  have hmem : tv.1 ∈ c.lets := (List.of_mem_zip htv).1
  have hsplit : maybeUpdateConditionExpression marshal acc (pre ++ c :: post) =
      maybeUpdateConditionExpression marshal
        (c.Apply marshal (maybeUpdateConditionExpression marshal acc pre)) post := by
    simp [maybeUpdateConditionExpression, List.foldl_append]
  rw [hsplit, fold_values_lookup marshal post tv.1 _ (fun c' hc' => hpost c' hc' tv.1 hmem),
    apply_of_marshals marshal c ms _ hk hm]
  exact lookup_storeAll_of_mem _ _ tv.1 tv.2 (by rw [hfst]; exact lets_nodup c) htv

end Frames

/-! ## Binding tokens across kinds -/

section AcrossKinds

variable {A V : Type}

/-- C29, as the code has it: for condition nodes of any kinds on pairwise distinct
fields, the binding tokens they generate are pairwise distinct, and after all
nodes are applied every token of a node that emitted is still bound to that
node's own operand, provided the field of no single-operand node (a
comparison, `HasPrefix`, `Contains`) is the field of a `Between` or `In` node
of the list followed by `_` and the suffix of one of its tokens (`a`, `b`, or
an index of the `In` node). -/
theorem binding_tokens_across_kinds (marshal : A → Option V) (cs : List (Constraint A))
    (hkeys : (cs.map Constraint.key).Nodup)
    (hmix : ∀ c1 ∈ cs, ∀ c2 ∈ cs, c1.singleOperand = true → c2.manyOperand = true →
      ∀ r, ":__c_" ++ c2.key ++ "_" ++ r ++ "__" ∈ c2.lets → c1.key ≠ c2.key ++ "_" ++ r) :
    (cs.flatMap (Constraint.bindingTokens marshal)).Nodup ∧
    (∀ acc : Accumulator V, ∀ c ∈ cs, c.key ≠ "" →
      ∀ ms, c.operands.map marshal = ms.map some → ∀ tv ∈ c.lets.zip ms,
        (maybeUpdateConditionExpression marshal acc cs).expressionAttributeValues.lookup tv.1 =
          some tv.2) := by
  have hp : cs.Pairwise (fun a b => a.key ≠ b.key) := by
    simpa [List.Nodup, List.pairwise_map] using hkeys
  constructor
  · rw [List.nodup_flatMap]
    refine ⟨fun c _ => bindingTokens_nodup marshal c, ?_⟩
    refine (List.Pairwise.and_mem.mp hp).imp ?_
    rintro a b ⟨ha, hb, hab⟩ t h1 h2
    exact lets_disjoint_across a b hab (hmix a ha b hb) (hmix b hb a ha) t
      (mem_bindingTokens marshal a t h1) (mem_bindingTokens marshal b t h2)
  · intro acc c hc hk ms hm tv htv
    obtain ⟨pre, post, rfl⟩ := List.append_of_mem hc
    refine fold_values_own marshal pre post c acc ms hk hm ?_ tv htv
    intro c' hc' t ht ht'
    have hne : c.key ≠ c'.key := by
      rw [List.pairwise_append] at hp
      exact (List.pairwise_cons.mp hp.2.1).1 c' hc'
    have m1 : c ∈ pre ++ c :: post := by simp
    have m2 : c' ∈ pre ++ c :: post := by simp [hc']
    exact lets_disjoint_across c c' hne (hmix c m1 c' m2) (hmix c' m2 c m1) t ht ht'

theorem binding_tokens_across_kinds_witness :
    ([(⟨"x"⟩ : ConditionExpression String).Between "1" "2",
      (⟨"y"⟩ : ConditionExpression String).Eq "3"].flatMap
        (Constraint.bindingTokens fun s : String => some s)).Nodup ∧
    (maybeUpdateConditionExpression (fun s : String => some s) Accumulator.empty
      [(⟨"x"⟩ : ConditionExpression String).Between "1" "2",
       (⟨"y"⟩ : ConditionExpression String).Eq "3"]).expressionAttributeValues.lookup
        ":__c_x_b__" = some "2" := by
  have h := binding_tokens_across_kinds (fun s : String => some s)
    [(⟨"x"⟩ : ConditionExpression String).Between "1" "2",
     (⟨"y"⟩ : ConditionExpression String).Eq "3"] (by decide) (by
      intro c1 h1 c2 h2 hs hm r _ e
      simp only [List.mem_cons, List.mem_singleton, List.not_mem_nil, or_false] at h1 h2
      rcases h1 with rfl | rfl
      · exact absurd hs (by decide)
      · rcases h2 with rfl | rfl
        · have e' : ("y" : String) = "x" ++ "_" ++ r := e
          have e2 := congrArg String.data e'
          simp [String.data_append] at e2
        · exact absurd hm (by decide))
  exact ⟨h.1, h.2 Accumulator.empty ((⟨"x"⟩ : ConditionExpression String).Between "1" "2")
    (by simp) (by decide) ["1", "2"] rfl (":__c_x_b__", "2") (by decide)⟩

/-- C29 as stated fails: on the distinct non-empty fields `x` and `x_1`, an
`In` node and an `Eq` node both generate the binding token `:__c_x_1__`, and
after both are applied the second operand of the `In` node is gone from the
value table; likewise `Between` on `x` and `HasPrefix` on `x_b` share
`:__c_x_b__`. -/
theorem binding_tokens_collide_across_kinds :
    ([(⟨"x"⟩ : ConditionExpression String).In ["1", "2"],
      (⟨"x_1"⟩ : ConditionExpression String).Eq "3"].map Constraint.key).Nodup ∧
    ¬ ([(⟨"x"⟩ : ConditionExpression String).In ["1", "2"],
        (⟨"x_1"⟩ : ConditionExpression String).Eq "3"].flatMap
          (Constraint.bindingTokens fun s : String => some s)).Nodup ∧
    (maybeUpdateConditionExpression (fun s : String => some s) Accumulator.empty
        [(⟨"x"⟩ : ConditionExpression String).In ["1", "2"],
         (⟨"x_1"⟩ : ConditionExpression String).Eq "3"]).expressionAttributeValues =
      ⟨[(":__c_x_0__", "1"), (":__c_x_1__", "3")]⟩ ∧
    (maybeUpdateConditionExpression (fun s : String => some s) Accumulator.empty
        [(⟨"x"⟩ : ConditionExpression String).Between "1" "2",
         (⟨"x_b"⟩ : ConditionExpression String).HasPrefix "3"]).expressionAttributeValues =
      ⟨[(":__c_x_a__", "1"), (":__c_x_b__", "3")]⟩ := by
  refine ⟨by decide, by decide, by decide, by decide⟩

end AcrossKinds

/-! ## Update: the entries of the SET clauses under the conditions -/

section SetEntries

variable {T E A : Type}

theorem lets_form (c : Constraint A) (t : String) (h : t ∈ c.lets) :
    ∃ r, t = ":__" ++ ("c_" ++ r) ++ "__" := by
  have hR : ∀ r : String, ":__c_" ++ r ++ "__" = ":__" ++ ("c_" ++ r) ++ "__" := by
    intro r
    apply String.ext
    simp [String.data_append]
  have hA : ∀ k : String, ":__c_" ++ k ++ "_a__" = ":__c_" ++ (k ++ "_a") ++ "__" := by
    intro k
    apply String.ext
    simp [String.data_append]
  have hB : ∀ k : String, ":__c_" ++ k ++ "_b__" = ":__c_" ++ (k ++ "_b") ++ "__" := by
    intro k
    apply String.ext
    simp [String.data_append]
  cases c with
  | dyadic c =>
    simp only [Constraint.lets, List.mem_singleton] at h
    exact ⟨c.key, by rw [h, hR]⟩
  | unary c => simp [Constraint.lets] at h
  | between c =>
    simp only [Constraint.lets, List.mem_cons, List.mem_singleton, List.not_mem_nil,
      or_false] at h
    rcases h with h | h
    · exact ⟨c.key ++ "_a", by rw [h, hA, hR]⟩
    · exact ⟨c.key ++ "_b", by rw [h, hB, hR]⟩
  | inSeq c =>
    simp only [Constraint.lets, List.mem_map, List.mem_range] at h
    obtain ⟨j, _, rfl⟩ := h
    exact ⟨c.key ++ "_" ++ Itoa j, by rw [← hR]; simp only [String.append_assoc]⟩
  | functional c =>
    simp only [Constraint.lets, List.mem_singleton] at h
    exact ⟨c.key, by rw [h, hR]⟩

theorem alias_form (c : Constraint A) : c.alias = "#__" ++ ("c_" ++ c.key) ++ "__" := by
  apply String.ext
  simp [Constraint.alias, String.data_append]

/-- C28, as the code has it: in the request `Update` sends, the entries of the SET
clause of an attribute `k` are as the loop over the encoded entity made them
unless a condition generated the same token. The alias `#__k__` maps to `k`
when it is the alias of no condition, the binding `:__k__` holds the encoded
value of `k` when it is a binding token of no condition, and both hold for
every attribute whose name does not begin with `c_`. -/
theorem Update_set_entries_kept (recover : E → Bool) (marshal : A → Option AttributeValue)
    (db : Storage T E) (entity : T) (config : List (Constraint A)) (gen : GoMap AttributeValue)
    (henc : db.codec.Encode entity = (gen, none)) (hnd : gen.keys.Nodup) :
    ∃ req names values, (db.Update recover marshal entity config).calls = [req] ∧
      req.ExpressionAttributeNames = some names ∧
      req.ExpressionAttributeValues = some values ∧
      ∀ kv ∈ gen.entries, db.isPatched kv.1 = true →
        ((∀ c ∈ config, c.alias ≠ "#__" ++ kv.1 ++ "__") →
          names.lookup ("#__" ++ kv.1 ++ "__") = some kv.1) ∧
        ((∀ c ∈ config, ":__" ++ kv.1 ++ "__" ∉ c.lets) →
          values.lookup (":__" ++ kv.1 ++ "__") = some kv.2) ∧
        ((∀ r, kv.1 ≠ "c_" ++ r) →
          names.lookup ("#__" ++ kv.1 ++ "__") = some kv.1 ∧
          values.lookup (":__" ++ kv.1 ++ "__") = some kv.2) := by
  obtain ⟨req, h1, h2⟩ := Update_of_encoded recover marshal db entity config gen henc
  have hreq := updateRequest_eq db gen hnd
  have hc := conditionRequest_of_tables marshal config (db.updateRequest gen)
    ⟨(gen.entries.filter fun e => db.isPatched e.1).map fun e => ("#__" ++ e.1 ++ "__", e.1)⟩
    ⟨(gen.entries.filter fun e => db.isPatched e.1).map fun e => (":__" ++ e.1 ++ "__", e.2)⟩
    (by rw [hreq]) (by rw [hreq])
  rw [h1] at hc
  cases hc
  have hsub : ((gen.entries.filter fun e => db.isPatched e.1).map Prod.fst).Nodup :=
    List.Nodup.sublist ((List.filter_sublist _).map _) hnd
  have hnames : ∀ kv ∈ gen.entries, db.isPatched kv.1 = true →
      (⟨(gen.entries.filter fun e => db.isPatched e.1).map fun e =>
        ("#__" ++ e.1 ++ "__", e.1)⟩ : GoMap String).lookup ("#__" ++ kv.1 ++ "__") =
        some kv.1 := by
    intro kv hkv hp
    apply GoMap.lookupEntries_of_mem
    · rw [List.map_map]
      exact (List.nodup_map_iff (f := fun x : String => "#__" ++ x ++ "__")
        (fun a b e => hash_token_inj e)).mpr hsub |> fun h => by simpa [List.map_map] using h
    · exact List.mem_map.mpr ⟨kv, List.mem_filter.mpr ⟨hkv, hp⟩, rfl⟩
  have hvalues : ∀ kv ∈ gen.entries, db.isPatched kv.1 = true →
      (⟨(gen.entries.filter fun e => db.isPatched e.1).map fun e =>
        (":__" ++ e.1 ++ "__", e.2)⟩ : GoMap AttributeValue).lookup (":__" ++ kv.1 ++ "__") =
        some kv.2 := by
    intro kv hkv hp
    apply GoMap.lookupEntries_of_mem
    · rw [List.map_map]
      exact (List.nodup_map_iff (f := fun x : String => ":__" ++ x ++ "__")
        (fun a b e => colon_token_inj e)).mpr hsub |> fun h => by simpa [List.map_map] using h
    · exact List.mem_map.mpr ⟨kv, List.mem_filter.mpr ⟨hkv, hp⟩, rfl⟩
  refine ⟨_, _, _, by rw [h2, updateItem_calls], rfl, rfl, ?_⟩
  intro kv hkv hp
  have hN : (∀ c ∈ config, c.alias ≠ "#__" ++ kv.1 ++ "__") →
      (maybeUpdateConditionExpression marshal
        ⟨(db.updateRequest gen).ConditionExpression,
          ⟨(gen.entries.filter fun e => db.isPatched e.1).map fun e =>
            ("#__" ++ e.1 ++ "__", e.1)⟩,
          ⟨(gen.entries.filter fun e => db.isPatched e.1).map fun e =>
            (":__" ++ e.1 ++ "__", e.2)⟩⟩
        config).expressionAttributeNames.lookup ("#__" ++ kv.1 ++ "__") = some kv.1 := fun h =>
    (fold_names_lookup marshal config ("#__" ++ kv.1 ++ "__") _
      (fun c hc e => h c hc e.symm)).trans (hnames kv hkv hp)
  have hV : (∀ c ∈ config, ":__" ++ kv.1 ++ "__" ∉ c.lets) →
      (maybeUpdateConditionExpression marshal
        ⟨(db.updateRequest gen).ConditionExpression,
          ⟨(gen.entries.filter fun e => db.isPatched e.1).map fun e =>
            ("#__" ++ e.1 ++ "__", e.1)⟩,
          ⟨(gen.entries.filter fun e => db.isPatched e.1).map fun e =>
            (":__" ++ e.1 ++ "__", e.2)⟩⟩
        config).expressionAttributeValues.lookup (":__" ++ kv.1 ++ "__") = some kv.2 := fun h =>
    (fold_values_lookup marshal config (":__" ++ kv.1 ++ "__") _ h).trans (hvalues kv hkv hp)
  refine ⟨hN, hV, fun hr => ⟨hN ?_, hV ?_⟩⟩
  · intro c _ e
    rw [alias_form] at e
    exact hr c.key (hash_token_inj e).symm
  · intro c _ ht
    obtain ⟨r, e⟩ := lets_form c _ ht
    exact hr r (colon_token_inj e)

theorem Update_set_entries_kept_witness :
    ∃ req names values,
      ((mockStorage mockDDB mockCodec).Update (fun _ => false) (fun s : String => some (.S s))
        mockItem [(⟨"name"⟩ : ConditionExpression String).Eq "Verner Pleishner"]).calls = [req] ∧
      req.ExpressionAttributeNames = some names ∧
      req.ExpressionAttributeValues = some values ∧
      names.lookup "#__age__" = some "age" ∧ values.lookup ":__age__" = some (.N "64") := by
  obtain ⟨req, names, values, h1, h2, h3, h4⟩ :=
    Update_set_entries_kept (fun _ => false) (fun s : String => some (.S s))
      (mockStorage mockDDB mockCodec) mockItem
      [(⟨"name"⟩ : ConditionExpression String).Eq "Verner Pleishner"] mockItem rfl (by decide)
  exact ⟨req, names, values, h1, h2, h3,
    (h4 ("age", .N "64") (by simp [mockItem]) (by decide)).2.2 (fun r e => by
      have e2 := congrArg String.data e
      simp [String.data_append] at e2)⟩

/-- C28 as stated fails: for an entity with the attributes `c_name` and `name`
and the condition `Eq` on the field `name`, the condition stores its alias and
its binding under the tokens of the SET clause of `c_name`: in the request
`#__c_name__` maps to `name` and `:__c_name__` holds the operand of the
condition. -/
theorem Update_set_entries_overwritten :
    (((mockStorage mockDDB mockCodec).Update (fun _ => false) (fun s : String => some (.S s))
        ⟨[("prefix", .S "dead"), ("suffix", .S "beef"), ("c_name", .S "x"), ("name", .S "Joe")]⟩
        [(⟨"name"⟩ : ConditionExpression String).Eq "Ann"]).calls.map fun req =>
          (req.UpdateExpression, req.ConditionExpression, req.ExpressionAttributeNames,
            req.ExpressionAttributeValues)) =
      [(some "SET #__c_name__=:__c_name__,#__name__=:__name__",
        some "(#__c_name__ = :__c_name__)",
        some ⟨[("#__c_name__", "name"), ("#__name__", "name")]⟩,
        some ⟨[(":__c_name__", .S "Ann"), (":__name__", .S "Joe")]⟩)] := by
  rfl

end SetEntries

/-! ## Update: the flags of `PreConditionFailed` -/

section Flags

variable {T E A : Type}

theorem infix_append_cases {α : Type} (p x y : List α) (h : p <:+: x ++ y) :
    p <:+: x ∨ p <:+: y ∨
      ∃ i, i < p.length ∧ 0 < i ∧ p.take i <:+ x ∧ p.drop i <+: y := by
  obtain ⟨s, t, e⟩ := h
  rcases List.append_eq_append_iff.mp e with ⟨a, hx, ht⟩ | ⟨c, hsp, hy⟩
  · exact Or.inl ⟨s, a, hx.symm⟩
  · rcases List.append_eq_append_iff.mp hsp with ⟨a, hx, hp⟩ | ⟨d, hs, hc⟩
    · by_cases hc0 : c = []
      · subst hc0
        simp only [List.append_nil] at hp
        exact Or.inl ⟨s, [], by simp [hx, hp]⟩
      · by_cases ha0 : a = []
        · subst ha0
          simp only [List.nil_append] at hp
          exact Or.inr (Or.inl ⟨[], t, by simp [hy, hp]⟩)
        · refine Or.inr (Or.inr ⟨a.length, ?_, ?_, ?_, ?_⟩)
          · rw [hp, List.length_append]
            have : 0 < c.length := List.length_pos.mpr hc0
            omega
          · exact List.length_pos.mpr ha0
          · rw [hp, List.take_left']
            · exact ⟨s, hx.symm⟩
            · rfl
          · rw [hp, List.drop_left']
            · exact ⟨t, hy.symm⟩
            · rfl
    · exact Or.inr (Or.inl ⟨d, t, by simp [hy, hc]⟩)

/-- The text `p` does not occur in `L ++ R` when it occurs in neither part and
no proper beginning of it ends `L`. -/
theorem not_infix_after_literal (p L R : List Char) (h1 : ¬ p <:+: L)
    (h2 : ∀ i, i < p.length → 0 < i → ¬ p.take i <:+ L) (hR : ¬ p <:+: R) :
    ¬ p <:+: L ++ R := by
  intro h
  rcases infix_append_cases p L R h with h | h | ⟨i, hi, h0, hs, _⟩
  · exact h1 h
  · exact hR h
  · exact h2 i hi h0 hs

/-- The text `p` does not occur in `k ++ (L ++ R)` when it occurs in neither
part and no proper ending of it begins `L` or runs through the whole of `L`. -/
theorem not_infix_before_literal (p k L R : List Char) (hk : ¬ p <:+: k)
    (hLR : ¬ p <:+: L ++ R)
    (h3 : ∀ i, i < p.length → 0 < i → ¬ p.drop i <+: L ∧ ¬ L <+: p.drop i) :
    ¬ p <:+: k ++ (L ++ R) := by
  intro h
  rcases infix_append_cases p k (L ++ R) h with h | h | ⟨i, hi, h0, _, hpre⟩
  · exact hk h
  · exact hLR h
  · rcases List.prefix_or_prefix_of_prefix hpre (List.prefix_append L R) with h | h
    · exact (h3 i hi h0).1 h
    · exact (h3 i hi h0).2 h

/-- A text occurs in `L1 ++ k ++ L3` exactly when it occurs in `k`, for
literals `L1` and `L3` that it neither occurs in nor overlaps. -/
theorem infix_unary_shape (p L1 L3 k : List Char)
    (a1 : ¬ p <:+: L1) (a3 : ¬ p <:+: L3)
    (b1 : ∀ i, i < p.length → 0 < i → ¬ p.take i <:+ L1)
    (b3 : ∀ i, i < p.length → 0 < i → ¬ p.drop i <+: L3 ∧ ¬ L3 <+: p.drop i) :
    p <:+: L1 ++ (k ++ L3) ↔ p <:+: k := by
  constructor
  · intro h
    by_contra hk
    have h3 : ¬ p <:+: k ++ (L3 ++ []) :=
      not_infix_before_literal p k L3 [] hk (by simpa using a3) b3
    exact not_infix_after_literal p L1 _ a1 b1 (by simpa using h3) h
  · intro h
    exact h.trans ⟨L1, L3, by simp⟩

/-- A text occurs in `L1 ++ k ++ L2 ++ k ++ L3` exactly when it occurs in `k`,
for literals that it neither occurs in nor overlaps. -/
theorem infix_dyadic_shape (p L1 L2 L3 k : List Char)
    (a1 : ¬ p <:+: L1) (a2 : ¬ p <:+: L2) (a3 : ¬ p <:+: L3)
    (b1 : ∀ i, i < p.length → 0 < i → ¬ p.take i <:+ L1)
    (b2 : ∀ i, i < p.length → 0 < i →
      ¬ p.take i <:+ L2 ∧ ¬ p.drop i <+: L2 ∧ ¬ L2 <+: p.drop i)
    (b3 : ∀ i, i < p.length → 0 < i → ¬ p.drop i <+: L3 ∧ ¬ L3 <+: p.drop i) :
    p <:+: L1 ++ (k ++ (L2 ++ (k ++ L3))) ↔ p <:+: k := by
  constructor
  · intro h
    by_contra hk
    have h3 : ¬ p <:+: L2 ++ (k ++ L3) :=
      not_infix_after_literal p L2 _ a2 (fun i hi h0 => (b2 i hi h0).1)
        (fun h' => hk ((infix_unary_shape p [] L3 k (by
          intro h0
          have hp : p = [] := List.eq_nil_of_infix_nil h0
          exact hk (hp ▸ (List.nil_infix : [] <:+: k))) a3 (by
          intro i hi h0 hs
          have hp : p.take i = [] := List.eq_nil_of_suffix_nil hs
          have hl := congrArg List.length hp
          simp only [List.length_take, List.length_nil] at hl
          omega) b3).mp (by simpa using h')))
    have h2 : ¬ p <:+: k ++ (L2 ++ (k ++ L3)) :=
      not_infix_before_literal p k L2 _ hk h3 (fun i hi h0 => (b2 i hi h0).2)
    exact not_infix_after_literal p L1 _ a1 b1 h2 h
  · intro h
    exact h.trans ⟨L1, L2 ++ (k ++ L3), by simp⟩

theorem Contains_literal (s p : String) (L R X : List Char) (hs : s.data = L ++ (X ++ R))
    (hp : p.data <:+: X) : Contains s p = true := by
  simp only [Contains, decide_eq_true_eq, hs]
  exact hp.trans ⟨L, R, by simp⟩

theorem expr_Eq_data (k : String) (v : A) :
    ((⟨k⟩ : ConditionExpression A).Eq v).expr.data =
      "(#__c_".data ++ (k.data ++ ("__ = :__c_".data ++ (k.data ++ "__)".data))) := by
  simp [ConditionExpression.Eq, Constraint.expr, Constraint.alias, Constraint.key,
    String.data_append]

theorem expr_Ne_data (k : String) (v : A) :
    ((⟨k⟩ : ConditionExpression A).Ne v).expr.data =
      "(#__c_".data ++ (k.data ++ ("__ <> :__c_".data ++ (k.data ++ "__)".data))) := by
  simp [ConditionExpression.Ne, Constraint.expr, Constraint.alias, Constraint.key,
    String.data_append]

theorem expr_Exists_data (k : String) :
    ((⟨k⟩ : ConditionExpression A).Exists).expr.data =
      "(attribute_exists(#__c_".data ++ (k.data ++ "__))".data) := by
  simp [ConditionExpression.Exists, Constraint.expr, Constraint.alias, Constraint.key,
    String.data_append]

theorem expr_NotExists_data (k : String) :
    ((⟨k⟩ : ConditionExpression A).NotExists).expr.data =
      "(attribute_not_exists(#__c_".data ++ (k.data ++ "__))".data) := by
  simp [ConditionExpression.NotExists, Constraint.expr, Constraint.alias, Constraint.key,
    String.data_append]

/-- What `strings.Contains` finds in the fragment of an `Eq` node. -/
theorem flags_Eq (k : String) (v : A) :
    (Contains ((⟨k⟩ : ConditionExpression A).Eq v).expr "attribute_not_exists" ||
      Contains ((⟨k⟩ : ConditionExpression A).Eq v).expr "=") = true ∧
    (Contains ((⟨k⟩ : ConditionExpression A).Eq v).expr "attribute_exists" ||
      Contains ((⟨k⟩ : ConditionExpression A).Eq v).expr "<>") =
      (Contains k "attribute_exists" || Contains k "<>") := by
  have h1 : Contains ((⟨k⟩ : ConditionExpression A).Eq v).expr "=" = true := by
    have hd := expr_Eq_data k v
    rw [← List.append_assoc] at hd
    exact Contains_literal _ _ _ _ _ hd (by decide)
  have h2 : Contains ((⟨k⟩ : ConditionExpression A).Eq v).expr "attribute_exists" =
      Contains k "attribute_exists" := by
    simp only [Contains, expr_Eq_data]
    exact decide_eq_decide.mpr (infix_dyadic_shape _ _ _ _ _ (by decide) (by decide) (by decide)
      (by decide) (by decide) (by decide))
  have h3 : Contains ((⟨k⟩ : ConditionExpression A).Eq v).expr "<>" = Contains k "<>" := by
    simp only [Contains, expr_Eq_data]
    exact decide_eq_decide.mpr (infix_dyadic_shape _ _ _ _ _ (by decide) (by decide) (by decide)
      (by decide) (by decide) (by decide))
  rw [h1, h2, h3]
  simp

/-- What `strings.Contains` finds in the fragment of a `Ne` node. -/
theorem flags_Ne (k : String) (v : A) :
    (Contains ((⟨k⟩ : ConditionExpression A).Ne v).expr "attribute_not_exists" ||
      Contains ((⟨k⟩ : ConditionExpression A).Ne v).expr "=") =
      (Contains k "attribute_not_exists" || Contains k "=") ∧
    (Contains ((⟨k⟩ : ConditionExpression A).Ne v).expr "attribute_exists" ||
      Contains ((⟨k⟩ : ConditionExpression A).Ne v).expr "<>") = true := by
  have h1 : Contains ((⟨k⟩ : ConditionExpression A).Ne v).expr "<>" = true := by
    have hd := expr_Ne_data k v
    rw [← List.append_assoc] at hd
    exact Contains_literal _ _ _ _ _ hd (by decide)
  have h2 : Contains ((⟨k⟩ : ConditionExpression A).Ne v).expr "attribute_not_exists" =
      Contains k "attribute_not_exists" := by
    simp only [Contains, expr_Ne_data]
    exact decide_eq_decide.mpr (infix_dyadic_shape _ _ _ _ _ (by decide) (by decide) (by decide)
      (by decide) (by decide) (by decide))
  have h3 : Contains ((⟨k⟩ : ConditionExpression A).Ne v).expr "=" = Contains k "=" := by
    simp only [Contains, expr_Ne_data]
    exact decide_eq_decide.mpr (infix_dyadic_shape _ _ _ _ _ (by decide) (by decide) (by decide)
      (by decide) (by decide) (by decide))
  rw [h1, h2, h3]
  simp

/-- What `strings.Contains` finds in the fragment of an `Exists` node. -/
theorem flags_Exists (k : String) :
    (Contains ((⟨k⟩ : ConditionExpression A).Exists).expr "attribute_not_exists" ||
      Contains ((⟨k⟩ : ConditionExpression A).Exists).expr "=") =
      (Contains k "attribute_not_exists" || Contains k "=") ∧
    (Contains ((⟨k⟩ : ConditionExpression A).Exists).expr "attribute_exists" ||
      Contains ((⟨k⟩ : ConditionExpression A).Exists).expr "<>") = true := by
  have h1 : Contains ((⟨k⟩ : ConditionExpression A).Exists).expr "attribute_exists" = true := by
    have hd : ((⟨k⟩ : ConditionExpression A).Exists).expr.data =
        [] ++ ("(attribute_exists(#__c_".data ++ (k.data ++ "__))".data)) := by
      rw [expr_Exists_data, List.nil_append]
    exact Contains_literal _ _ _ _ _ hd (by decide)
  have h2 : Contains ((⟨k⟩ : ConditionExpression A).Exists).expr "attribute_not_exists" =
      Contains k "attribute_not_exists" := by
    simp only [Contains, expr_Exists_data]
    exact decide_eq_decide.mpr (infix_unary_shape _ _ _ _ (by decide) (by decide) (by decide)
      (by decide))
  have h3 : Contains ((⟨k⟩ : ConditionExpression A).Exists).expr "=" = Contains k "=" := by
    simp only [Contains, expr_Exists_data]
    exact decide_eq_decide.mpr (infix_unary_shape _ _ _ _ (by decide) (by decide) (by decide)
      (by decide))
  rw [h1, h2, h3]
  simp

/-- What `strings.Contains` finds in the fragment of a `NotExists` node. -/
theorem flags_NotExists (k : String) :
    (Contains ((⟨k⟩ : ConditionExpression A).NotExists).expr "attribute_not_exists" ||
      Contains ((⟨k⟩ : ConditionExpression A).NotExists).expr "=") = true ∧
    (Contains ((⟨k⟩ : ConditionExpression A).NotExists).expr "attribute_exists" ||
      Contains ((⟨k⟩ : ConditionExpression A).NotExists).expr "<>") =
      (Contains k "attribute_exists" || Contains k "<>") := by
  have h1 : Contains ((⟨k⟩ : ConditionExpression A).NotExists).expr "attribute_not_exists" =
      true := by
    have hd : ((⟨k⟩ : ConditionExpression A).NotExists).expr.data =
        [] ++ ("(attribute_not_exists(#__c_".data ++ (k.data ++ "__))".data)) := by
      rw [expr_NotExists_data, List.nil_append]
    exact Contains_literal _ _ _ _ _ hd (by decide)
  have h2 : Contains ((⟨k⟩ : ConditionExpression A).NotExists).expr "attribute_exists" =
      Contains k "attribute_exists" := by
    simp only [Contains, expr_NotExists_data]
    exact decide_eq_decide.mpr (infix_unary_shape _ _ _ _ (by decide) (by decide) (by decide)
      (by decide))
  have h3 : Contains ((⟨k⟩ : ConditionExpression A).NotExists).expr "<>" = Contains k "<>" := by
    simp only [Contains, expr_NotExists_data]
    exact decide_eq_decide.mpr (infix_unary_shape _ _ _ _ (by decide) (by decide) (by decide)
      (by decide))
  rw [h1, h2, h3]
  simp

theorem conditionRequest_single (marshal : A → Option AttributeValue)
    (req0 req : UpdateItemInput) (c : Constraint A) (ms : List AttributeValue)
    (hk : c.key ≠ "") (hm : c.operands.map marshal = ms.map some)
    (h0 : req0.ConditionExpression = none)
    (h : conditionRequest marshal req0 [c] = some req) :
    req.ConditionExpression = some c.expr := by
  simp only [conditionRequest, List.foldlM_cons, Option.bind_eq_bind] at h
  cases h1 : applyToRequest marshal req0 c with
  | none => rw [h1] at h; cases h
  | some r1 =>
    rw [h1] at h
    simp only [Option.some_bind, List.foldlM_nil] at h
    cases h
    simp only [applyToRequest] at h1
    split at h1
    · cases h1
    · cases h1
      simp [apply_of_marshals marshal c ms _ hk hm, h0, conjoin]

theorem updateItem_rejected (recover : E → Bool) (db : Storage T E) (req : UpdateItemInput)
    (entity : T) (err : E) (ce : String) (hrej : db.service.UpdateItem req = .error err)
    (hccf : recover err = true) (hce : req.ConditionExpression = some ce) :
    (db.updateItem recover req entity).result =
      some (db.undefined, some (.PreConditionFailed err entity
        (Contains ce "attribute_not_exists" || Contains ce "=")
        (Contains ce "attribute_exists" || Contains ce "<>"))) := by
  simp [Storage.updateItem, hrej, hccf, hce]

/-- C30, as the code has it: when the backend rejects, with a conditional-check
failure, an `Update` or `UpdateWith` carrying exactly one condition on a field
with the non-empty wire name `k`, the flags passed to `PreConditionFailed` are
read off the whole expression, which holds `k` inside its alias and binding
tokens: for `Eq` and `NotExists` the first flag is true and the second is
true exactly when `k` contains `attribute_exists` or `<>`; for `Ne` and
`Exists` the second flag is true and the first is true exactly when `k`
contains `attribute_not_exists` or `=`. So the flags are (true, false) and
(false, true) for every `k` that contains none of these texts. -/
theorem precondition_flags (recover : E → Bool) (marshal : A → Option AttributeValue)
    (db : Storage T E) (k : String) (v : A) (m : AttributeValue) (err : E) (hk : k ≠ "")
    (hm : marshal v = some m) (hccf : recover err = true) (c : Constraint A) (a b : Bool)
    (hc : ((c = (⟨k⟩ : ConditionExpression A).Eq v ∨
          c = (⟨k⟩ : ConditionExpression A).NotExists) ∧
        a = true ∧ b = (Contains k "attribute_exists" || Contains k "<>")) ∨
      ((c = (⟨k⟩ : ConditionExpression A).Ne v ∨ c = (⟨k⟩ : ConditionExpression A).Exists) ∧
        a = (Contains k "attribute_not_exists" || Contains k "=") ∧ b = true)) :
    (∀ entity req, (db.Update recover marshal entity [c]).calls = [req] →
      db.service.UpdateItem req = .error err →
      (db.Update recover marshal entity [c]).result =
        some (db.undefined, some (.PreConditionFailed err entity a b))) ∧
    (∀ expr req, expr.update.ConditionExpression = none →
      (db.UpdateWith recover marshal expr [c]).calls = [req] →
      db.service.UpdateItem req = .error err →
      (db.UpdateWith recover marshal expr [c]).result =
        some (db.undefined, some (.PreConditionFailed err expr.entity a b))) := by
  have hfacts : c.key ≠ "" ∧ (∃ ms : List AttributeValue, c.operands.map marshal = ms.map some) ∧
      (Contains c.expr "attribute_not_exists" || Contains c.expr "=") = a ∧
      (Contains c.expr "attribute_exists" || Contains c.expr "<>") = b := by
    rcases hc with ⟨rfl | rfl, rfl, rfl⟩ | ⟨rfl | rfl, rfl, rfl⟩
    · exact ⟨hk, ⟨[m], by simp [ConditionExpression.Eq, Constraint.operands, hm]⟩,
        (flags_Eq k v).1, (flags_Eq k v).2⟩
    · exact ⟨hk, ⟨[], rfl⟩, (flags_NotExists k).1, (flags_NotExists k).2⟩
    · exact ⟨hk, ⟨[m], by simp [ConditionExpression.Ne, Constraint.operands, hm]⟩,
        (flags_Ne k v).1, (flags_Ne k v).2⟩
    · exact ⟨hk, ⟨[], rfl⟩, (flags_Exists k).1, (flags_Exists k).2⟩
  obtain ⟨hkey, ⟨ms, hms⟩, ha, hb⟩ := hfacts
  constructor
  · intro entity req hcalls hrej
    obtain ⟨h1, gen, _, h2⟩ := Update_of_calls recover marshal db entity [c] req hcalls
    have hce := conditionRequest_single marshal _ req c ms hkey hms rfl h2
    rw [h1, updateItem_rejected recover db req entity err c.expr hrej hccf hce, ha, hb]
  · intro expr req h0 hcalls hrej
    obtain ⟨h1, gen, _, h2⟩ := UpdateWith_of_calls recover marshal db expr [c] req hcalls
    have hce := conditionRequest_single marshal _ req c ms hkey hms
      (show ({ expr.update with
        Key := some (db.codec.KeyOnly gen)
        TableName := db.table
        ReturnValues := "ALL_NEW" } : UpdateItemInput).ConditionExpression = none from h0) h2
    rw [h1, updateItem_rejected recover db req expr.entity err c.expr hrej hccf hce, ha, hb]

theorem precondition_flags_witness :
    ((mockStorage (mockFailing "ConditionalCheckFailedException") mockCodec).Update
        (fun _ => true) (fun s : String => some (.S s)) mockItem
        [(⟨"name"⟩ : ConditionExpression String).Eq "xxx"]).result =
      some (GoMap.empty, some (.PreConditionFailed "ConditionalCheckFailedException" mockItem
        true false)) ∧
    ((mockStorage (mockFailing "ConditionalCheckFailedException") mockCodec).Update
        (fun _ => true) (fun s : String => some (.S s)) mockItem
        [(⟨"name"⟩ : ConditionExpression String).Exists]).result =
      some (GoMap.empty, some (.PreConditionFailed "ConditionalCheckFailedException" mockItem
        false true)) :=
  ⟨(precondition_flags (fun _ => true) (fun s : String => some (.S s))
      (mockStorage (mockFailing "ConditionalCheckFailedException") mockCodec) "name" "xxx"
      (.S "xxx") "ConditionalCheckFailedException" (by decide) rfl rfl
      ((⟨"name"⟩ : ConditionExpression String).Eq "xxx") true false
      (Or.inl ⟨Or.inl rfl, rfl, by decide⟩)).1 mockItem _ rfl rfl,
   (precondition_flags (fun _ => true) (fun s : String => some (.S s))
      (mockStorage (mockFailing "ConditionalCheckFailedException") mockCodec) "name" "xxx"
      (.S "xxx") "ConditionalCheckFailedException" (by decide) rfl rfl
      ((⟨"name"⟩ : ConditionExpression String).Exists) false true
      (Or.inr ⟨Or.inr rfl, by decide, rfl⟩)).1 mockItem _ rfl rfl⟩

/-- C30 as stated fails for some wire names: a rejected `Update` with `Eq` on
the field `x<>y` reports (true, true) instead of (true, false), and with
`Exists` on the field `a=b` it reports (true, true) instead of (false, true),
the texts `<>` and `=` being found in the tokens. -/
theorem precondition_flags_follow_key :
    ((mockStorage (mockFailing "ConditionalCheckFailedException") mockCodec).Update
        (fun _ => true) (fun s : String => some (.S s)) mockItem
        [(⟨"x<>y"⟩ : ConditionExpression String).Eq "1"]).result =
      some (GoMap.empty, some (.PreConditionFailed "ConditionalCheckFailedException" mockItem
        true true)) ∧
    ((mockStorage (mockFailing "ConditionalCheckFailedException") mockCodec).Update
        (fun _ => true) (fun s : String => some (.S s)) mockItem
        [(⟨"a=b"⟩ : ConditionExpression String).Exists]).result =
      some (GoMap.empty, some (.PreConditionFailed "ConditionalCheckFailedException" mockItem
        true true)) :=
  ⟨rfl, rfl⟩

end Flags

/-! ## The tables `maybeConditionExpression` returns -/

section ReturnedTables

variable {A V : Type}

theorem fold_of_empty_keys (marshal : A → Option V) (cs : List (Constraint A)) :
    ∀ acc : Accumulator V, (∀ c ∈ cs, c.key = "") →
      cs.foldl (fun acc opt => opt.Apply marshal acc) acc = acc := by
  induction cs with
  | nil => intro acc _; rfl
  | cons c cs ih =>
    intro acc h
    simp only [List.foldl_cons]
    rw [apply_guard marshal c acc (h c (by simp))]
    exact ih acc (fun c' hc' => h c' (by simp [hc']))

theorem fold_unary_values (marshal : A → Option V) (cs : List (Constraint A)) :
    ∀ acc : Accumulator V, (∀ c ∈ cs, ∃ u, c = .unary u) →
      (cs.foldl (fun acc opt => opt.Apply marshal acc) acc).expressionAttributeValues =
        acc.expressionAttributeValues := by
  induction cs with
  | nil => intro acc _; rfl
  | cons c cs ih =>
    intro acc h
    obtain ⟨u, rfl⟩ := h c (by simp)
    simp only [List.foldl_cons]
    rw [ih _ (fun c' hc' => h c' (by simp [hc']))]
    simp only [Constraint.Apply, unaryCondition.Apply]
    split <;> rfl

theorem len_ne_zero_of_lookup {W : Type} (m : GoMap W) (t : String) (v : W)
    (h : m.lookup t = some v) : m.len ≠ 0 := by
  have hk : t ∈ m.keys := (GoMap.lookup_isSome_iff m t).mp (by rw [h]; rfl)
  intro h0
  have he : m.entries = [] := List.length_eq_zero.mp h0
  simp [GoMap.keys, he] at hk

/-- After a list of nodes, the alias of every `Exists`/`NotExists` node with a
non-empty key resolves to that key. -/
theorem fold_unary_alias (marshal : A → Option V) (cs : List (Constraint A))
    (u : unaryCondition) (hu : Constraint.unary u ∈ cs) (hk : u.key ≠ "")
    (acc : Accumulator V) :
    (cs.foldl (fun acc opt => opt.Apply marshal acc) acc).expressionAttributeNames.lookup
      ("#__c_" ++ u.key ++ "__") = some u.key := by
  obtain ⟨pre, post, rfl⟩ := List.append_of_mem hu
  rw [List.foldl_append, List.foldl_cons]
  apply fold_names_lookup_alias
  simp only [Constraint.Apply, unaryCondition.Apply, hk, if_false]
  exact GoMap.lookup_store_self _ _ _

/-- C31: `maybeConditionExpression` never returns an empty table. With no
conditions it returns both tables absent and the expression as it was. With
conditions each returned table is absent or non-empty. A list holding only
`Exists`/`NotExists` nodes returns an absent value table, and a non-empty name
table as soon as one of the nodes has a non-empty key; a list holding only
nodes with an empty key returns both tables absent and the expression as it
was. -/
theorem maybeConditionExpression_tables (marshal : A → Option V) (ce : Option String)
    (opts : List (Constraint A)) :
    maybeConditionExpression marshal ce ([] : List (Constraint A)) = ⟨ce, none, none⟩ ∧
    (∀ m, (maybeConditionExpression marshal ce opts).expressionAttributeNames = some m →
      m.len ≠ 0) ∧
    (∀ m, (maybeConditionExpression marshal ce opts).expressionAttributeValues = some m →
      m.len ≠ 0) ∧
    ((∀ c ∈ opts, ∃ u, c = .unary u) →
      (maybeConditionExpression marshal ce opts).expressionAttributeValues = none ∧
      ((∃ c ∈ opts, c.key ≠ "") →
        ∃ m, (maybeConditionExpression marshal ce opts).expressionAttributeNames = some m ∧
          m.len ≠ 0)) ∧
    ((∀ c ∈ opts, c.key = "") →
      maybeConditionExpression marshal ce opts = ⟨ce, none, none⟩) := by
  refine ⟨rfl, ?_, ?_, ?_, ?_⟩
  · intro m h
    simp only [maybeConditionExpression] at h
    split at h
    · simp only at h
      split at h
      · cases h
      · rename_i hne
        cases h
        exact hne
    · cases h
  · intro m h
    simp only [maybeConditionExpression] at h
    split at h
    · simp only at h
      split at h
      · cases h
      · rename_i hne
        cases h
        exact hne
    · cases h
  · intro hun
    constructor
    · simp only [maybeConditionExpression]
      split
      · simp [fold_unary_values marshal opts _ hun, GoMap.len, GoMap.empty]
      · rfl
    · rintro ⟨c, hc, hk⟩
      obtain ⟨u, rfl⟩ := hun c hc
      have hpos : opts.length > 0 := List.length_pos_of_mem hc
      have hl := fold_unary_alias marshal opts u hc hk ⟨ce, GoMap.empty, GoMap.empty⟩
      have hne := len_ne_zero_of_lookup _ _ _ hl
      refine ⟨_, ?_, hne⟩
      simp only [maybeConditionExpression, hpos, if_true, hne, if_false]
  · intro hempty
    simp only [maybeConditionExpression]
    split
    · simp [fold_of_empty_keys marshal opts _ hempty, GoMap.len, GoMap.empty]
    · rfl

theorem maybeConditionExpression_tables_witness :
    (maybeConditionExpression (fun s : String => some s) (some "x")
        ([] : List (Constraint String))) = ⟨some "x", none, none⟩ ∧
    (maybeConditionExpression (fun s : String => some s) none
        [(⟨"name"⟩ : ConditionExpression String).Exists,
         (⟨"city"⟩ : ConditionExpression String).NotExists]).expressionAttributeValues = none ∧
    (∃ m, (maybeConditionExpression (fun s : String => some s) none
        [(⟨"name"⟩ : ConditionExpression String).Exists,
         (⟨"city"⟩ : ConditionExpression String).NotExists]).expressionAttributeNames = some m ∧
      m.len ≠ 0) ∧
    maybeConditionExpression (fun s : String => some s) (some "x")
        [(⟨""⟩ : ConditionExpression String).Eq "1",
         (⟨""⟩ : ConditionExpression String).Exists] = ⟨some "x", none, none⟩ :=
  ⟨(maybeConditionExpression_tables (fun s : String => some s) (some "x") []).1,
   ((maybeConditionExpression_tables (fun s : String => some s) none
      [(⟨"name"⟩ : ConditionExpression String).Exists,
       (⟨"city"⟩ : ConditionExpression String).NotExists]).2.2.2.1 (by
        intro c hc
        simp only [List.mem_cons, List.mem_singleton, List.not_mem_nil, or_false] at hc
        rcases hc with rfl | rfl
        · exact ⟨_, rfl⟩
        · exact ⟨_, rfl⟩)).1,
   ((maybeConditionExpression_tables (fun s : String => some s) none
      [(⟨"name"⟩ : ConditionExpression String).Exists,
       (⟨"city"⟩ : ConditionExpression String).NotExists]).2.2.2.1 (by
        intro c hc
        simp only [List.mem_cons, List.mem_singleton, List.not_mem_nil, or_false] at hc
        rcases hc with rfl | rfl
        · exact ⟨_, rfl⟩
        · exact ⟨_, rfl⟩)).2 ⟨_, List.mem_cons_self _ _, by decide⟩,
   (maybeConditionExpression_tables (fun s : String => some s) (some "x")
      [(⟨""⟩ : ConditionExpression String).Eq "1",
       (⟨""⟩ : ConditionExpression String).Exists]).2.2.2.2 (by decide)⟩

end ReturnedTables

/-! ## Nodes whose operand does not marshal -/

section FailedOperand

variable {A V : Type}

/-- A comparison, `Between`, `HasPrefix` or `Contains` node with an operand
that does not marshal returns the accumulator as it received it: these nodes
marshal every operand before they assign anything. -/
theorem apply_of_failed_operand (marshal : A → Option V) (c : Constraint A)
    (acc : Accumulator V) (hin : ∀ s, c ≠ .inSeq s)
    (h : ∃ x ∈ c.operands, marshal x = none) : c.Apply marshal acc = acc := by
  obtain ⟨x, hx, hnone⟩ := h
  cases c with
  | dyadic c =>
    simp only [Constraint.operands, List.mem_singleton] at hx
    subst hx
    simp only [Constraint.Apply, dyadicCondition.Apply, hnone]
    split <;> rfl
  | unary c => simp [Constraint.operands] at hx
  | between c =>
    simp only [Constraint.operands, List.mem_cons, List.mem_singleton, List.not_mem_nil,
      or_false] at hx
    simp only [Constraint.Apply, betweenCondition.Apply]
    split
    · rfl
    · rcases hx with rfl | rfl
      · simp [hnone]
      · cases ha : marshal c.a <;> simp [hnone]
  | inSeq c => exact absurd rfl (hin c)
  | functional c =>
    simp only [Constraint.operands, List.mem_singleton] at hx
    subst hx
    simp only [Constraint.Apply, functionalCondition.Apply, hnone]
    split <;> rfl

/-- An `In` node with a non-empty key and an operand that does not marshal
leaves the expression as it was, yet its alias is in the name table. -/
theorem in_apply_of_failed_operand (marshal : A → Option V) (op : inCondition A)
    (acc : Accumulator V) (hk : op.key ≠ "") (h : ∃ x ∈ op.seq, marshal x = none) :
    ((Constraint.inSeq op).Apply marshal acc).conditionExpression = acc.conditionExpression ∧
    ((Constraint.inSeq op).Apply marshal acc).expressionAttributeNames =
      acc.expressionAttributeNames.store ("#__c_" ++ op.key ++ "__") op.key := by
  have hl := inCondition_loop_fails marshal op.key op.seq 0 (List.replicate op.seq.length "")
    acc.expressionAttributeValues h
  simp only [Constraint.Apply, inCondition.Apply, hk, if_false]
  split
  · exact ⟨rfl, rfl⟩
  · rename_i heq
    rw [heq] at hl
    cases hl

/-- C32 fails in the code for `In`: with the second operand failing to
marshal, `Apply` on empty tables leaves the expression untouched but returns
the name table with its alias and the value table with the binding of the
first operand; on tables already holding an `Eq` node it adds both to them.
The `Between` node with the same operands returns everything as it was. -/
theorem In_keeps_entries_after_failed_operand :
    ((⟨"name"⟩ : ConditionExpression String).In ["a", "bad"]).Apply mockMarshal
        Accumulator.empty =
      ⟨none, ⟨[("#__c_name__", "name")]⟩, ⟨[(":__c_name_0__", "a")]⟩⟩ ∧
    ((⟨"name"⟩ : ConditionExpression String).In ["a", "bad"]).Apply mockMarshal
        ⟨some "(#__c_age__ = :__c_age__)", ⟨[("#__c_age__", "age")]⟩,
          ⟨[(":__c_age__", "64")]⟩⟩ =
      ⟨some "(#__c_age__ = :__c_age__)", ⟨[("#__c_age__", "age"), ("#__c_name__", "name")]⟩,
        ⟨[(":__c_age__", "64"), (":__c_name_0__", "a")]⟩⟩ ∧
    ((⟨"name"⟩ : ConditionExpression String).Between "a" "bad").Apply mockMarshal
        Accumulator.empty = Accumulator.empty := by
  refine ⟨by decide, by decide, by decide⟩

end FailedOperand

/-! ## Match: placeholders and bindings -/

section Placeholders

variable {T E : Type}

theorem lookupEntries_mem {W : Type} (es : List (String × W)) (k : String) (v : W)
    (h : GoMap.lookupEntries es k = some v) : (k, v) ∈ es := by
  induction es with
  | nil => simp [GoMap.lookupEntries] at h
  | cons e es ih =>
    obtain ⟨k1, v1⟩ := e
    by_cases h1 : k1 = k
    · subst h1
      simp only [GoMap.lookupEntries, if_true, Option.some.injEq] at h
      subst h
      simp
    · simp only [GoMap.lookupEntries, h1, if_false] at h
      exact List.mem_cons_of_mem _ (ih h)

theorem lookup_delete_ne {W : Type} (m : GoMap W) {k k' : String} (h : k' ≠ k) :
    (m.delete k).lookup k' = m.lookup k' := by
  obtain ⟨es⟩ := m
  simp only [GoMap.delete, GoMap.lookup]
  induction es with
  | nil => rfl
  | cons e es ih =>
    obtain ⟨k1, v1⟩ := e
    by_cases h1 : k1 = k
    · subst h1
      simp [List.filter_cons, GoMap.lookupEntries, Ne.symm h, ih]
    · by_cases h2 : k1 = k'
      · subst h2
        simp [List.filter_cons, h1, GoMap.lookupEntries]
      · simp [List.filter_cons, h1, h2, GoMap.lookupEntries, ih]

/-- The loop of `exprOf` keeps every binding it has made and binds the token
of every attribute that is not a NULL member. -/
theorem exprOf_fold_keys (es : List (String × AttributeValue)) :
    ∀ (val : GoMap AttributeValue) (t : String),
      (t ∈ val.keys ∨ ∃ e ∈ es, (∀ b, e.2 ≠ .NULL b) ∧ t = ":__" ++ e.1 ++ "__") →
      t ∈ (es.foldl
        (fun val e =>
          match e.2 with
          | .NULL _ => val
          | v => val.store (":__" ++ e.1 ++ "__") v) val).keys := by
  induction es with
  | nil =>
    intro val t h
    rcases h with h | ⟨e, he, _⟩
    · exact h
    · simp at he
  | cons e es ih =>
    intro val t h
    simp only [List.foldl_cons]
    apply ih
    rcases h with h | ⟨e', he', hnn, rfl⟩
    · left
      split
      · exact h
      · exact (GoMap.mem_keys_store _ _ _ _).mpr (Or.inr h)
    · simp only [List.mem_cons] at he'
      rcases he' with rfl | he'
      · left
        split
        · rename_i b heq
          exact absurd heq (hnn b)
        · exact (GoMap.mem_keys_store _ _ _ _).mpr (Or.inl rfl)
      · exact Or.inr ⟨e', he', hnn, rfl⟩

theorem mem_keys_exprOf_of_lookup (gen : GoMap AttributeValue) (k : String)
    (v : AttributeValue) (h : gen.lookup k = some v) (hv : ∀ b, v ≠ .NULL b) :
    ":__" ++ k ++ "__" ∈ (exprOf gen).keys :=
  exprOf_fold_keys gen.entries GoMap.empty _
    (Or.inr ⟨(k, v), lookupEntries_mem gen.entries k v h, hv, rfl⟩)

/-- C33, as the code has it: for an encoded key whose hash-key attribute is present and
not NULL and whose sort-key attribute, if present, is not NULL either (the two
reserved names being different), the one request `match` issues is
self-consistent: its key condition is `pk = :__pk__`, or that followed by the
`begins_with` clause on `:__sk__`, and every placeholder of the condition it
has is a key of `ExpressionAttributeValues`. -/
theorem match_placeholders_bound (db : Storage T E) (gen : GoMap AttributeValue)
    (opts : List MatchOpt) (v : AttributeValue)
    (hne : db.codec.pkPrefix ≠ db.codec.skSuffix)
    (hpk : gen.lookup db.codec.pkPrefix = some v) (hv : ∀ b, v ≠ .NULL b)
    (hsk : ∀ w, gen.lookup db.codec.skSuffix = some w → ∀ b, w ≠ .NULL b) :
    ∃ q, (db.match_ gen opts).calls = [q] ∧
      ":__" ++ db.codec.pkPrefix ++ "__" ∈ q.ExpressionAttributeValues.keys ∧
      (q.KeyConditionExpression =
          some (db.codec.pkPrefix ++ " = :__" ++ db.codec.pkPrefix ++ "__") ∨
        (q.KeyConditionExpression =
          some (db.codec.pkPrefix ++ " = :__" ++ db.codec.pkPrefix ++ "__" ++
            " and begins_with(" ++ db.codec.skSuffix ++ ", :__" ++ db.codec.skSuffix ++ "__)") ∧
          ":__" ++ db.codec.skSuffix ++ "__" ∈ q.ExpressionAttributeValues.keys)) := by
  refine ⟨_, match_calls db gen opts, ?_⟩
  cases hs : gen.lookup db.codec.skSuffix with
  | none =>
    rw [matchQuery_of_absent db gen opts hs]
    exact ⟨mem_keys_exprOf_of_lookup gen _ v hpk hv, Or.inl rfl⟩
  | some w =>
    by_cases hw : w = .S "_"
    · subst hw
      rw [matchQuery_of_sentinel db gen opts hs,
        matchQuery_of_absent db _ opts (lookup_delete_self gen _)]
      refine ⟨mem_keys_exprOf_of_lookup _ _ v ?_ hv, Or.inl rfl⟩
      rw [lookup_delete_ne gen hne]
      exact hpk
    · rw [matchQuery_of_present db gen opts w hs hw]
      exact ⟨mem_keys_exprOf_of_lookup gen _ v hpk hv,
        Or.inr ⟨rfl, mem_keys_exprOf_of_lookup gen _ w hs (hsk w hs)⟩⟩

theorem match_placeholders_bound_witness :
    ∃ q, ((mockStorage mockDDB mockCodec).match_
        ⟨[("prefix", .S "dead"), ("suffix", .S "be")]⟩ []).calls = [q] ∧
      ":__prefix__" ∈ q.ExpressionAttributeValues.keys ∧
      (q.KeyConditionExpression = some "prefix = :__prefix__" ∨
        (q.KeyConditionExpression =
            some "prefix = :__prefix__ and begins_with(suffix, :__suffix__)" ∧
          ":__suffix__" ∈ q.ExpressionAttributeValues.keys)) :=
  match_placeholders_bound (mockStorage mockDDB mockCodec)
    ⟨[("prefix", .S "dead"), ("suffix", .S "be")]⟩ [] (.S "dead") (by decide) rfl
    (by intro b h; cases h) (by
      intro w hw b hb
      subst hb
      have h2 : (some (AttributeValue.S "be") : Option AttributeValue) = some (.NULL b) := hw
      cases h2)

/-- C33 as stated fails: for an encoded key with the sort-key attribute NULL
the key condition has the `begins_with` clause on `:__suffix__` while
`ExpressionAttributeValues` binds `:__prefix__` alone. When the two reserved
names are one and the attribute is the text `_`, the attribute is deleted and
the request binds nothing. -/
theorem match_placeholder_unbound :
    (((mockStorage mockDDB mockCodec).match_
        ⟨[("prefix", .S "dead"), ("suffix", .NULL true)]⟩ []).calls.map fun q =>
          (q.KeyConditionExpression, q.ExpressionAttributeValues.keys)) =
      [(some "prefix = :__prefix__ and begins_with(suffix, :__suffix__)", [":__prefix__"])] ∧
    (((mockStorage mockDDB { mockCodec with skSuffix := "prefix" }).match_
        ⟨[("prefix", .S "_")]⟩ []).calls.map fun q =>
          (q.KeyConditionExpression, q.ExpressionAttributeValues.keys)) =
      [(some "prefix = :__prefix__", [])] := by
  refine ⟨by decide, by decide⟩

end Placeholders

/-! ## Match: the indices the loop reads -/

section IndexBounds

variable {T E : Type}

/-- The loop of `match` reads only the items at the indices it is due to
visit. -/
theorem matchLoop_congr (db : Storage T E) (items items' : List (GoMap AttributeValue)) :
    ∀ (n i : Nat) (seq : List T), (∀ j, i ≤ j → j < i + n → items[j]? = items'[j]?) →
      db.matchLoop items n i seq = db.matchLoop items' n i seq := by
  intro n
  induction n with
  | zero => intro i seq _; rfl
  | succ n ih =>
    intro i seq h
    simp only [Storage.matchLoop]
    rw [← h i (Nat.le_refl i) (by omega)]
    cases items[i]? with
    | none => rfl
    | some item =>
      simp only
      split
      · rfl
      · exact ih (i + 1) _ (fun j h1 h2 => h j (by omega) (by omega))

/-- With every index in range the loop of `match` returns. -/
theorem matchLoop_in_range (db : Storage T E) (items : List (GoMap AttributeValue)) :
    ∀ (n i : Nat) (seq : List T), i + n ≤ items.length →
      ∃ r, db.matchLoop items n i seq = some r := by
  intro n
  induction n with
  | zero => intro i seq _; exact ⟨_, rfl⟩
  | succ n ih =>
    intro i seq h
    have hi : i < items.length := by omega
    simp only [Storage.matchLoop, List.getElem?_eq_getElem hi]
    split
    · exact ⟨_, rfl⟩
    · exact ih (i + 1) _ (by omega)

/-- With more rounds than items, all of which decode, the loop of `match`
reads `Items[len(Items)]`. -/
theorem matchLoop_out_of_range (db : Storage T E) (items : List (GoMap AttributeValue))
    (hdec : ∀ item ∈ items, (db.codec.Decode item).2 = none) :
    ∀ (n i : Nat) (seq : List T), i ≤ items.length → items.length < i + n →
      db.matchLoop items n i seq = none := by
  intro n
  induction n with
  | zero => intro i seq h1 h2; omega
  | succ n ih =>
    intro i seq h1 h2
    rcases Nat.lt_or_ge i items.length with hi | hi
    · have hd := hdec items[i] (List.getElem_mem hi)
      simp only [Storage.matchLoop, List.getElem?_eq_getElem hi]
      rw [decode_eq_of_ok db _ hd]
      exact ih (i + 1) _ (by omega) (by omega)
    · simp [Storage.matchLoop, List.getElem?_eq_none hi]

/-- C34, as the code has it: `match` allocates `Count` results and reads `Items[i]` at
the indices `i < Count` in turn, stopping at the first item that fails to
decode. When `0 <= Count <= len(Items)` no index is out of range, so the run
returns, and its result is that of the run on the first `Count` items alone.
When `Count > len(Items)` the read of `Items[len(Items)]` is out of bounds,
and the run reaches it exactly when every item decodes; when some item fails
to decode the run returns `InvalidEntity` before it. -/
theorem match_index_bounds (db : Storage T E) (gen : GoMap AttributeValue)
    (opts : List MatchOpt) (q : QueryInput) (val : QueryOutput)
    (hq : (db.match_ gen opts).calls = [q]) (hval : db.service.Query q = .ok val) :
    (0 ≤ val.Count → val.Count ≤ val.Items.length →
      (∃ r, (db.match_ gen opts).result = some r) ∧
      (db.match_ gen opts).result =
        db.matchLoop (val.Items.take val.Count.toNat) val.Count.toNat 0
          (List.replicate val.Count.toNat db.undefined)) ∧
    ((val.Items.length : Int) < val.Count →
      val.Items[val.Items.length]? = none ∧
      ((∀ item ∈ val.Items, (db.codec.Decode item).2 = none) →
        (db.match_ gen opts).result = none) ∧
      ((∃ item ∈ val.Items, (db.codec.Decode item).2 ≠ none) →
        ∃ err, (db.match_ gen opts).result = some (none, some (.InvalidEntity err)))) := by
  have hres := match_result_of_ok db gen opts q val hq hval
  constructor
  · intro h0 hle
    have hn : ¬ val.Count < 0 := by omega
    rw [hres, if_neg hn]
    have hle' : val.Count.toNat ≤ val.Items.length := by omega
    refine ⟨matchLoop_in_range db val.Items _ 0 _ (by omega), ?_⟩
    apply matchLoop_congr
    intro j _ hj
    rw [List.getElem?_take_of_lt (by omega)]
  · intro hgt
    have hn : ¬ val.Count < 0 := by omega
    have hlt : val.Items.length < val.Count.toNat := by omega
    refine ⟨List.getElem?_eq_none (Nat.le_refl _), ?_, ?_⟩
    · intro hdec
      rw [hres, if_neg hn]
      exact matchLoop_out_of_range db val.Items hdec _ 0 _ (by omega) (by omega)
    · rintro ⟨item, hmem, hbad⟩
      obtain ⟨j, hj, hget⟩ := List.getElem_of_mem hmem
      rw [hres, if_neg hn]
      exact matchLoop_fails db val.Items j item (by rw [List.getElem?_eq_getElem hj, hget])
        hbad _ 0 _ (by omega) (by omega)

theorem match_index_bounds_witness :
    ((mockStorage mockDDB mockCodec).match_ mockItem []).result =
      (mockStorage mockDDB mockCodec).matchLoop ([mockItem, mockItem].take 2) 2 0
        (List.replicate 2 GoMap.empty) ∧
    ((mockStorage mockShort mockCodec).match_ mockItem []).result = none :=
  ⟨((match_index_bounds (mockStorage mockDDB mockCodec) mockItem [] _ ⟨2, [mockItem, mockItem]⟩
      (match_calls _ _ _) rfl).1 (by decide) (by decide)).2,
   ((match_index_bounds (mockStorage mockShort mockCodec) mockItem [] _ ⟨2, [mockItem]⟩
      (match_calls _ _ _) rfl).2 (by decide)).2.1 (by
        intro item _
        rfl)⟩

/-- C34 as stated fails: with `Count = 2` and a single item that does not
decode, no read is out of bounds; the run returns `InvalidEntity` at the
first item. -/
theorem match_stops_before_out_of_range :
    ((mockStorage mockShort mockBadCodec).match_ mockItem []).result =
      some (none, some (.InvalidEntity "bad item")) := by
  rfl

end IndexBounds

/-! ## Update: an entity of key attributes only -/

section KeyOnlyUpdate

variable {T E A : Type}

theorem updateStep_fold_skipped (db : Storage T E) (es : List (String × AttributeValue)) :
    ∀ st, (∀ e ∈ es, db.isPatched e.1 = false) → es.foldl db.updateStep st = st := by
  induction es with
  | nil => intro st _; rfl
  | cons e es ih =>
    intro st h
    have he : ¬ (e.1 ≠ db.codec.pkPrefix ∧ e.1 ≠ db.codec.skSuffix ∧ e.1 ≠ "id") := by
      have := h e (by simp)
      simpa [Storage.isPatched] using this
    simp only [List.foldl_cons, Storage.updateStep, if_neg he]
    exact ih st (fun e' he' => h e' (by simp [he']))

theorem updateStep_fold_clauses (db : Storage T E) (es : List (String × AttributeValue)) :
    ∀ st, (es.foldl db.updateStep st).2.2 =
      st.2.2 ++ (es.filter fun e => db.isPatched e.1).map fun e =>
        "#__" ++ e.1 ++ "__=" ++ ":__" ++ e.1 ++ "__" := by
  induction es with
  | nil => intro st; simp
  | cons e es ih =>
    intro st
    simp only [List.foldl_cons]
    rw [ih]
    by_cases hp : e.1 ≠ db.codec.pkPrefix ∧ e.1 ≠ db.codec.skSuffix ∧ e.1 ≠ "id"
    · have hpe : db.isPatched e.1 = true := by simp [Storage.isPatched, hp]
      simp [Storage.updateStep, if_pos hp, List.filter_cons, hpe]
    · have hpe : db.isPatched e.1 = false := by simp [Storage.isPatched, hp]
      simp [Storage.updateStep, if_neg hp, List.filter_cons, hpe]

theorem intercalate_ne_empty (sep c : String) (cs : List String) (hc : c ≠ "") :
    sep.intercalate (c :: cs) ≠ "" := by
  have hgo : ∀ (xs : List String) (acc : String), acc ≠ "" →
      xs.foldl (fun a x => a ++ sep ++ x) acc ≠ "" := by
    intro xs
    induction xs with
    | nil => intro acc h; exact h
    | cons x xs ih =>
      intro acc h
      apply ih
      intro e
      apply h
      have e2 := congrArg String.data e
      simp only [String.data_append, List.append_assoc] at e2
      have e3 : acc.data = [] := (List.append_eq_nil.mp e2).1
      exact String.ext e3
  simp only [String.intercalate, intercalate_go_eq]
  exact hgo cs c hc

/-- C35: for an entity whose encoding holds only the hash-key attribute, the
sort-key attribute or the attribute `id`, the request `Update` builds has the
update expression `SET ` and two empty tables, so that the request sent holds
in its tables nothing but what the conditions put there; for an entity with
another encoded attribute the clause list after `SET ` is not empty. -/
theorem Update_key_only (recover : E → Bool) (marshal : A → Option AttributeValue)
    (db : Storage T E) (entity : T) (config : List (Constraint A)) (gen : GoMap AttributeValue)
    (henc : db.codec.Encode entity = (gen, none)) :
    ((∀ k ∈ gen.keys, k = db.codec.pkPrefix ∨ k = db.codec.skSuffix ∨ k = "id") →
      db.updateRequest gen =
        { Key := some (db.codec.KeyOnly gen)
          ExpressionAttributeNames := some GoMap.empty
          ExpressionAttributeValues := some GoMap.empty
          UpdateExpression := some "SET "
          ConditionExpression := none
          TableName := db.table
          ReturnValues := "ALL_NEW" } ∧
      ∃ req, (db.Update recover marshal entity config).calls = [req] ∧
        req.UpdateExpression = some "SET " ∧
        req.ExpressionAttributeNames =
          some (maybeUpdateConditionExpression marshal ⟨none, GoMap.empty, GoMap.empty⟩
            config).expressionAttributeNames ∧
        req.ExpressionAttributeValues =
          some (maybeUpdateConditionExpression marshal ⟨none, GoMap.empty, GoMap.empty⟩
            config).expressionAttributeValues) ∧
    ((∃ k ∈ gen.keys, k ≠ db.codec.pkPrefix ∧ k ≠ db.codec.skSuffix ∧ k ≠ "id") →
      ∃ req clauses, (db.Update recover marshal entity config).calls = [req] ∧
        clauses ≠ [] ∧
        clauses = ((gen.entries.filter fun e => db.isPatched e.1).map fun e =>
          "#__" ++ e.1 ++ "__=" ++ ":__" ++ e.1 ++ "__") ∧
        req.UpdateExpression = some ("SET " ++ ",".intercalate clauses) ∧
        req.UpdateExpression ≠ some "SET ") := by
  obtain ⟨req, h1, h2⟩ := Update_of_encoded recover marshal db entity config gen henc
  have hframe := (conditionRequest_frame marshal config _ req h1).2.1
  constructor
  · intro hkeys
    have hskip : ∀ e ∈ gen.entries, db.isPatched e.1 = false := by
      intro e he
      have := hkeys e.1 (List.mem_map_of_mem Prod.fst he)
      simp only [Storage.isPatched, decide_eq_false_iff_not, not_and_or, not_not]
      exact this
    have hreq : db.updateRequest gen =
        { Key := some (db.codec.KeyOnly gen)
          ExpressionAttributeNames := some GoMap.empty
          ExpressionAttributeValues := some GoMap.empty
          UpdateExpression := some "SET "
          ConditionExpression := none
          TableName := db.table
          ReturnValues := "ALL_NEW" } := by
      simp only [Storage.updateRequest, updateStep_fold_skipped db gen.entries _ hskip]
      rfl
    refine ⟨hreq, req, by rw [h2, updateItem_calls], ?_⟩
    have hc := conditionRequest_of_tables marshal config (db.updateRequest gen)
      GoMap.empty GoMap.empty (by rw [hreq]) (by rw [hreq])
    rw [h1] at hc
    cases hc
    refine ⟨by rw [hreq], ?_, ?_⟩ <;> simp [hreq]
  · rintro ⟨k, hk, hp⟩
    have hclauses : (db.updateRequest gen).UpdateExpression =
        some ("SET " ++ ",".intercalate ((gen.entries.filter fun e => db.isPatched e.1).map
          fun e => "#__" ++ e.1 ++ "__=" ++ ":__" ++ e.1 ++ "__")) := by
      simp [Storage.updateRequest, updateStep_fold_clauses]
    obtain ⟨e, he, rfl⟩ := List.mem_map.mp hk
    have hmem : e ∈ gen.entries.filter fun e => db.isPatched e.1 :=
      List.mem_filter.mpr ⟨he, by simp [Storage.isPatched, hp]⟩
    have hne : ((gen.entries.filter fun e => db.isPatched e.1).map fun e =>
        "#__" ++ e.1 ++ "__=" ++ ":__" ++ e.1 ++ "__") ≠ [] := by
      intro h0
      rw [List.map_eq_nil_iff] at h0
      rw [h0] at hmem
      simp at hmem
    refine ⟨req, _, by rw [h2, updateItem_calls], hne, rfl, by rw [hframe, hclauses], ?_⟩
    rw [hframe, hclauses]
    intro heq
    simp only [Option.some.injEq] at heq
    have hs : ",".intercalate ((gen.entries.filter fun e => db.isPatched e.1).map fun e =>
        "#__" ++ e.1 ++ "__=" ++ ":__" ++ e.1 ++ "__") = "" :=
      str_append_left_cancel (p := "SET ") (by simpa using heq)
    cases hl : (gen.entries.filter fun e => db.isPatched e.1) with
    | nil => rw [hl] at hmem; simp at hmem
    | cons e' es' =>
      rw [hl, List.map_cons] at hs
      refine intercalate_ne_empty "," _ _ ?_ hs
      intro e0
      have e1 := congrArg String.data e0
      simp [String.data_append] at e1

theorem Update_key_only_witness :
    (∃ req, ((mockStorage mockDDB mockCodec).Update (fun _ => false)
        (fun s : String => some (.S s)) ⟨[("prefix", .S "dead"), ("suffix", .S "beef")]⟩
        ([] : List (Constraint String))).calls = [req] ∧
      req.UpdateExpression = some "SET " ∧
      req.ExpressionAttributeNames = some GoMap.empty ∧
      req.ExpressionAttributeValues = some GoMap.empty) ∧
    (∃ req, ((mockStorage mockDDB mockCodec).Update (fun _ => false)
        (fun s : String => some (.S s)) mockItem ([] : List (Constraint String))).calls = [req] ∧
      req.UpdateExpression ≠ some "SET ") := by
  constructor
  · obtain ⟨_, req, h1, h2, h3, h4⟩ :=
      (Update_key_only (fun _ => false) (fun s : String => some (.S s))
        (mockStorage mockDDB mockCodec) ⟨[("prefix", .S "dead"), ("suffix", .S "beef")]⟩
        ([] : List (Constraint String)) ⟨[("prefix", .S "dead"), ("suffix", .S "beef")]⟩ rfl).1
        (by decide)
    exact ⟨req, h1, h2, h3, h4⟩
  · obtain ⟨req, _, h1, _, _, _, h5⟩ :=
      (Update_key_only (fun _ => false) (fun s : String => some (.S s))
        (mockStorage mockDDB mockCodec) mockItem ([] : List (Constraint String)) mockItem rfl).2
        ⟨"name", by decide, by decide⟩
    exact ⟨req, h1, h5⟩

end KeyOnlyUpdate

/-! ## The object-store adapter: constraints -/

section Constraints

variable {T E C : Type}

/-- C36: in the object-store adapter the constraints passed to `Put`, `Remove`
and `Update` have no effect: for every entity and every two lists of
constraints, the empty one included, the requests sent to the backend and the
result returned are the same; what a run with constraints returns is what the
run without any returns. -/
theorem ds3_constraints_ignored (db : ds3 T E) (entity : T) (config config' : List C) :
    db.Put entity config = db.Put entity config' ∧
    db.Remove entity config = db.Remove entity config' ∧
    db.Update entity config = db.Update entity config' ∧
    db.Put entity config = db.Put entity ([] : List C) ∧
    db.Remove entity config = db.Remove entity ([] : List C) ∧
    db.Update entity config = db.Update entity ([] : List C) :=
  ⟨rfl, rfl, rfl, rfl, rfl, rfl⟩

end Constraints

end Dynamo
